import Mathlib

/-!
# Interval scan of `thrust/detail/device/cuda/scan.inl`

A shallow embedding of the three-stage scan (interval kernel, single-warp scan of the
carries, update kernel) and of its two entry points.

* Device memory is a flat address space `Nat → α × Bool`; iterators are addresses, so
  `dereference(p, i)` is the cell `p + i`.  The `Bool` of a cell is a ghost mark that every
  store sets; it plays no role in the computation and only records which cells were stored to.
* A warp is 32 lanes that run in lock-step: a statement is executed by all enabled lanes at
  once, every lane reading the state left by the previous statement.  Per-lane registers are
  functions of the lane number.
* Warps of a launch are run one after the other, in the order of their warp index; the shared
  scratch array lives as long as its block.
* The source computes its indices in `unsigned int`.  The kernels and entry points are
  embedded twice: `kernel32`, `inclusive_update_kernel32`, `exclusive_update_kernel32`,
  `inclusive_scan32`, `exclusive_scan32` reduce every `unsigned int` computation modulo
  `2 ^ 32`, as the source does; `kernel`, `inclusive_scan`, ... are the unbounded-integer
  model of the same code, with the index arithmetic in `Nat`.  The two agree for
  `n ≤ 2 ^ 30` and `8 * MAX_BLOCKS < 2 ^ 32` and differ beyond (`n = 2 ^ 32 - 1`); the
  statements about the program are made about the 32-bit embedding, or about the unbounded
  model at sizes where nothing can wrap.
* Device loops are run with a fuel bound and yield `none` when the bound is hit; every
  statement about a run shows that it yields `some` result.
* `divide_into`, `max_active_threads` and `device_malloc` are defined outside `scan.inl`:
  `divide_into` is taken from the specification, `MAX_BLOCKS` and the address of the carry
  buffer are parameters.
-/

namespace Scan

variable {α : Type}

/-- Device memory: value and ghost store mark per address. -/
abbrev Mem (α : Type) := Nat → α × Bool

/-- The `__shared__` scratch array of one block, indexed like `sdata[...]`. -/
abbrev Shared (α : Type) := Nat → α

def WARP_SIZE : Nat := 32

def BLOCK_SIZE : Nat := 256

def WARPS_PER_BLOCK : Nat := BLOCK_SIZE / WARP_SIZE

/-- The strictly left-to-right fold `op(...op(f a, f (a+1))..., f (a+k))`. -/
def lfold (op : α → α → α) (f : Nat → α) (a : Nat) : Nat → α
  | 0 => f a
  | k + 1 => op (lfold op f a k) (f (a + k + 1))

/-- Lock-step store of the lanes `0..k-1`: every enabled lane `l` stores `v l` at `addr l`.
(Should two enabled lanes name the same address the higher lane wins; the kernels never do.) -/
def scatter {β : Type} (m : Nat → β) (en : Nat → Bool) (addr : Nat → Nat) (v : Nat → β) :
    Nat → Nat → β
  | 0, a => m a
  | k + 1, a => if en k = true ∧ addr k = a then v k else scatter m en addr v k a

/-- Whether some lane of the warp satisfies `p`. -/
def anyLane (p : Nat → Bool) : Bool := (List.range WARP_SIZE).any p

/-- A warp-level `while`: the warp keeps iterating as long as some lane passes the loop test
(`body` masks the lanes that do not).  `none` when the fuel does not suffice. -/
def whileAny {σ : Type} (cond : σ → Nat → Bool) (body : σ → σ) : Nat → σ → Option σ
  | 0, s => if anyLane (cond s) then none else some s
  | fuel + 1, s => if anyLane (cond s) then whileAny cond body fuel (body s) else some s

/-- Runs `f 0`, `f 1`, ..., `f (k-1)` in this order. -/
def forUpTo {σ : Type} (f : Nat → σ → Option σ) : Nat → σ → Option σ
  | 0, s => some s
  | k + 1, s => (forUpTo f k s).bind (f k)

/-! ### Thread coordinates -/

/-- The global thread index `BLOCK_SIZE * blockIdx.x + threadIdx.x`, in unbounded integers
(in `unsigned int`: `thread_id32`). -/
def thread_id (BS bid tid : Nat) : Nat := BS * bid + tid

/-- The thread index within the warp, `threadIdx.x & (WARP_SIZE - 1)`. -/
def thread_lane (tid : Nat) : Nat := tid &&& (WARP_SIZE - 1)

/-- The global warp index `thread_id / WARP_SIZE`, in unbounded integers (in `unsigned int`:
`warp_id32`). -/
def warp_id (BS bid tid : Nat) : Nat := thread_id BS bid tid / WARP_SIZE

/-- The beginning of the segment of the warp, `warp_id * interval_size`, in unbounded
integers: the product does not wrap here (in `unsigned int`: `interval_begin32`). -/
def interval_begin (BS bid tid interval_size : Nat) : Nat := warp_id BS bid tid * interval_size

/-- The end of the segment of the warp, `min(interval_begin + interval_size, n)`, in
unbounded integers: the sum does not wrap here (in `unsigned int`: `interval_end32`). -/
def interval_end (BS bid tid interval_size n : Nat) : Nat :=
  min (interval_begin BS bid tid interval_size + interval_size) n

/-! ### `scan_warp` -/

/-- One guarded statement of `scan_warp`,
`if (thread_lane >= off) sdata[threadIdx.x] = val = binary_op(sdata[threadIdx.x - off], val);`
executed by the lanes `act` of the warp whose lane 0 is thread `tb`. -/
def scan_warp_step (op : α → α → α) (tb : Nat) (act : Nat → Bool) (off : Nat)
    (vs : (Nat → α) × Shared α) : (Nat → α) × Shared α :=
  let en := fun l => act l && decide (off ≤ thread_lane (tb + l))
  let val := fun l => if en l then op (vs.2 (tb + l - off)) (vs.1 l) else vs.1 l
  (val, scatter vs.2 en (fun l => tb + l) val WARP_SIZE)

/-- The device function `scan_warp`: returns the registers `val` and the scratch array. -/
def scan_warp (op : α → α → α) (tb : Nat) (act : Nat → Bool) (val : Nat → α)
    (sdata : Shared α) : (Nat → α) × Shared α :=
  let s0 := scatter sdata act (fun l => tb + l) val WARP_SIZE
  scan_warp_step op tb act 16 (scan_warp_step op tb act 8 (scan_warp_step op tb act 4
    (scan_warp_step op tb act 2 (scan_warp_step op tb act 1 (val, s0)))))

/-! ### `interval_scan::kernel` -/

/-- Registers `i` of the lanes, global memory and scratch while a warp runs `kernel`. -/
structure KState (α : Type) where
  i : Nat → Nat
  mem : Mem α
  sdata : Shared α

/-- The lanes that pass the test `i < interval_end` (and have not returned). -/
def kernel_active (ie : Nat → Nat) (alive : Nat → Bool) (s : KState α) (l : Nat) : Bool :=
  alive l && decide (s.i l < ie l)

/-- The block `if(i < interval_end){ ... }` ("first iteration has no carry in"). -/
def kernel_first (op : α → α → α) (first result tb : Nat) (ie : Nat → Nat)
    (alive : Nat → Bool) (s : KState α) : KState α :=
  let act := kernel_active ie alive s
  let val := fun l => (s.mem (first + s.i l)).1
  let r := scan_warp op tb act val s.sdata
  { i := fun l => if act l then s.i l + WARP_SIZE else s.i l
    mem := scatter s.mem act (fun l => result + s.i l) (fun l => (r.1 l, true)) WARP_SIZE
    sdata := r.2 }

/-- The body of `while(i < interval_end){ ... }` ("remaining iterations have carry in"). -/
def kernel_body (op : α → α → α) (first result tb : Nat) (ie : Nat → Nat)
    (alive : Nat → Bool) (s : KState α) : KState α :=
  let act := kernel_active ie alive s
  let val := fun l => (s.mem (first + s.i l)).1
  let val := fun l =>
    if thread_lane (tb + l) = 0 then op (s.sdata (tb + l + (WARP_SIZE - 1))) (val l) else val l
  let r := scan_warp op tb act val s.sdata
  { i := fun l => if act l then s.i l + WARP_SIZE else s.i l
    mem := scatter s.mem act (fun l => result + s.i l) (fun l => (r.1 l, true)) WARP_SIZE
    sdata := r.2 }

/-- The lanes that pass `if (i == interval_end + (WARP_SIZE - 1))` at the end of `kernel`. -/
def kernel_carry_lane (ie : Nat → Nat) (alive : Nat → Bool) (s : KState α) (l : Nat) : Bool :=
  alive l && decide (s.i l = ie l + (WARP_SIZE - 1))

/-- The unbounded-integer model of the kernel `interval_scan::kernel<BS>` as run by the warp
of block `bid` whose lane 0 is thread `tb`, on global memory `mem` and the block's scratch
`sdata`: the registers `i` and the interval bounds are in `Nat` (with `unsigned int`
arithmetic: `kernel32`). -/
def kernel (op : α → α → α) (BS first n result interval_size final_carry : Nat)
    (bid tb : Nat) (ms : Mem α × Shared α) : Option (Mem α × Shared α) :=
  let ie := fun l => interval_end BS bid (tb + l) interval_size n
  let i0 := fun l => interval_begin BS bid (tb + l) interval_size + thread_lane (tb + l)
  -- if(i >= interval_end) return;
  let alive := fun l => !decide (ie l ≤ i0 l)
  let s1 := kernel_first op first result tb ie alive ⟨i0, ms.1, ms.2⟩
  (whileAny (kernel_active ie alive) (kernel_body op first result tb ie alive) n s1).map
    fun s =>
      (scatter s.mem (kernel_carry_lane ie alive s)
          (fun l => final_carry + warp_id BS bid (tb + l))
          (fun l => (s.sdata (tb + l), true)) WARP_SIZE,
        s.sdata)

/-! ### `interval_scan::inclusive_update_kernel` -/

/-- Registers `i` and global memory while a warp runs `inclusive_update_kernel`. -/
structure UState (α : Type) where
  i : Nat → Nat
  mem : Mem α

/-- The lanes that pass the loop test `i < interval_end`. -/
def update_active (ie : Nat → Nat) (alive : Nat → Bool) (s : UState α) (l : Nat) : Bool :=
  alive l && decide (s.i l < ie l)

/-- The loop body `result[i] = binary_op(carry, result[i])`, `i += 32`. -/
def inclusive_update_body (op : α → α → α) (result : Nat) (ie : Nat → Nat)
    (alive : Nat → Bool) (carry : Nat → α) (s : UState α) : UState α :=
  let act := update_active ie alive s
  { i := fun l => if act l then s.i l + 32 else s.i l
    mem := scatter s.mem act (fun l => result + s.i l)
      (fun l => (op (carry l) (s.mem (result + s.i l)).1, true)) WARP_SIZE }

/-- The unbounded-integer model of the kernel `interval_scan::inclusive_update_kernel<BS>` as
run by one warp (with `unsigned int` arithmetic: `inclusive_update_kernel32`). -/
def inclusive_update_kernel (op : α → α → α) (BS result n interval_size carry_in : Nat)
    (bid tb : Nat) (mem : Mem α) : Option (Mem α) :=
  let ib := fun l => interval_begin BS bid (tb + l) interval_size
  let ie := fun l => interval_end BS bid (tb + l) interval_size n
  -- if(interval_begin == 0 || interval_begin >= n) return;
  let alive := fun l => !(decide (ib l = 0) || decide (n ≤ ib l))
  let carry := fun l => (mem (carry_in + (warp_id BS bid (tb + l) - 1))).1
  let i0 := fun l => ib l + thread_lane (tb + l)
  (whileAny (update_active ie alive) (inclusive_update_body op result ie alive carry) n
    ⟨i0, mem⟩).map fun s => s.mem

/-! ### `interval_scan::exclusive_update_kernel` -/

/-- Registers `i` and `val`, global memory and scratch while a warp runs
`exclusive_update_kernel`. -/
structure XState (α : Type) where
  i : Nat → Nat
  val : Nat → α
  mem : Mem α
  sdata : Shared α

/-- The lanes that pass the loop test `i < interval_end`. -/
def exclusive_active (ie : Nat → Nat) (alive : Nat → Bool) (s : XState α) (l : Nat) : Bool :=
  alive l && decide (s.i l < ie l)

/-- The three statements of the loop body of `exclusive_update_kernel`, then `i += 32`. -/
def exclusive_update_body (op : α → α → α) (result tb : Nat) (ie : Nat → Nat)
    (alive : Nat → Bool) (carry : Nat → α) (s : XState α) : XState α :=
  let act := exclusive_active ie alive s
  -- sdata[threadIdx.x] = binary_op(carry, result[i]);
  let sd := scatter s.sdata act (fun l => tb + l)
    (fun l => op (carry l) (s.mem (result + s.i l)).1) WARP_SIZE
  -- result[i] = (thread_lane == 0) ? val : sdata[threadIdx.x - 1];
  let mem := scatter s.mem act (fun l => result + s.i l)
    (fun l => (if thread_lane (tb + l) = 0 then s.val l else sd (tb + l - 1), true)) WARP_SIZE
  -- if(thread_lane == 0) val = sdata[threadIdx.x + 31];
  let val := fun l => if act l && decide (thread_lane (tb + l) = 0) then sd (tb + l + 31)
    else s.val l
  { i := fun l => if act l then s.i l + 32 else s.i l, val := val, mem := mem, sdata := sd }

/-- The unbounded-integer model of the kernel `interval_scan::exclusive_update_kernel<BS>` as
run by one warp (with `unsigned int` arithmetic: `exclusive_update_kernel32`). -/
def exclusive_update_kernel (op : α → α → α) (BS result : Nat) (init : α)
    (n interval_size carry_in : Nat) (bid tb : Nat) (ms : Mem α × Shared α) :
    Option (Mem α × Shared α) :=
  let ib := fun l => interval_begin BS bid (tb + l) interval_size
  let ie := fun l => interval_end BS bid (tb + l) interval_size n
  -- if(interval_begin >= n) return;
  let alive := fun l => !decide (n ≤ ib l)
  let carry := fun l =>
    if warp_id BS bid (tb + l) = 0 then init
    else op init (ms.1 (carry_in + (warp_id BS bid (tb + l) - 1))).1
  let i0 := fun l => ib l + thread_lane (tb + l)
  (whileAny (exclusive_active ie alive) (exclusive_update_body op result tb ie alive carry) n
    ⟨i0, carry, ms.1, ms.2⟩).map fun s => (s.mem, s.sdata)

/-! ### Kernel launches -/

/-- One block of a launch: its `BS / 32` warps run one after the other on the block state
(the scratch array, when the kernel has one). -/
def runBlock {σ : Type} (BS : Nat) (warp : Nat → Mem α × σ → Option (Mem α × σ))
    (mem : Mem α) (scratch : σ) : Option (Mem α) :=
  (forUpTo (fun w s => warp (WARP_SIZE * w) s) (BS / WARP_SIZE) (mem, scratch)).map Prod.fst

/-- The launch `kern<<<num_blocks, BS>>>`; `scratch b` is what block `b` finds in its
scratch array. -/
def launch {σ : Type} (num_blocks BS : Nat)
    (kern : Nat → Nat → Mem α × σ → Option (Mem α × σ)) (scratch : Nat → σ)
    (mem : Mem α) : Option (Mem α) :=
  forUpTo (fun b m => runBlock BS (kern b) m (scratch b)) num_blocks mem

/-! ### Entry points -/

/-- Modelled from the spec: `thrust::detail::util::divide_into` (blocking.h is not among the
sources); the spec gives `numUnits = ceil(n / W)` and `numIters = ceil(numUnits / numGroups)`. -/
def divide_into (n d : Nat) : Nat := (n + d - 1) / d

def num_units (n : Nat) : Nat := divide_into n WARP_SIZE

def num_warps (n MAX_BLOCKS : Nat) : Nat := min (num_units n) (WARPS_PER_BLOCK * MAX_BLOCKS)

def num_blocks (n MAX_BLOCKS : Nat) : Nat := divide_into (num_warps n MAX_BLOCKS) WARPS_PER_BLOCK

def num_iters (n MAX_BLOCKS : Nat) : Nat := divide_into (num_units n) (num_warps n MAX_BLOCKS)

def interval_size (n MAX_BLOCKS : Nat) : Nat := WARP_SIZE * num_iters n MAX_BLOCKS

/-- The second-level scan on the device: one warp of `kernel<WARP_SIZE>` over the carries,
in place, with `final_carry` pointing at the last carry. -/
def second_level_scan (op : α → α → α) (d_carry_out num_warps : Nat)
    (scratch : Nat → Shared α) (mem : Mem α) : Option (Mem α) :=
  launch 1 WARP_SIZE
    (kernel op WARP_SIZE d_carry_out num_warps d_carry_out num_warps
      (d_carry_out + num_warps - 1))
    scratch mem

/-- The unbounded-integer model of the entry point
`inclusive_scan(first, last, result, binary_op)`: sizes and kernels in `Nat`, without the
truncation of `n` and of the sizes to `unsigned int` (with it: `inclusive_scan32`).
`MAX_BLOCKS` is
`max_active_threads()/BLOCK_SIZE`, `d_carry_out` the address `device_malloc` hands out, and
`scratch1`, `scratch2` what the blocks of the first two launches find in their scratch
arrays.  Returns the end iterator and the memory. -/
def inclusive_scan (op : α → α → α) (MAX_BLOCKS first last result d_carry_out : Nat)
    (scratch1 scratch2 : Nat → Shared α) (mem : Mem α) : Option (Nat × Mem α) :=
  let n := last - first
  if n = 0 then some (result, mem)
  else
    let nw := num_warps n MAX_BLOCKS
    let nb := num_blocks n MAX_BLOCKS
    let isz := interval_size n MAX_BLOCKS
    -- first level scan
    (launch nb BLOCK_SIZE (kernel op BLOCK_SIZE first n result isz d_carry_out) scratch1
      mem).bind fun m1 =>
    -- second level scan
    (second_level_scan op d_carry_out nw scratch2 m1).bind fun m2 =>
    -- update intervals
    (launch nb BLOCK_SIZE
      (fun bid tb (ms : Mem α × Unit) =>
        (inclusive_update_kernel op BLOCK_SIZE result n isz d_carry_out bid tb ms.1).map
          fun m => (m, ()))
      (fun _ => ()) m2).bind fun m3 =>
    some (result + n, m3)

/-- The unbounded-integer model of the entry point
`exclusive_scan(first, last, result, init, binary_op)` (with `unsigned int` sizes and
kernels: `exclusive_scan32`); parameters as for `inclusive_scan`, with `scratch3` for the
launch of the update kernel. -/
def exclusive_scan (op : α → α → α) (MAX_BLOCKS first last result : Nat) (init : α)
    (d_carry_out : Nat) (scratch1 scratch2 scratch3 : Nat → Shared α) (mem : Mem α) :
    Option (Nat × Mem α) :=
  let n := last - first
  if n = 0 then some (result, mem)
  else
    let nw := num_warps n MAX_BLOCKS
    let nb := num_blocks n MAX_BLOCKS
    let isz := interval_size n MAX_BLOCKS
    -- first level scan
    (launch nb BLOCK_SIZE (kernel op BLOCK_SIZE first n result isz d_carry_out) scratch1
      mem).bind fun m1 =>
    -- second level scan
    (second_level_scan op d_carry_out nw scratch2 m1).bind fun m2 =>
    -- update intervals
    (launch nb BLOCK_SIZE
      (exclusive_update_kernel op BLOCK_SIZE result init n isz d_carry_out) scratch3
      m2).bind fun m3 =>
    some (result + n, m3)

/-! ### The warp scan in the words of the specification -/

/-- One shifted-combine step on the values held by the lanes: a lane of rank at least `off`
combines the value held `off` lanes below with its own, lower lanes are unchanged. -/
def ksStep (op : α → α → α) (off : Nat) (v : Nat → α) (l : Nat) : α :=
  if off ≤ l then op (v (l - off)) (v l) else v l

/-- The five steps with offsets 1, 2, 4, 8, 16. -/
def ks5 (op : α → α → α) (v : Nat → α) : Nat → α :=
  ksStep op 16 (ksStep op 8 (ksStep op 4 (ksStep op 2 (ksStep op 1 v))))

/-! ### What a warp of the interval kernel computes, chunk by chunk -/

/-- The value lane `l` holds after the warp scan of chunk `c` of the interval that starts at
`B`: chunk 0 is scanned as it is, in a later chunk lane 0 first combines the value that lane 31
got in the chunk before into its element. -/
def chunkScan (op : α → α → α) (inp : Nat → α) (B : Nat) : Nat → Nat → α
  | 0 => ks5 op (fun l => inp (B + l))
  | c + 1 => ks5 op (fun l =>
      if l = 0 then op (chunkScan op inp B c 31) (inp (B + 32 * (c + 1) + l))
      else inp (B + 32 * (c + 1) + l))

/-- Loop invariant of `kernel` for the warp with interval `[B, E)` once `c` chunks are done:
the registers `i`, the output written so far, the untouched memory, the scratch left by the
last chunk, and that the last chunk was not empty. -/
structure KInv (op : α → α → α) (first result tb B E : Nat) (mem : Mem α) (c : Nat)
    (s : KState α) : Prop where
  hi : ∀ l, l < 32 → B + l < E → s.i l = B + l + 32 * min c ((E - (B + l) + 31) / 32)
  hres : ∀ i, B ≤ i → i < E → i < B + 32 * c →
    s.mem (result + i)
      = (chunkScan op (fun j => (mem (first + j)).1) B ((i - B) / 32) ((i - B) % 32), true)
  hframe : ∀ a, (∀ i, B ≤ i → i < E → i < B + 32 * c → a ≠ result + i) → s.mem a = mem a
  hsd : ∀ d, c = d + 1 → ∀ l, l < 32 → B + 32 * d + l < E →
    s.sdata (tb + l) = chunkScan op (fun j => (mem (first + j)).1) B d l
  hlast : c ≤ 1 ∨ B + 32 * (c - 1) < E

/-- State of the memory once the first `G` warps of the first-level launch have run: the
intervals of these warps hold their chunk scans, their carry slots the value of the last
position, and no other cell has been stored to. -/
structure Stage1Inv (op : α → α → α) (first n result isz carry : Nat) (mem : Mem α) (G : Nat)
    (m : Mem α) : Prop where
  hres : ∀ g, g < G → ∀ i, g * isz ≤ i → i < min (g * isz + isz) n →
    m (result + i) = (chunkScan op (fun j => (mem (first + j)).1) (g * isz)
      ((i - g * isz) / 32) ((i - g * isz) % 32), true)
  hcarry : ∀ g, g < G → g * isz < n →
    m (carry + g) = (chunkScan op (fun j => (mem (first + j)).1) (g * isz)
      ((min (g * isz + isz) n - 1 - g * isz) / 32)
      ((min (g * isz + isz) n - 1 - g * isz) % 32), true)
  hframe : ∀ a, (∀ g, g < G → ∀ i, g * isz ≤ i → i < min (g * isz + isz) n → a ≠ result + i) →
    (∀ g, g < G → g * isz < n → a ≠ carry + g) → m a = mem a

/-- Loop invariant of `inclusive_update_kernel` for a warp that did not return, with interval
`[B, E)` and carry `cv`, once `c` chunks are done. -/
structure UInv (op : α → α → α) (result B E : Nat) (cv : α) (mem : Mem α) (c : Nat)
    (s : UState α) : Prop where
  hi : ∀ l, l < 32 → B + l < E → s.i l = B + l + 32 * min c ((E - (B + l) + 31) / 32)
  hi2 : ∀ l, l < 32 → E ≤ B + l → E ≤ s.i l
  hres : ∀ i, B ≤ i → i < E → i < B + 32 * c →
    s.mem (result + i) = (op cv (mem (result + i)).1, true)
  hframe : ∀ a, (∀ i, B ≤ i → i < E → i < B + 32 * c → a ≠ result + i) → s.mem a = mem a

/-- Loop invariant of `exclusive_update_kernel` for a warp that did not return, with interval
`[B, E)` and carry `cv`, once `c` chunks are done. -/
structure XInv (op : α → α → α) (result B E : Nat) (cv : α) (mem : Mem α) (c : Nat)
    (s : XState α) : Prop where
  hi : ∀ l, l < 32 → B + l < E → s.i l = B + l + 32 * min c ((E - (B + l) + 31) / 32)
  hi2 : ∀ l, l < 32 → E ≤ B + l → E ≤ s.i l
  hval : B + 32 * c < E →
    s.val 0 = if c = 0 then cv else op cv (mem (result + (B + 32 * c - 1))).1
  hres : ∀ i, B ≤ i → i < E → i < B + 32 * c →
    s.mem (result + i) = (if i = B then cv else op cv (mem (result + (i - 1))).1, true)
  hframe : ∀ a, (∀ i, B ≤ i → i < E → i < B + 32 * c → a ≠ result + i) → s.mem a = mem a

/-! ### The result of the three stages as a function of the input -/

/-- The value stage 1 leaves at position `i`: the chunk scan of the interval of `i`. -/
def localScan (op : α → α → α) (inp : Nat → α) (isz i : Nat) : α :=
  chunkScan op inp (i / isz * isz) ((i - i / isz * isz) / 32) ((i - i / isz * isz) % 32)

/-- The carry of a full interval `j`: the chunk scan value of its last position. -/
def intervalTotal (op : α → α → α) (inp : Nat → α) (isz j : Nat) : α :=
  chunkScan op inp (j * isz) ((isz - 1) / 32) ((isz - 1) % 32)

/-- The value stage 2 leaves in carry slot `j`: the chunk scan of the carries. -/
def carryScan (op : α → α → α) (inp : Nat → α) (isz j : Nat) : α :=
  chunkScan op (intervalTotal op inp isz) 0 (j / 32) (j % 32)

/-- The value the inclusive update leaves at position `i`. -/
def inclusive_value (op : α → α → α) (inp : Nat → α) (isz i : Nat) : α :=
  if i / isz = 0 then localScan op inp isz i
  else op (carryScan op inp isz (i / isz - 1)) (localScan op inp isz i)

/-- The carry the exclusive update uses for the interval of position `i`. -/
def exclusive_carry (op : α → α → α) (init : α) (inp : Nat → α) (isz i : Nat) : α :=
  if i / isz = 0 then init else op init (carryScan op inp isz (i / isz - 1))

/-- The value the exclusive update leaves at position `i`. -/
def exclusive_value (op : α → α → α) (init : α) (inp : Nat → α) (isz i : Nat) : α :=
  if i = i / isz * isz then exclusive_carry op init inp isz i
  else op (exclusive_carry op init inp isz i) (localScan op inp isz (i - 1))

/-- Where the ranges lie: the output range is the input range itself or disjoint from it, and
the carry buffer of `nw` cells is disjoint from both. -/
def WellPlaced (first n result carry nw : Nat) : Prop :=
  (result = first ∨ result + n ≤ first ∨ first + n ≤ result) ∧
  (carry + nw ≤ first ∨ first + n ≤ carry) ∧
  (carry + nw ≤ result ∨ result + n ≤ carry)

instance (first n result carry nw : Nat) : Decidable (WellPlaced first n result carry nw) := by
  unfold WellPlaced
  infer_instance

/-! ### Groups and their intervals -/

/-- The length `interval_end - interval_begin` of the segment a thread computes for its
warp. -/
def interval_length (BS bid tid interval_size n : Nat) : Nat :=
  interval_end BS bid tid interval_size n - interval_begin BS bid tid interval_size

/-! ### The interval kernel before the store through `final_carry` -/

/-- The state in which a warp leaves the `while` loop of `kernel`, before the test
`i == interval_end + (WARP_SIZE - 1)`. -/
def kernel_loop_exit (op : α → α → α) (BS first n result interval_size : Nat)
    (bid tb : Nat) (ms : Mem α × Shared α) : Option (KState α) :=
  let ie := fun l => interval_end BS bid (tb + l) interval_size n
  let i0 := fun l => interval_begin BS bid (tb + l) interval_size + thread_lane (tb + l)
  let alive := fun l => !decide (ie l ≤ i0 l)
  whileAny (kernel_active ie alive) (kernel_body op first result tb ie alive) n
    (kernel_first op first result tb ie alive ⟨i0, ms.1, ms.2⟩)

/-- The lanes of the warp that pass the test `i == interval_end + (WARP_SIZE - 1)` in the
state `s` and so store to `final_carry[warp_id]`. -/
def kernel_final_lanes (BS n interval_size : Nat) (bid tb : Nat) (s : KState α) (l : Nat) :
    Bool :=
  kernel_carry_lane (fun l => interval_end BS bid (tb + l) interval_size n)
    (fun l => !decide (interval_end BS bid (tb + l) interval_size n
      ≤ interval_begin BS bid (tb + l) interval_size + thread_lane (tb + l))) s l

/-! ### The host branch of the second-level scan -/

/-- The scratch indices that the thread with block-local index `t` touches in `scan_warp`,
`kernel` and `exclusive_update_kernel`, under the guards of the source: `sdata[t]` always,
`sdata[t - off]` under `thread_lane >= off` for the five offsets, `sdata[t + 31]` under
`thread_lane == 0` and `sdata[t - 1]` otherwise. -/
def scratch_indices (t : Nat) : List Nat :=
  [t] ++ (([1, 2, 4, 8, 16].filter (fun off => decide (off ≤ thread_lane t))).map
      (fun off => t - off))
    ++ (if thread_lane t = 0 then [t + (WARP_SIZE - 1)] else [t - 1])

/-! ### The kernels and entry points with 32-bit index arithmetic

The embedding that follows the types of the source: every `unsigned int` computation of an
index is reduced modulo `2 ^ 32`.  Addresses (`first + i`, `final_carry + warp_id`) are pointer arithmetic and are not
reduced; `threadIdx.x & 31`, `threadIdx.x - off` under its guard and `threadIdx.x + 31` stay
below `BLOCK_SIZE + 31`. -/

/-- The value of an `unsigned int` computation: its result modulo `2 ^ 32`. -/
def u32 (x : Nat) : Nat := x % 2 ^ 32

/-- The 32-bit `BLOCK_SIZE * blockIdx.x + threadIdx.x`. -/
def thread_id32 (BS bid tid : Nat) : Nat := u32 (u32 (BS * bid) + tid)

/-- The 32-bit `thread_id / WARP_SIZE`. -/
def warp_id32 (BS bid tid : Nat) : Nat := thread_id32 BS bid tid / WARP_SIZE

/-- The 32-bit `warp_id * interval_size`. -/
def interval_begin32 (BS bid tid interval_size : Nat) : Nat :=
  u32 (warp_id32 BS bid tid * interval_size)

/-- The 32-bit `min(interval_begin + interval_size, n)`. -/
def interval_end32 (BS bid tid interval_size n : Nat) : Nat :=
  min (u32 (interval_begin32 BS bid tid interval_size + interval_size)) n

/-- The block `if(i < interval_end){ ... }` of `kernel` with the 32-bit `i += WARP_SIZE`. -/
def kernel_first32 (op : α → α → α) (first result tb : Nat) (ie : Nat → Nat)
    (alive : Nat → Bool) (s : KState α) : KState α :=
  let act := kernel_active ie alive s
  let val := fun l => (s.mem (first + s.i l)).1
  let r := scan_warp op tb act val s.sdata
  { i := fun l => if act l then u32 (s.i l + WARP_SIZE) else s.i l
    mem := scatter s.mem act (fun l => result + s.i l) (fun l => (r.1 l, true)) WARP_SIZE
    sdata := r.2 }

/-- The body of the `while` loop of `kernel` with the 32-bit `i += WARP_SIZE`. -/
def kernel_body32 (op : α → α → α) (first result tb : Nat) (ie : Nat → Nat)
    (alive : Nat → Bool) (s : KState α) : KState α :=
  let act := kernel_active ie alive s
  let val := fun l => (s.mem (first + s.i l)).1
  let val := fun l =>
    if thread_lane (tb + l) = 0 then op (s.sdata (tb + l + (WARP_SIZE - 1))) (val l) else val l
  let r := scan_warp op tb act val s.sdata
  { i := fun l => if act l then u32 (s.i l + WARP_SIZE) else s.i l
    mem := scatter s.mem act (fun l => result + s.i l) (fun l => (r.1 l, true)) WARP_SIZE
    sdata := r.2 }

/-- The lanes that pass the 32-bit test `i == interval_end + (WARP_SIZE - 1)`. -/
def kernel_carry_lane32 (ie : Nat → Nat) (alive : Nat → Bool) (s : KState α) (l : Nat) :
    Bool :=
  alive l && decide (s.i l = u32 (ie l + (WARP_SIZE - 1)))

/-- The kernel `interval_scan::kernel<BS>` as run by one warp, with 32-bit index
arithmetic; `n` is the `unsigned int` parameter. -/
def kernel32 (op : α → α → α) (BS first n result interval_size final_carry : Nat)
    (bid tb : Nat) (ms : Mem α × Shared α) : Option (Mem α × Shared α) :=
  let ie := fun l => interval_end32 BS bid (tb + l) interval_size n
  let i0 := fun l =>
    u32 (interval_begin32 BS bid (tb + l) interval_size + thread_lane (tb + l))
  let alive := fun l => !decide (ie l ≤ i0 l)
  let s1 := kernel_first32 op first result tb ie alive ⟨i0, ms.1, ms.2⟩
  (whileAny (kernel_active ie alive) (kernel_body32 op first result tb ie alive) n s1).map
    fun s =>
      (scatter s.mem (kernel_carry_lane32 ie alive s)
          (fun l => final_carry + warp_id32 BS bid (tb + l))
          (fun l => (s.sdata (tb + l), true)) WARP_SIZE,
        s.sdata)

/-- The loop body of `inclusive_update_kernel` with the 32-bit `i += 32`. -/
def inclusive_update_body32 (op : α → α → α) (result : Nat) (ie : Nat → Nat)
    (alive : Nat → Bool) (carry : Nat → α) (s : UState α) : UState α :=
  let act := update_active ie alive s
  { i := fun l => if act l then u32 (s.i l + 32) else s.i l
    mem := scatter s.mem act (fun l => result + s.i l)
      (fun l => (op (carry l) (s.mem (result + s.i l)).1, true)) WARP_SIZE }

/-- The kernel `interval_scan::inclusive_update_kernel<BS>` as run by one warp, with 32-bit
index arithmetic (`warp_id - 1` included). -/
def inclusive_update_kernel32 (op : α → α → α) (BS result n interval_size carry_in : Nat)
    (bid tb : Nat) (mem : Mem α) : Option (Mem α) :=
  let ib := fun l => interval_begin32 BS bid (tb + l) interval_size
  let ie := fun l => interval_end32 BS bid (tb + l) interval_size n
  let alive := fun l => !(decide (ib l = 0) || decide (n ≤ ib l))
  let carry := fun l => (mem (carry_in + u32 (warp_id32 BS bid (tb + l) + (2 ^ 32 - 1)))).1
  let i0 := fun l => u32 (ib l + thread_lane (tb + l))
  (whileAny (update_active ie alive) (inclusive_update_body32 op result ie alive carry) n
    ⟨i0, mem⟩).map fun s => s.mem

/-- The loop body of `exclusive_update_kernel` with the 32-bit `i += 32`. -/
def exclusive_update_body32 (op : α → α → α) (result tb : Nat) (ie : Nat → Nat)
    (alive : Nat → Bool) (carry : Nat → α) (s : XState α) : XState α :=
  let act := exclusive_active ie alive s
  let sd := scatter s.sdata act (fun l => tb + l)
    (fun l => op (carry l) (s.mem (result + s.i l)).1) WARP_SIZE
  let mem := scatter s.mem act (fun l => result + s.i l)
    (fun l => (if thread_lane (tb + l) = 0 then s.val l else sd (tb + l - 1), true)) WARP_SIZE
  let val := fun l => if act l && decide (thread_lane (tb + l) = 0) then sd (tb + l + 31)
    else s.val l
  { i := fun l => if act l then u32 (s.i l + 32) else s.i l
    val := val, mem := mem, sdata := sd }

/-- The kernel `interval_scan::exclusive_update_kernel<BS>` as run by one warp, with 32-bit
index arithmetic (`warp_id - 1` included). -/
def exclusive_update_kernel32 (op : α → α → α) (BS result : Nat) (init : α)
    (n interval_size carry_in : Nat) (bid tb : Nat) (ms : Mem α × Shared α) :
    Option (Mem α × Shared α) :=
  let ib := fun l => interval_begin32 BS bid (tb + l) interval_size
  let ie := fun l => interval_end32 BS bid (tb + l) interval_size n
  let alive := fun l => !decide (n ≤ ib l)
  let carry := fun l =>
    if warp_id32 BS bid (tb + l) = 0 then init
    else op init (ms.1 (carry_in + u32 (warp_id32 BS bid (tb + l) + (2 ^ 32 - 1)))).1
  let i0 := fun l => u32 (ib l + thread_lane (tb + l))
  (whileAny (exclusive_active ie alive) (exclusive_update_body32 op result tb ie alive carry)
    n ⟨i0, carry, ms.1, ms.2⟩).map fun s => (s.mem, s.sdata)

/-- The `unsigned int num_units`. -/
def num_units32 (n : Nat) : Nat := u32 (divide_into n WARP_SIZE)

/-- The `unsigned int num_warps`, with the 32-bit product `WARPS_PER_BLOCK * MAX_BLOCKS`. -/
def num_warps32 (n MAX_BLOCKS : Nat) : Nat :=
  min (num_units32 n) (u32 (WARPS_PER_BLOCK * MAX_BLOCKS))

/-- The `unsigned int num_blocks`. -/
def num_blocks32 (n MAX_BLOCKS : Nat) : Nat :=
  u32 (divide_into (num_warps32 n MAX_BLOCKS) WARPS_PER_BLOCK)

/-- The `unsigned int num_iters`. -/
def num_iters32 (n MAX_BLOCKS : Nat) : Nat :=
  u32 (divide_into (num_units32 n) (num_warps32 n MAX_BLOCKS))

/-- The `unsigned int interval_size`, the 32-bit product `WARP_SIZE * num_iters`. -/
def interval_size32 (n MAX_BLOCKS : Nat) : Nat := u32 (WARP_SIZE * num_iters32 n MAX_BLOCKS)

/-- The second-level scan on the device with the 32-bit kernel. -/
def second_level_scan32 (op : α → α → α) (d_carry_out num_warps : Nat)
    (scratch : Nat → Shared α) (mem : Mem α) : Option (Mem α) :=
  launch 1 WARP_SIZE
    (kernel32 op WARP_SIZE d_carry_out num_warps d_carry_out num_warps
      (d_carry_out + num_warps - 1))
    scratch mem

/-- The entry point `inclusive_scan` with 32-bit sizes and kernels; the length `n` is a
`size_t` and becomes an `unsigned int` when passed to the kernels. -/
def inclusive_scan32 (op : α → α → α) (MAX_BLOCKS first last result d_carry_out : Nat)
    (scratch1 scratch2 : Nat → Shared α) (mem : Mem α) : Option (Nat × Mem α) :=
  let n := last - first
  if n = 0 then some (result, mem)
  else
    let nw := num_warps32 n MAX_BLOCKS
    let nb := num_blocks32 n MAX_BLOCKS
    let isz := interval_size32 n MAX_BLOCKS
    (launch nb BLOCK_SIZE (kernel32 op BLOCK_SIZE first (u32 n) result isz d_carry_out)
      scratch1 mem).bind fun m1 =>
    (second_level_scan32 op d_carry_out nw scratch2 m1).bind fun m2 =>
    (launch nb BLOCK_SIZE
      (fun bid tb (ms : Mem α × Unit) =>
        (inclusive_update_kernel32 op BLOCK_SIZE result (u32 n) isz d_carry_out bid tb
          ms.1).map fun m => (m, ()))
      (fun _ => ()) m2).bind fun m3 =>
    some (result + n, m3)

/-- The entry point `exclusive_scan` with 32-bit sizes and kernels. -/
def exclusive_scan32 (op : α → α → α) (MAX_BLOCKS first last result : Nat) (init : α)
    (d_carry_out : Nat) (scratch1 scratch2 scratch3 : Nat → Shared α) (mem : Mem α) :
    Option (Nat × Mem α) :=
  let n := last - first
  if n = 0 then some (result, mem)
  else
    let nw := num_warps32 n MAX_BLOCKS
    let nb := num_blocks32 n MAX_BLOCKS
    let isz := interval_size32 n MAX_BLOCKS
    (launch nb BLOCK_SIZE (kernel32 op BLOCK_SIZE first (u32 n) result isz d_carry_out)
      scratch1 mem).bind fun m1 =>
    (second_level_scan32 op d_carry_out nw scratch2 m1).bind fun m2 =>
    (launch nb BLOCK_SIZE
      (exclusive_update_kernel32 op BLOCK_SIZE result init (u32 n) isz d_carry_out) scratch3
      m2).bind fun m3 =>
    some (result + n, m3)

/-- The index computations of thread `tid` of block `bid`, taken in unbounded integers, all
stay below `2 ^ 32`: `BLOCK_SIZE * blockIdx.x`, `thread_id`, `warp_id * interval_size`,
`interval_begin + interval_size`, `interval_begin + thread_lane`,
`interval_end + (WARP_SIZE - 1)`, and `i + WARP_SIZE` at every position `i < interval_end`
of the loops. -/
def NoWrap (BS bid tid interval_size n : Nat) : Prop :=
  BS * bid < 2 ^ 32 ∧ thread_id BS bid tid < 2 ^ 32 ∧
  warp_id BS bid tid * interval_size < 2 ^ 32 ∧
  interval_begin BS bid tid interval_size + interval_size < 2 ^ 32 ∧
  interval_begin BS bid tid interval_size + thread_lane tid < 2 ^ 32 ∧
  interval_end BS bid tid interval_size n + (WARP_SIZE - 1) < 2 ^ 32 ∧
  ∀ i, i < interval_end BS bid tid interval_size n → i + WARP_SIZE < 2 ^ 32

instance (BS bid tid interval_size n : Nat) : Decidable (NoWrap BS bid tid interval_size n) := by
  unfold NoWrap
  infer_instance

/-- The 32-bit `interval_end - interval_begin`, the length of the segment a thread computes
for its warp (a natural-number difference: `0` when the wrapped end lies below the begin). -/
def interval_length32 (BS bid tid interval_size n : Nat) : Nat :=
  interval_end32 BS bid tid interval_size n - interval_begin32 BS bid tid interval_size

theorem scatter_miss {β : Type} (m : Nat → β) (en : Nat → Bool) (addr : Nat → Nat)
    (v : Nat → β) (k a : Nat) (h : ∀ l, l < k → en l = true → addr l ≠ a) :
    scatter m en addr v k a = m a := by
  induction k with
  | zero => rfl
  | succ k ih =>
    have h1 : ¬ (en k = true ∧ addr k = a) := fun hc => h k (Nat.lt_succ_self k) hc.1 hc.2
    simp only [scatter, h1, if_false]
    exact ih (fun l hl => h l (Nat.lt_succ_of_lt hl))

theorem scatter_hit {β : Type} (m : Nat → β) (en : Nat → Bool) (addr : Nat → Nat)
    (v : Nat → β) (k l : Nat) (hl : l < k) (hen : en l = true)
    (hinj : ∀ j, j < k → en j = true → addr j = addr l → j = l) :
    scatter m en addr v k (addr l) = v l := by
  induction k with
  | zero => omega
  | succ k ih =>
    by_cases hk : l = k
    · subst hk
      simp [scatter, hen]
    · have h1 : ¬ (en k = true ∧ addr k = addr l) := by
        rintro ⟨h2, h3⟩
        exact hk (hinj k (Nat.lt_succ_self k) h2 h3).symm
      simp only [scatter, h1, if_false]
      exact ih (by omega) (fun j hj => hinj j (Nat.lt_succ_of_lt hj))

theorem anyLane_eq_true (p : Nat → Bool) : anyLane p = true ↔ ∃ l, l < 32 ∧ p l = true := by
  simp [anyLane, WARP_SIZE, List.any_eq_true, List.mem_range]

theorem anyLane_eq_false (p : Nat → Bool) : anyLane p = false ↔ ∀ l, l < 32 → p l = false := by
  rw [← Bool.not_eq_true, anyLane_eq_true]
  constructor
  · intro h l hl
    cases hp : p l with
    | false => rfl
    | true => exact absurd ⟨l, hl, hp⟩ h
  · rintro h ⟨l, hl, hp⟩
    rw [h l hl] at hp
    cases hp

/-! ## Thread coordinates of an aligned warp -/

theorem thread_lane_eq_mod (t : Nat) : thread_lane t = t % 32 := by
  have h := Nat.and_pow_two_sub_one_eq_mod t 5
  simpa [thread_lane, WARP_SIZE] using h

theorem thread_lane_add (tb l : Nat) (htb : tb % 32 = 0) (hl : l < 32) :
    thread_lane (tb + l) = l := by
  rw [thread_lane_eq_mod]; omega

theorem warp_id_add (BS bid tb l : Nat) (hBS : BS % 32 = 0) (htb : tb % 32 = 0) (hl : l < 32) :
    warp_id BS bid (tb + l) = (BS * bid + tb) / 32 := by
  unfold warp_id thread_id WARP_SIZE
  have h1 : (BS * bid) % 32 = 0 := by
    rw [Nat.mul_mod, hBS]; simp
  omega

/-! ## Left folds -/

theorem lfold_append (op : α → α → α) (hop : ∀ a b c, op (op a b) c = op a (op b c))
    (f : Nat → α) (a p q : Nat) :
    op (lfold op f a p) (lfold op f (a + p + 1) q) = lfold op f a (p + q + 1) := by
  induction q with
  | zero => rfl
  | succ q ih =>
    have e : p + (q + 1) + 1 = (p + q + 1) + 1 := by omega
    have e2 : a + p + 1 + q + 1 = a + (p + q + 1) + 1 := by omega
    rw [e]
    show op (lfold op f a p) (op (lfold op f (a + p + 1) q) (f (a + p + 1 + q + 1)))
      = op (lfold op f a (p + q + 1)) (f (a + (p + q + 1) + 1))
    rw [← hop, ih, e2]

theorem lfold_congr (op : α → α → α) (f g : Nat → α) (a k : Nat)
    (h : ∀ j, a ≤ j → j ≤ a + k → f j = g j) : lfold op f a k = lfold op g a k := by
  induction k with
  | zero => simpa [lfold] using h a (le_refl a) (by omega)
  | succ k ih =>
    simp only [lfold]
    rw [ih (fun j h1 h2 => h j h1 (by omega)), h (a + k + 1) (by omega) (by omega)]

theorem lfold_shift (op : α → α → α) (f : Nat → α) (a b k : Nat) :
    lfold op (fun j => f (b + j)) a k = lfold op f (b + a) k := by
  induction k with
  | zero => rfl
  | succ k ih => simp only [lfold, ih, Nat.add_assoc]

/-- Combining a value into the first element of a fold combines it into the fold. -/
theorem lfold_head (op : α → α → α) (hop : ∀ a b c, op (op a b) c = op a (op b c))
    (f g : Nat → α) (p : α) (a k : Nat) (h0 : g a = op p (f a))
    (h : ∀ j, a < j → j ≤ a + k → g j = f j) :
    lfold op g a k = op p (lfold op f a k) := by
  induction k with
  | zero => simpa [lfold] using h0
  | succ k ih =>
    simp only [lfold]
    rw [ih (fun j h1 h2 => h j h1 (by omega)), h (a + k + 1) (by omega) (by omega), hop]

/-! ## The warp scan -/

theorem ksStep_congr (op : α → α → α) (off k : Nat) (v w : Nat → α)
    (h : ∀ l, l < k → v l = w l) : ∀ l, l < k → ksStep op off v l = ksStep op off w l := by
  intro l hl
  unfold ksStep
  split
  · rw [h l hl, h (l - off) (by omega)]
  · exact h l hl

theorem ks5_congr (op : α → α → α) (k : Nat) (v w : Nat → α)
    (h : ∀ l, l < k → v l = w l) : ∀ l, l < k → ks5 op v l = ks5 op w l := by
  unfold ks5
  exact ksStep_congr op 16 k _ _ (ksStep_congr op 8 k _ _ (ksStep_congr op 4 k _ _
    (ksStep_congr op 2 k _ _ (ksStep_congr op 1 k _ _ h))))

/-- A step with offset `off` doubles the window that each lane has folded. -/
theorem ksStep_window (op : α → α → α) (hop : ∀ a b c, op (op a b) c = op a (op b c))
    (f v : Nat → α) (off : Nat) (hoff : 0 < off)
    (h : ∀ l, v l = lfold op f (l - min l (off - 1)) (min l (off - 1))) :
    ∀ l, ksStep op off v l
      = lfold op f (l - min l (2 * off - 1)) (min l (2 * off - 1)) := by
  intro l
  unfold ksStep
  split
  · rename_i hle
    rw [h l, h (l - off)]
    have e1 : min l (off - 1) = off - 1 := by omega
    have e2 : l - (off - 1) = (l - off - min (l - off) (off - 1)) + min (l - off) (off - 1) + 1 := by
      omega
    have e3 : min l (2 * off - 1) = min (l - off) (off - 1) + (off - 1) + 1 := by omega
    have e4 : l - min l (2 * off - 1) = l - off - min (l - off) (off - 1) := by omega
    rw [e1, e2, lfold_append op hop, e4, e3]
  · rename_i hle
    rw [h l]
    have e1 : min l (off - 1) = l := by omega
    have e2 : min l (2 * off - 1) = l := by omega
    rw [e1, e2]

theorem ks5_eq_lfold (op : α → α → α) (hop : ∀ a b c, op (op a b) c = op a (op b c))
    (v : Nat → α) (l : Nat) (hl : l < 32) : ks5 op v l = lfold op v 0 l := by
  have h0 : ∀ l, v l = lfold op v (l - min l (1 - 1)) (min l (1 - 1)) := by
    intro l; simp [lfold]
  have h1 := ksStep_window op hop v _ 1 (by omega) h0
  have h2 := ksStep_window op hop v _ 2 (by omega) h1
  have h4 := ksStep_window op hop v _ 4 (by omega) h2
  have h8 := ksStep_window op hop v _ 8 (by omega) h4
  have h16 := ksStep_window op hop v _ 16 (by omega) h8
  have e := h16 l
  have e1 : min l (2 * 16 - 1) = l := by omega
  rw [e1, Nat.sub_self] at e
  exact e

/-- What one statement of `scan_warp` does when the enabled lanes are `0..k-1` and each of
them finds its own value in its scratch slot. -/
theorem scan_warp_step_spec (op : α → α → α) (tb k off : Nat) (act : Nat → Bool)
    (htb : tb % 32 = 0) (hk : k ≤ 32) (hact : ∀ l, l < 32 → (act l = true ↔ l < k))
    (vs : (Nat → α) × Shared α) (w : Nat → α)
    (hv : ∀ l, l < k → vs.1 l = w l) (hs : ∀ l, l < k → vs.2 (tb + l) = vs.1 l) :
    (∀ l, l < k → (scan_warp_step op tb act off vs).1 l = ksStep op off w l) ∧
    (∀ l, l < k → (scan_warp_step op tb act off vs).2 (tb + l)
        = (scan_warp_step op tb act off vs).1 l) ∧
    (∀ a, (a < tb ∨ tb + k ≤ a) → (scan_warp_step op tb act off vs).2 a = vs.2 a) := by
  have hval : ∀ l, l < k → (scan_warp_step op tb act off vs).1 l = ksStep op off w l := by
    intro l hl
    have hl32 : l < 32 := by omega
    simp only [scan_warp_step, thread_lane_add tb l htb hl32, (hact l hl32).2 hl,
      Bool.true_and, decide_eq_true_eq, ksStep]
    split
    · rename_i hle
      have e : tb + l - off = tb + (l - off) := by omega
      rw [e, hs (l - off) (by omega), hv (l - off) (by omega), hv l hl]
    · exact hv l hl
  refine ⟨hval, ?_, ?_⟩
  · intro l hl
    have hl32 : l < 32 := by omega
    by_cases hen : (act l && decide (off ≤ thread_lane (tb + l))) = true
    · have := scatter_hit vs.2 (fun l => act l && decide (off ≤ thread_lane (tb + l)))
        (fun l => tb + l)
        (fun l => if (act l && decide (off ≤ thread_lane (tb + l))) = true
          then op (vs.2 (tb + l - off)) (vs.1 l) else vs.1 l) 32 l hl32 hen
        (fun j _ _ hj => by dsimp only at hj; omega)
      simpa [scan_warp_step, WARP_SIZE] using this
    · have := scatter_miss vs.2 (fun l => act l && decide (off ≤ thread_lane (tb + l)))
        (fun l => tb + l)
        (fun l => if (act l && decide (off ≤ thread_lane (tb + l))) = true
          then op (vs.2 (tb + l - off)) (vs.1 l) else vs.1 l) 32 (tb + l)
        (fun j _ hj hjl => by
          dsimp only at hjl
          have : j = l := by omega
          subst this
          exact hen hj)
      simp only [scan_warp_step, WARP_SIZE]
      rw [this]
      simp only [hen]
      simpa using hs l hl
  · intro a ha
    apply scatter_miss
    intro l hl hen hla
    simp only [Bool.and_eq_true] at hen
    have := (hact l hl).1 hen.1
    omega

/-- The lock-step `scan_warp` on the lanes `0..k-1`: each lane ends with the value the five
shifted-combine steps give it, its scratch slot holds that value, and the scratch slots of
other lanes are untouched. -/
theorem scan_warp_spec (op : α → α → α) (tb k : Nat) (act : Nat → Bool)
    (htb : tb % 32 = 0) (hk : k ≤ 32) (hact : ∀ l, l < 32 → (act l = true ↔ l < k))
    (val : Nat → α) (sdata : Shared α) :
    (∀ l, l < k → (scan_warp op tb act val sdata).1 l = ks5 op val l) ∧
    (∀ l, l < k → (scan_warp op tb act val sdata).2 (tb + l)
        = (scan_warp op tb act val sdata).1 l) ∧
    (∀ a, (a < tb ∨ tb + k ≤ a) → (scan_warp op tb act val sdata).2 a = sdata a) := by
  have hs0 : ∀ l, l < k →
      (val, scatter sdata act (fun l => tb + l) val WARP_SIZE).2 (tb + l)
        = (val, scatter sdata act (fun l => tb + l) val WARP_SIZE).1 l := by
    intro l hl
    exact scatter_hit sdata act (fun l => tb + l) val 32 l (by omega)
      ((hact l (by omega)).2 hl) (fun j _ _ hj => by dsimp only at hj; omega)
  have hf0 : ∀ a, (a < tb ∨ tb + k ≤ a) →
      (val, scatter sdata act (fun l => tb + l) val WARP_SIZE).2 a = sdata a := by
    intro a ha
    apply scatter_miss
    intro l hl hen hla
    have := (hact l hl).1 hen
    omega
  obtain ⟨a1, b1, c1⟩ := scan_warp_step_spec op tb k 1 act htb hk hact _ val
    (fun _ _ => rfl) hs0
  obtain ⟨a2, b2, c2⟩ := scan_warp_step_spec op tb k 2 act htb hk hact _ _ a1 b1
  obtain ⟨a4, b4, c4⟩ := scan_warp_step_spec op tb k 4 act htb hk hact _ _ a2 b2
  obtain ⟨a8, b8, c8⟩ := scan_warp_step_spec op tb k 8 act htb hk hact _ _ a4 b4
  obtain ⟨a16, b16, c16⟩ := scan_warp_step_spec op tb k 16 act htb hk hact _ _ a8 b8
  refine ⟨a16, b16, ?_⟩
  intro a ha
  have := c16 a ha
  simp only [scan_warp]
  rw [c16 a ha, c8 a ha, c4 a ha, c2 a ha, c1 a ha, hf0 a ha]

/-! ## Warp-level loops -/

theorem whileAny_inv {σ : Type} (cond : σ → Nat → Bool) (body : σ → σ)
    (Inv : Nat → σ → Prop) (bound : Nat)
    (hstep : ∀ c s, Inv c s → anyLane (cond s) = true → Inv (c + 1) (body s) ∧ c < bound) :
    ∀ fuel c s, Inv c s → bound ≤ c + fuel →
      ∃ d s', whileAny cond body fuel s = some s' ∧ Inv d s' ∧ anyLane (cond s') = false := by
  intro fuel
  induction fuel with
  | zero =>
    intro c s hinv hb
    cases hc : anyLane (cond s) with
    | true =>
      have := (hstep c s hinv hc).2
      omega
    | false => exact ⟨c, s, by simp [whileAny, hc], hinv, hc⟩
  | succ fuel ih =>
    intro c s hinv hb
    cases hc : anyLane (cond s) with
    | true =>
      obtain ⟨d, s', h1, h2, h3⟩ := ih (c + 1) (body s) (hstep c s hinv hc).1 (by omega)
      exact ⟨d, s', by simp [whileAny, hc, h1], h2, h3⟩
    | false => exact ⟨c, s, by simp [whileAny, hc], hinv, hc⟩

/-! ## One chunk of the interval kernel -/

/-- Scan and store of one chunk whose enabled lanes `0..k-1` sit at positions `base + l`. -/
theorem chunk_store (op : α → α → α) (tb k base result : Nat) (act : Nat → Bool)
    (htb : tb % 32 = 0) (hk : k ≤ 32) (hact : ∀ l, l < 32 → (act l = true ↔ l < k))
    (i : Nat → Nat) (hi : ∀ l, l < k → i l = base + l) (val : Nat → α) (sdata : Shared α)
    (m : Mem α) :
    (∀ l, l < k →
      scatter m act (fun l => result + i l)
        (fun l => ((scan_warp op tb act val sdata).1 l, true)) WARP_SIZE (result + (base + l))
        = (ks5 op val l, true)) ∧
    (∀ a, (∀ l, l < k → a ≠ result + (base + l)) →
      scatter m act (fun l => result + i l)
        (fun l => ((scan_warp op tb act val sdata).1 l, true)) WARP_SIZE a = m a) ∧
    (∀ l, l < k → (scan_warp op tb act val sdata).2 (tb + l) = ks5 op val l) := by
  obtain ⟨h1, h2, _⟩ := scan_warp_spec op tb k act htb hk hact val sdata
  refine ⟨?_, ?_, ?_⟩
  · intro l hl
    have := scatter_hit m act (fun l => result + i l)
      (fun l => ((scan_warp op tb act val sdata).1 l, true)) 32 l (by omega)
      ((hact l (by omega)).2 hl)
      (fun j hj hen hjl => by
        have hjk := (hact j hj).1 hen
        have := hi j hjk
        have := hi l hl
        dsimp only at hjl
        omega)
    dsimp only at this
    rw [hi l hl] at this
    rw [← h1 l hl]
    exact this
  · intro a ha
    apply scatter_miss
    intro l hl hen hla
    have hlk := (hact l hl).1 hen
    have := hi l hlk
    exact ha l hlk (by omega)
  · intro l hl
    rw [h2 l hl, h1 l hl]

theorem kernel_active_iff (op : α → α → α) (first result tb B E : Nat) (mem : Mem α)
    (ie : Nat → Nat) (alive : Nat → Bool) (hie : ∀ l, l < 32 → ie l = E)
    (halive : ∀ l, l < 32 → (alive l = true ↔ B + l < E))
    (c : Nat) (s : KState α) (hinv : KInv op first result tb B E mem c s) :
    ∀ l, l < 32 → (kernel_active ie alive s l = true ↔ B + 32 * c + l < E) := by
  intro l hl
  simp only [kernel_active, Bool.and_eq_true, decide_eq_true_eq, hie l hl, halive l hl]
  constructor
  · rintro ⟨h1, h2⟩
    have := hinv.hi l hl h1
    omega
  · intro h
    have h1 : B + l < E := by omega
    have := hinv.hi l hl h1
    exact ⟨h1, by omega⟩

/-- One chunk (first or later) takes the invariant from `c` to `c + 1`, provided the values
the lanes enter the warp scan with scan to the values of chunk `c`. -/
theorem kernel_chunk (op : α → α → α) (first result tb B E : Nat) (mem : Mem α)
    (ie : Nat → Nat) (alive : Nat → Bool) (htb : tb % 32 = 0)
    (hie : ∀ l, l < 32 → ie l = E) (halive : ∀ l, l < 32 → (alive l = true ↔ B + l < E))
    (c : Nat) (s : KState α) (hinv : KInv op first result tb B E mem c s)
    (hc : c = 0 ∨ B + 32 * c < E) (val : Nat → α)
    (hval : ∀ l, l < 32 → B + 32 * c + l < E →
      ks5 op val l = chunkScan op (fun j => (mem (first + j)).1) B c l) :
    KInv op first result tb B E mem (c + 1)
      { i := fun l => if kernel_active ie alive s l then s.i l + WARP_SIZE else s.i l
        mem := scatter s.mem (kernel_active ie alive s) (fun l => result + s.i l)
          (fun l => ((scan_warp op tb (kernel_active ie alive s) val s.sdata).1 l, true))
          WARP_SIZE
        sdata := (scan_warp op tb (kernel_active ie alive s) val s.sdata).2 } := by
  have hact := kernel_active_iff op first result tb B E mem ie alive hie halive c s hinv
  have hactk : ∀ l, l < 32 →
      (kernel_active ie alive s l = true ↔ l < min 32 (E - (B + 32 * c))) := by
    intro l hl
    rw [hact l hl]
    omega
  have hik : ∀ l, l < min 32 (E - (B + 32 * c)) → s.i l = (B + 32 * c) + l := by
    intro l hl
    have := hinv.hi l (by omega) (by omega)
    omega
  obtain ⟨h1, h2, h3⟩ := chunk_store op tb (min 32 (E - (B + 32 * c))) (B + 32 * c) result
    (kernel_active ie alive s) htb (by omega) hactk s.i hik val s.sdata s.mem
  constructor
  · intro l hl hlE
    have h := hinv.hi l hl hlE
    by_cases ha : kernel_active ie alive s l = true
    · have := (hact l hl).1 ha
      simp only [ha, if_true, WARP_SIZE]
      omega
    · have := mt (hact l hl).2 ha
      simp only [ha]
      simp only [Bool.false_eq_true, if_false]
      omega
  · intro i hBi hiE hic
    by_cases hlt : i < B + 32 * c
    · show scatter _ _ _ _ _ _ = _
      rw [h2 (result + i) (fun l hl => by omega)]
      exact hinv.hres i hBi hiE hlt
    · have e0 : result + i = result + (B + 32 * c + (i - (B + 32 * c))) := by omega
      have e1 : (i - B) / 32 = c := by omega
      have e2 : (i - B) % 32 = i - (B + 32 * c) := by omega
      show scatter _ _ _ _ _ _ = _
      rw [e0, h1 (i - (B + 32 * c)) (by omega), hval (i - (B + 32 * c)) (by omega) (by omega),
        e1, e2]
  · intro a ha
    show scatter _ _ _ _ _ _ = _
    rw [h2 a (fun l hl => ha (B + 32 * c + l) (by omega) (by omega) (by omega))]
    exact hinv.hframe a (fun i h1 h2 h3 => ha i h1 h2 (by omega))
  · intro d hd l hl hlE
    have hdc : d = c := by omega
    subst hdc
    show (scan_warp _ _ _ _ _).2 _ = _
    rw [h3 l (by omega)]
    exact hval l hl hlE
  · rcases hc with hc | hc
    · left; omega
    · right
      have : c + 1 - 1 = c := by omega
      rw [this]; exact hc

/-! ## The interval kernel, one warp -/

theorem kernel_first_inv (op : α → α → α) (first result tb B E : Nat) (mem : Mem α)
    (ie : Nat → Nat) (alive : Nat → Bool) (htb : tb % 32 = 0)
    (hie : ∀ l, l < 32 → ie l = E) (halive : ∀ l, l < 32 → (alive l = true ↔ B + l < E))
    (s : KState α) (hinv : KInv op first result tb B E mem 0 s) :
    KInv op first result tb B E mem 1 (kernel_first op first result tb ie alive s) := by
  apply kernel_chunk op first result tb B E mem ie alive htb hie halive 0 s hinv (Or.inl rfl)
  intro l hl hlE
  show _ = ks5 op (fun l => (mem (first + (B + l))).1) l
  apply ks5_congr op (l + 1) _ _ _ l (by omega)
  intro j hj
  have h1 := hinv.hi j (by omega) (by omega)
  have h2 : s.i j = B + j := by omega
  show (s.mem (first + s.i j)).1 = _
  rw [h2, hinv.hframe (first + (B + j)) (fun i _ _ _ => by omega)]

theorem kernel_body_inv (op : α → α → α) (first result tb B E : Nat) (mem : Mem α)
    (ie : Nat → Nat) (alive : Nat → Bool) (htb : tb % 32 = 0)
    (hie : ∀ l, l < 32 → ie l = E) (halive : ∀ l, l < 32 → (alive l = true ↔ B + l < E))
    (halias : ∀ i j, B ≤ i → i < j → j < E → result + i ≠ first + j)
    (c : Nat) (s : KState α) (hinv : KInv op first result tb B E mem c s) (hc1 : 1 ≤ c)
    (hc : B + 32 * c < E) :
    KInv op first result tb B E mem (c + 1) (kernel_body op first result tb ie alive s) := by
  apply kernel_chunk op first result tb B E mem ie alive htb hie halive c s hinv (Or.inr hc)
  intro l hl hlE
  obtain ⟨d, rfl⟩ : ∃ d, c = d + 1 := ⟨c - 1, by omega⟩
  show _ = ks5 op (fun l =>
      if l = 0 then op (chunkScan op (fun j => (mem (first + j)).1) B d 31)
        ((mem (first + (B + 32 * (d + 1) + l))).1)
      else (mem (first + (B + 32 * (d + 1) + l))).1) l
  apply ks5_congr op (l + 1) _ _ _ l (by omega)
  intro j hj
  have h1 := hinv.hi j (by omega) (by omega)
  have h2 : s.i j = B + 32 * (d + 1) + j := by omega
  have h3 : s.mem (first + (B + 32 * (d + 1) + j)) = mem (first + (B + 32 * (d + 1) + j)) :=
    hinv.hframe _ (fun i hi1 _ hi3 =>
      (halias i (B + 32 * (d + 1) + j) hi1 (by omega) (by omega)).symm)
  have h4 : thread_lane (tb + j) = j := thread_lane_add tb j htb (by omega)
  simp only [h4, h2, h3]
  by_cases hj0 : j = 0
  · subst hj0
    have h5 := hinv.hsd d rfl 31 (by omega) (by omega)
    simp only [WARP_SIZE, if_true]
    have e : tb + 0 + (32 - 1) = tb + 31 := by omega
    rw [e, h5]
  · simp only [hj0, if_false]

/-- The interval kernel, run by the warp `g` of a launch whose block size is a multiple of
32, on the interval `[B, E)`: it returns; every position of the interval holds the value of
its chunk scan; the carry slot `final_carry[g]` holds the value of the last position; nothing
else is stored to.  The only condition on aliasing is that no output position lies on an input
position that comes later in the interval. -/
theorem kernel_spec (op : α → α → α) (BS first n result isz fc bid tb : Nat)
    (mem : Mem α) (sd : Shared α) (hBS : BS % 32 = 0) (htb : tb % 32 = 0)
    (g B E : Nat) (hg : g = (BS * bid + tb) / 32) (hB : B = g * isz)
    (hE : E = min (B + isz) n)
    (halias : ∀ i j, B ≤ i → i < j → j < E → result + i ≠ first + j) :
    ∃ mem' sd', kernel op BS first n result isz fc bid tb (mem, sd) = some (mem', sd') ∧
      (∀ i, B ≤ i → i < E → result + i ≠ fc + g →
        mem' (result + i)
          = (chunkScan op (fun j => (mem (first + j)).1) B ((i - B) / 32) ((i - B) % 32),
              true)) ∧
      (B < E → mem' (fc + g)
          = (chunkScan op (fun j => (mem (first + j)).1) B ((E - 1 - B) / 32)
              ((E - 1 - B) % 32), true)) ∧
      (∀ a, (∀ i, B ≤ i → i < E → a ≠ result + i) → (B < E → a ≠ fc + g) →
        mem' a = mem a) := by
  have hwid : ∀ l, l < 32 → warp_id BS bid (tb + l) = g := by
    intro l hl; rw [hg]; exact warp_id_add BS bid tb l hBS htb hl
  have hie : ∀ l, l < 32 → interval_end BS bid (tb + l) isz n = E := by
    intro l hl
    simp only [interval_end, interval_begin, hwid l hl, hE, hB]
  have hi0 : ∀ l, l < 32 →
      interval_begin BS bid (tb + l) isz + thread_lane (tb + l) = B + l := by
    intro l hl
    simp only [interval_begin, hwid l hl, hB, thread_lane_add tb l htb hl]
  have halive : ∀ l, l < 32 →
      ((!decide (interval_end BS bid (tb + l) isz n
          ≤ interval_begin BS bid (tb + l) isz + thread_lane (tb + l))) = true
        ↔ B + l < E) := by
    intro l hl
    rw [hie l hl, hi0 l hl]
    simp
  have hinv0 : KInv op first result tb B E mem 0
      ⟨fun l => interval_begin BS bid (tb + l) isz + thread_lane (tb + l), mem, sd⟩ := by
    constructor
    · intro l hl _
      show interval_begin BS bid (tb + l) isz + thread_lane (tb + l) = _
      rw [hi0 l hl]; omega
    · intro i h1 _ h3; omega
    · intro a _; rfl
    · intro d hd; omega
    · left; omega
  have hinv1 := kernel_first_inv op first result tb B E mem _ _ htb hie halive _ hinv0
  have hEn : E ≤ n := by omega
  obtain ⟨d, s, hrun, ⟨hinv, hd1⟩, hexit⟩ :=
    whileAny_inv (kernel_active (fun l => interval_end BS bid (tb + l) isz n)
        (fun l => !decide (interval_end BS bid (tb + l) isz n
          ≤ interval_begin BS bid (tb + l) isz + thread_lane (tb + l))))
      (kernel_body op first result tb (fun l => interval_end BS bid (tb + l) isz n)
        (fun l => !decide (interval_end BS bid (tb + l) isz n
          ≤ interval_begin BS bid (tb + l) isz + thread_lane (tb + l))))
      (fun c s => KInv op first result tb B E mem c s ∧ 1 ≤ c) n
      (by
        rintro c s ⟨hinv, hc1⟩ hany
        obtain ⟨l, hl, hal⟩ := (anyLane_eq_true _).1 hany
        have := (kernel_active_iff op first result tb B E mem _ _ hie halive c s hinv l hl).1 hal
        exact ⟨⟨kernel_body_inv op first result tb B E mem _ _ htb hie halive halias c s hinv
          hc1 (by omega), by omega⟩, by omega⟩)
      n 1 _ ⟨hinv1, le_refl 1⟩ (by omega)
  have hdone : E ≤ B + 32 * d := by
    have h0 := (anyLane_eq_false _).1 hexit 0 (by omega)
    have h1 := kernel_active_iff op first result tb B E mem _ _ hie halive d s hinv 0 (by omega)
    rw [h0] at h1
    have : ¬ (B + 32 * d + 0 < E) := fun h => by simpa using h1.2 h
    omega
  have hcl : ∀ l, l < 32 →
      (kernel_carry_lane (fun l => interval_end BS bid (tb + l) isz n)
        (fun l => !decide (interval_end BS bid (tb + l) isz n
          ≤ interval_begin BS bid (tb + l) isz + thread_lane (tb + l))) s l = true
        ↔ (B < E ∧ l = (E - 1 - B) % 32)) := by
    intro l hl
    unfold kernel_carry_lane
    rw [Bool.and_eq_true, halive l hl, decide_eq_true_eq]
    simp only [hie l hl, WARP_SIZE]
    constructor
    · rintro ⟨h1, h2⟩
      have := hinv.hi l hl h1
      omega
    · rintro ⟨h1, h2⟩
      have h3 : B + l < E := by omega
      have := hinv.hi l hl h3
      exact ⟨h3, by omega⟩
  refine ⟨_, s.sdata, by simp only [kernel, hrun, Option.map_some']; rfl, ?_, ?_, ?_⟩
  · intro i hBi hiE hne
    rw [scatter_miss _ _ _ _ _ _ (fun l hl _ hla => by
      rw [hwid l hl] at hla
      exact hne hla.symm)]
    exact hinv.hres i hBi hiE (by omega)
  · intro hBE
    have hlf : (E - 1 - B) % 32 < 32 := Nat.mod_lt _ (by omega)
    have hhit := scatter_hit s.mem
      (kernel_carry_lane (fun l => interval_end BS bid (tb + l) isz n)
        (fun l => !decide (interval_end BS bid (tb + l) isz n
          ≤ interval_begin BS bid (tb + l) isz + thread_lane (tb + l))) s)
      (fun l => fc + warp_id BS bid (tb + l)) (fun l => (s.sdata (tb + l), true)) 32
      ((E - 1 - B) % 32) hlf ((hcl _ hlf).2 ⟨hBE, rfl⟩)
      (fun j hj hen _ => ((hcl j hj).1 hen).2)
    dsimp only at hhit
    rw [hwid _ hlf] at hhit
    show scatter _ _ _ _ 32 _ = _
    rw [hhit]
    obtain ⟨e, rfl⟩ : ∃ e, d = e + 1 := ⟨d - 1, by omega⟩
    have he : (E - 1 - B) / 32 = e := by
      rcases hinv.hlast with h | h
      · omega
      · have : e + 1 - 1 = e := by omega
        rw [this] at h
        omega
    rw [hinv.hsd e rfl _ hlf (by omega), he]
  · intro a ha1 ha2
    rw [scatter_miss _ _ _ _ _ _ (fun l hl hen hla => by
      rw [hwid l hl] at hla
      exact ha2 ((hcl l hl).1 hen).1 hla.symm)]
    exact hinv.hframe a (fun i h1 h2 _ => ha1 i h1 h2)

/-! ## Chunk scans and folds -/

theorem chunkScan_congr (op : α → α → α) (f g : Nat → α) (B : Nat) :
    ∀ c l, l < 32 → (∀ j, B ≤ j → j ≤ B + 32 * c + l → f j = g j) →
      chunkScan op f B c l = chunkScan op g B c l := by
  intro c
  induction c with
  | zero =>
    intro l hl h
    show ks5 op _ l = ks5 op _ l
    apply ks5_congr op (l + 1) _ _ _ l (by omega)
    intro j hj
    exact h (B + j) (by omega) (by omega)
  | succ c ih =>
    intro l hl h
    show ks5 op _ l = ks5 op _ l
    apply ks5_congr op (l + 1) _ _ _ l (by omega)
    intro j hj
    dsimp only
    rw [ih 31 (by omega) (fun j h1 h2 => h j h1 (by omega)),
      h (B + 32 * (c + 1) + j) (by omega) (by omega)]

theorem chunkScan_eq_lfold (op : α → α → α) (hop : ∀ a b c, op (op a b) c = op a (op b c))
    (f : Nat → α) (B : Nat) :
    ∀ c l, l < 32 → chunkScan op f B c l = lfold op f B (32 * c + l) := by
  intro c
  induction c with
  | zero =>
    intro l hl
    show ks5 op _ l = _
    rw [ks5_eq_lfold op hop _ l hl, lfold_shift]
    simp
  | succ c ih =>
    intro l hl
    show ks5 op _ l = _
    rw [ks5_eq_lfold op hop _ l hl]
    rw [lfold_head op hop (fun l => f (B + 32 * (c + 1) + l)) _ (chunkScan op f B c 31) 0 l
      (by simp) (fun j h1 h2 => by
        have : j ≠ 0 := by omega
        simp [this])]
    rw [ih 31 (by omega), lfold_shift]
    have e1 : B + 32 * (c + 1) + 0 = B + (32 * c + 31) + 1 := by omega
    have e2 : 32 * (c + 1) + l = 32 * c + 31 + l + 1 := by omega
    rw [e1, lfold_append op hop, e2]

/-- The value at position `i` of the interval that starts at `B`. -/
theorem chunkScan_pos (op : α → α → α) (hop : ∀ a b c, op (op a b) c = op a (op b c))
    (f : Nat → α) (B i : Nat) :
    chunkScan op f B ((i - B) / 32) ((i - B) % 32) = lfold op f B (i - B) := by
  rw [chunkScan_eq_lfold op hop f B _ _ (Nat.mod_lt _ (by omega))]
  congr 1
  omega

/-! ## Launches -/

theorem forUpTo_inv {σ : Type} (f : Nat → σ → Option σ) (Q : Nat → σ → Prop) (k : Nat)
    (hstep : ∀ j, j < k → ∀ s, Q j s → ∃ s', f j s = some s' ∧ Q (j + 1) s')
    (s : σ) (h0 : Q 0 s) : ∃ s', forUpTo f k s = some s' ∧ Q k s' := by
  induction k with
  | zero => exact ⟨s, rfl, h0⟩
  | succ k ih =>
    obtain ⟨s1, h1, q1⟩ := ih (fun j hj => hstep j (by omega))
    obtain ⟨s2, h2, q2⟩ := hstep k (by omega) s1 q1
    exact ⟨s2, by simp [forUpTo, h1, h2], q2⟩

/-- A property indexed by the number of warps that have run is carried through a launch of
`nb` blocks of `W` warps each. -/
theorem launch_inv {σ : Type} (nb W : Nat) (kern : Nat → Nat → Mem α × σ → Option (Mem α × σ))
    (scratch : Nat → σ) (P : Nat → Mem α → Prop)
    (hstep : ∀ b w, b < nb → w < W → ∀ m sc, P (W * b + w) m →
      ∃ m' sc', kern b (32 * w) (m, sc) = some (m', sc') ∧ P (W * b + w + 1) m')
    (m : Mem α) (h0 : P 0 m) :
    ∃ m', launch nb (32 * W) kern scratch m = some m' ∧ P (W * nb) m' := by
  unfold launch
  have := forUpTo_inv (fun b m => runBlock (32 * W) (kern b) m (scratch b))
    (fun b m => P (W * b) m) nb
    (by
      intro b hb m hP
      have hin := forUpTo_inv (fun w s => kern b (WARP_SIZE * w) s)
        (fun w (s : Mem α × σ) => P (W * b + w) s.1) W
        (by
          intro w hw s hs
          obtain ⟨m', sc', h1, h2⟩ := hstep b w hb hw s.1 s.2 hs
          exact ⟨(m', sc'), h1, h2⟩)
        (m, scratch b) hP
      obtain ⟨s', h1, h2⟩ := hin
      have e : 32 * W / WARP_SIZE = W := by simp [WARP_SIZE]
      refine ⟨s'.1, ?_, ?_⟩
      · simp only [runBlock, e, h1, Option.map_some']
      · have e2 : W * (b + 1) = W * b + W := by ring
        show P (W * (b + 1)) s'.1
        rw [e2]; exact h2)
    m (by simpa using h0)
  exact this

/-! ## The first-level launch -/

theorem interval_lt (g h isz i j : Nat) (hgh : g < h) (hi : i < g * isz + isz)
    (hj : h * isz ≤ j) : i < j := by
  have h1 : (g + 1) * isz ≤ h * isz := Nat.mul_le_mul_right isz hgh
  have h2 : (g + 1) * isz = g * isz + isz := by ring
  omega

theorem stage1_step (op : α → α → α) (first n result isz carry : Nat) (mem : Mem α)
    (hisz : 0 < isz)
    (hio : ∀ i j, i < j → j < n → result + i ≠ first + j)
    (hci : ∀ g j, g * isz < n → j < n → carry + g ≠ first + j)
    (hco : ∀ g i, g * isz < n → i < n → carry + g ≠ result + i)
    (b w : Nat) (m : Mem α) (sc : Shared α)
    (hP : Stage1Inv op first n result isz carry mem (8 * b + w) m) :
    ∃ m' sc', kernel op BLOCK_SIZE first n result isz carry b (32 * w) (m, sc) = some (m', sc') ∧
      Stage1Inv op first n result isz carry mem (8 * b + w + 1) m' := by
  obtain ⟨m', sc', hk, ha, hb, hc⟩ := kernel_spec op BLOCK_SIZE first n result isz carry b
    (32 * w) m sc (by decide) (by omega) (8 * b + w) ((8 * b + w) * isz)
    (min ((8 * b + w) * isz + isz) n) (by simp only [BLOCK_SIZE]; omega) rfl rfl
    (fun i j _ h2 h3 => hio i j h2 (by omega))
  refine ⟨m', sc', hk, ?_⟩
  -- the input of this warp is still the original one
  have hin : ∀ j, (8 * b + w) * isz ≤ j → j < n → m (first + j) = mem (first + j) := by
    intro j h1 h2
    apply hP.hframe
    · intro g hg i hi1 hi2
      exact (hio i j (interval_lt g (8 * b + w) isz i j hg (by omega) h1) h2).symm
    · intro g _ hgn
      exact (hci g j hgn h2).symm
  have hold : ∀ a, (∀ i, (8 * b + w) * isz ≤ i → i < n → a ≠ result + i) →
      ((8 * b + w) * isz < n → a ≠ carry + (8 * b + w)) → m' a = m a := by
    intro a h1 h2
    exact hc a (fun i hi1 hi2 => h1 i hi1 (by omega)) (fun h => h2 (by omega))
  constructor
  · intro g hg i hi1 hi2
    by_cases hgG : g = 8 * b + w
    · subst hgG
      rw [ha i hi1 hi2 (hco _ i (by omega) (by omega)).symm]
      congr 1
      apply chunkScan_congr op _ _ _ _ _ (Nat.mod_lt _ (by omega))
      intro j hj1 hj2
      show (m (first + j)).1 = (mem (first + j)).1
      rw [hin j hj1 (by omega)]
    · have hlt : g < 8 * b + w := by omega
      rw [hold (result + i)
        (fun i2 h1 _ => by
          have := interval_lt g (8 * b + w) isz i i2 hlt (by omega) h1
          omega)
        (fun h => (hco _ i h (by omega)).symm)]
      exact hP.hres g hlt i hi1 hi2
  · intro g hg hgn
    by_cases hgG : g = 8 * b + w
    · subst hgG
      rw [hb (by omega)]
      congr 1
      apply chunkScan_congr op _ _ _ _ _ (Nat.mod_lt _ (by omega))
      intro j hj1 hj2
      show (m (first + j)).1 = (mem (first + j)).1
      rw [hin j hj1 (by omega)]
    · have hlt : g < 8 * b + w := by omega
      rw [hold (carry + g) (fun i _ h2 => hco g i hgn h2) (fun _ => by omega)]
      exact hP.hcarry g hlt hgn
  · intro a h1 h2
    rw [hc a (fun i hi1 hi2 => h1 (8 * b + w) (by omega) i hi1 hi2)
      (fun h => h2 (8 * b + w) (by omega) (by omega))]
    exact hP.hframe a (fun g hg => h1 g (by omega)) (fun g hg => h2 g (by omega))

/-- The first-level launch returns and establishes `Stage1Inv` for all `8 * nb` warps. -/
theorem stage1_spec (op : α → α → α) (first n result isz carry nb : Nat)
    (scratch : Nat → Shared α) (mem : Mem α) (hisz : 0 < isz)
    (hio : ∀ i j, i < j → j < n → result + i ≠ first + j)
    (hci : ∀ g j, g * isz < n → j < n → carry + g ≠ first + j)
    (hco : ∀ g i, g * isz < n → i < n → carry + g ≠ result + i) :
    ∃ m1, launch nb BLOCK_SIZE (kernel op BLOCK_SIZE first n result isz carry) scratch mem
        = some m1 ∧
      Stage1Inv op first n result isz carry mem (8 * nb) m1 := by
  apply launch_inv nb 8 (kernel op BLOCK_SIZE first n result isz carry) scratch
    (Stage1Inv op first n result isz carry mem)
  · intro b w _ _ m sc hP
    exact stage1_step op first n result isz carry mem hisz hio hci hco b w m sc hP
  · exact ⟨fun g hg => by omega, fun g hg => by omega, fun a _ _ => rfl⟩

/-! ## The second-level launch -/

/-- The single warp of the second-level scan turns the `nw` carries, in place, into their
chunk scan; the store through `final_carry` hits the last carry with the value it already
has.  Nothing else is stored to. -/
theorem second_level_scan_spec (op : α → α → α) (carry nw : Nat) (hnw : 0 < nw)
    (scratch : Nat → Shared α) (m : Mem α) :
    ∃ m2, second_level_scan op carry nw scratch m = some m2 ∧
      (∀ j, j < nw → m2 (carry + j)
        = (chunkScan op (fun j => (m (carry + j)).1) 0 (j / 32) (j % 32), true)) ∧
      (∀ a, (∀ j, j < nw → a ≠ carry + j) → m2 a = m a) := by
  unfold second_level_scan
  have hl := launch_inv 1 1 (kernel op WARP_SIZE carry nw carry nw (carry + nw - 1)) scratch
    (fun G m2 => (G = 0 ∧ m2 = m) ∨ (G = 1 ∧
      (∀ j, j < nw → m2 (carry + j)
        = (chunkScan op (fun j => (m (carry + j)).1) 0 (j / 32) (j % 32), true)) ∧
      (∀ a, (∀ j, j < nw → a ≠ carry + j) → m2 a = m a)))
    (by
      intro b w hb hw m0 sc hP
      have hb0 : b = 0 := by omega
      have hw0 : w = 0 := by omega
      subst hb0; subst hw0
      rcases hP with ⟨_, rfl⟩ | ⟨h, _⟩
      · obtain ⟨m', sc', hk, ha, hbb, hc⟩ := kernel_spec op WARP_SIZE carry nw carry nw
          (carry + nw - 1) 0 (32 * 0) m0 sc (by decide) (by omega) 0 0 nw
          (by simp [WARP_SIZE]) (by simp) (by simp) (fun i j _ h2 _ => by omega)
        refine ⟨m', sc', hk, Or.inr ⟨by omega, ?_, ?_⟩⟩
        · intro j hj
          by_cases hjl : carry + j = carry + nw - 1 + 0
          · have e : j = nw - 1 := by omega
            have hbb2 := hbb hnw
            rw [hjl, hbb2, e]
            simp
          · have := ha j (by omega) hj hjl
            simpa using this
        · intro a ha2
          exact hc a (fun i _ hi => ha2 i hi) (fun _ => by
            have := ha2 (nw - 1) (by omega)
            omega)
      · omega)
    m (Or.inl ⟨rfl, rfl⟩)
  obtain ⟨m2, h1, h2⟩ := hl
  rcases h2 with ⟨h, _⟩ | ⟨_, h3, h4⟩
  · omega
  · exact ⟨m2, h1, h3, h4⟩

/-! ## The inclusive update kernel, one warp -/

theorem whileAny_done {σ : Type} (cond : σ → Nat → Bool) (body : σ → σ) (fuel : Nat) (s : σ)
    (h : anyLane (cond s) = false) : whileAny cond body fuel s = some s := by
  cases fuel <;> simp [whileAny, h]

theorem update_active_iff (op : α → α → α) (result B E : Nat) (cv : α) (mem : Mem α)
    (ie : Nat → Nat) (alive : Nat → Bool) (hie : ∀ l, l < 32 → ie l = E)
    (halive : ∀ l, l < 32 → alive l = true)
    (c : Nat) (s : UState α) (hinv : UInv op result B E cv mem c s) :
    ∀ l, l < 32 → (update_active ie alive s l = true ↔ B + 32 * c + l < E) := by
  intro l hl
  simp only [update_active, Bool.and_eq_true, decide_eq_true_eq, hie l hl, halive l hl,
    true_and]
  constructor
  · intro h2
    by_cases h1 : B + l < E
    · have := hinv.hi l hl h1
      omega
    · have := hinv.hi2 l hl (by omega)
      omega
  · intro h
    have h1 : B + l < E := by omega
    have := hinv.hi l hl h1
    omega

theorem inclusive_update_body_inv (op : α → α → α) (result B E : Nat) (cv : α) (mem : Mem α)
    (ie : Nat → Nat) (alive : Nat → Bool) (carry : Nat → α)
    (hie : ∀ l, l < 32 → ie l = E) (halive : ∀ l, l < 32 → alive l = true)
    (hcarry : ∀ l, l < 32 → carry l = cv)
    (c : Nat) (s : UState α) (hinv : UInv op result B E cv mem c s) :
    UInv op result B E cv mem (c + 1) (inclusive_update_body op result ie alive carry s) := by
  have hact := update_active_iff op result B E cv mem ie alive hie halive c s hinv
  have hhit : ∀ l, l < 32 → B + 32 * c + l < E →
      (inclusive_update_body op result ie alive carry s).mem (result + (B + 32 * c + l))
        = (op cv (mem (result + (B + 32 * c + l))).1, true) := by
    intro l hl hlE
    have hil : s.i l = B + 32 * c + l := by
      have := hinv.hi l hl (by omega)
      omega
    have := scatter_hit s.mem (update_active ie alive s) (fun l => result + s.i l)
      (fun l => (op (carry l) (s.mem (result + s.i l)).1, true)) 32 l hl
      ((hact l hl).2 hlE)
      (fun j hj hen hjl => by
        have h1 := (hact j hj).1 hen
        have h2 := hinv.hi j hj (by omega)
        dsimp only at hjl
        omega)
    dsimp only at this
    rw [hil] at this
    simp only [inclusive_update_body, WARP_SIZE]
    rw [this, hcarry l hl, hinv.hframe _ (fun i _ _ h3 => by omega)]
  have hmiss : ∀ a, (∀ l, l < 32 → B + 32 * c + l < E → a ≠ result + (B + 32 * c + l)) →
      (inclusive_update_body op result ie alive carry s).mem a = s.mem a := by
    intro a ha
    simp only [inclusive_update_body, WARP_SIZE]
    apply scatter_miss
    intro l hl hen hla
    have h1 := (hact l hl).1 hen
    have h2 := hinv.hi l hl (by omega)
    exact ha l hl h1 (by omega)
  constructor
  · intro l hl hlE
    have h := hinv.hi l hl hlE
    show (if update_active ie alive s l = true then s.i l + 32 else s.i l) = _
    by_cases ha : update_active ie alive s l = true
    · have := (hact l hl).1 ha
      simp only [ha, if_true]
      omega
    · have := mt (hact l hl).2 ha
      simp only [ha, Bool.false_eq_true, if_false]
      omega
  · intro l hl hlE
    have h := hinv.hi2 l hl hlE
    show E ≤ (if update_active ie alive s l = true then s.i l + 32 else s.i l)
    split <;> omega
  · intro i hBi hiE hic
    by_cases hlt : i < B + 32 * c
    · rw [hmiss _ (fun l _ _ => by omega)]
      exact hinv.hres i hBi hiE hlt
    · have e0 : i = B + 32 * c + (i - (B + 32 * c)) := by omega
      rw [e0]
      exact hhit _ (by omega) (by omega)
  · intro a ha
    rw [hmiss a (fun l _ hlE => ha (B + 32 * c + l) (by omega) (by omega) (by omega))]
    exact hinv.hframe a (fun i h1 h2 h3 => ha i h1 h2 (by omega))

/-- The inclusive update kernel, run by the warp `g` on the interval `[B, E)`: it returns; a
warp with `B ≠ 0` and `B < n` replaces every `result[i]` of its interval by
`op(carry_in[g-1], result[i])`; nothing else is stored to. -/
theorem inclusive_update_spec (op : α → α → α) (BS result n isz carry_in bid tb : Nat)
    (mem : Mem α) (hBS : BS % 32 = 0) (htb : tb % 32 = 0)
    (g B E : Nat) (hg : g = (BS * bid + tb) / 32) (hB : B = g * isz)
    (hE : E = min (B + isz) n) :
    ∃ m', inclusive_update_kernel op BS result n isz carry_in bid tb mem = some m' ∧
      (B ≠ 0 → B < n → ∀ i, B ≤ i → i < E →
        m' (result + i) = (op (mem (carry_in + (g - 1))).1 (mem (result + i)).1, true)) ∧
      (∀ a, (B ≠ 0 → B < n → ∀ i, B ≤ i → i < E → a ≠ result + i) → m' a = mem a) := by
  have hwid : ∀ l, l < 32 → warp_id BS bid (tb + l) = g := by
    intro l hl; rw [hg]; exact warp_id_add BS bid tb l hBS htb hl
  have hib : ∀ l, l < 32 → interval_begin BS bid (tb + l) isz = B := by
    intro l hl
    simp only [interval_begin, hwid l hl, hB]
  have hie : ∀ l, l < 32 → interval_end BS bid (tb + l) isz n = E := by
    intro l hl
    simp only [interval_end, hib l hl, hE]
  by_cases hon : B ≠ 0 ∧ B < n
  · have halive : ∀ l, l < 32 →
        (!(decide (interval_begin BS bid (tb + l) isz = 0)
          || decide (n ≤ interval_begin BS bid (tb + l) isz))) = true := by
      intro l hl
      rw [hib l hl]
      have h1 : ¬ (B = 0) := hon.1
      have h2 : ¬ (n ≤ B) := by omega
      simp [h1, h2]
    have hcarry : ∀ l, l < 32 →
        (mem (carry_in + (warp_id BS bid (tb + l) - 1))).1 = (mem (carry_in + (g - 1))).1 := by
      intro l hl; rw [hwid l hl]
    have hinv0 : UInv op result B E (mem (carry_in + (g - 1))).1 mem 0
        ⟨fun l => interval_begin BS bid (tb + l) isz + thread_lane (tb + l), mem⟩ := by
      constructor
      · intro l hl _
        show interval_begin BS bid (tb + l) isz + thread_lane (tb + l) = _
        rw [hib l hl, thread_lane_add tb l htb hl]; omega
      · intro l hl h
        show E ≤ interval_begin BS bid (tb + l) isz + thread_lane (tb + l)
        rw [hib l hl, thread_lane_add tb l htb hl]; exact h
      · intro i h1 _ h3; omega
      · intro a _; rfl
    obtain ⟨d, s, hrun, hinv, hexit⟩ :=
      whileAny_inv (update_active (fun l => interval_end BS bid (tb + l) isz n)
          (fun l => !(decide (interval_begin BS bid (tb + l) isz = 0)
            || decide (n ≤ interval_begin BS bid (tb + l) isz))))
        (inclusive_update_body op result (fun l => interval_end BS bid (tb + l) isz n)
          (fun l => !(decide (interval_begin BS bid (tb + l) isz = 0)
            || decide (n ≤ interval_begin BS bid (tb + l) isz)))
          (fun l => (mem (carry_in + (warp_id BS bid (tb + l) - 1))).1))
        (fun c s => UInv op result B E (mem (carry_in + (g - 1))).1 mem c s) n
        (by
          intro c s hinv hany
          obtain ⟨l, hl, hal⟩ := (anyLane_eq_true _).1 hany
          have := (update_active_iff op result B E _ mem _ _ hie halive c s hinv l hl).1 hal
          exact ⟨inclusive_update_body_inv op result B E _ mem _ _ _ hie halive hcarry c s hinv,
            by omega⟩)
        n 0 _ hinv0 (by omega)
    have hdone : E ≤ B + 32 * d := by
      have h0 := (anyLane_eq_false _).1 hexit 0 (by omega)
      have h1 := update_active_iff op result B E _ mem _ _ hie halive d s hinv 0 (by omega)
      rw [h0] at h1
      have : ¬ (B + 32 * d + 0 < E) := fun h => by simpa using h1.2 h
      omega
    refine ⟨s.mem, by simp only [inclusive_update_kernel, hrun, Option.map_some'], ?_, ?_⟩
    · intro _ _ i hBi hiE
      exact hinv.hres i hBi hiE (by omega)
    · intro a ha
      exact hinv.hframe a (fun i h1 h2 _ => ha hon.1 hon.2 i h1 h2)
  · have hdead : anyLane (update_active (fun l => interval_end BS bid (tb + l) isz n)
        (fun l => !(decide (interval_begin BS bid (tb + l) isz = 0)
          || decide (n ≤ interval_begin BS bid (tb + l) isz)))
        (⟨fun l => interval_begin BS bid (tb + l) isz + thread_lane (tb + l), mem⟩ :
          UState α)) = false := by
      rw [anyLane_eq_false]
      intro l hl
      simp only [update_active, hib l hl]
      have : B = 0 ∨ n ≤ B := by
        by_cases h0 : B = 0
        · exact Or.inl h0
        · right
          by_contra h1
          exact hon ⟨h0, by omega⟩
      rcases this with h | h <;> simp [h]
    refine ⟨mem, by simp only [inclusive_update_kernel, whileAny_done _ _ _ _ hdead,
      Option.map_some'], ?_, ?_⟩
    · intro h1 h2
      exact absurd ⟨h1, h2⟩ hon
    · intro a _; rfl

/-! ## The exclusive update kernel, one warp -/

theorem exclusive_active_iff (op : α → α → α) (result B E : Nat) (cv : α) (mem : Mem α)
    (ie : Nat → Nat) (alive : Nat → Bool) (hie : ∀ l, l < 32 → ie l = E)
    (halive : ∀ l, l < 32 → alive l = true)
    (c : Nat) (s : XState α) (hinv : XInv op result B E cv mem c s) :
    ∀ l, l < 32 → (exclusive_active ie alive s l = true ↔ B + 32 * c + l < E) := by
  intro l hl
  simp only [exclusive_active, Bool.and_eq_true, decide_eq_true_eq, hie l hl, halive l hl,
    true_and]
  constructor
  · intro h2
    by_cases h1 : B + l < E
    · have := hinv.hi l hl h1
      omega
    · have := hinv.hi2 l hl (by omega)
      omega
  · intro h
    have h1 : B + l < E := by omega
    have := hinv.hi l hl h1
    omega

theorem exclusive_update_body_inv (op : α → α → α) (result tb B E : Nat) (cv : α)
    (mem : Mem α) (ie : Nat → Nat) (alive : Nat → Bool) (carry : Nat → α)
    (htb : tb % 32 = 0)
    (hie : ∀ l, l < 32 → ie l = E) (halive : ∀ l, l < 32 → alive l = true)
    (hcarry : ∀ l, l < 32 → carry l = cv)
    (c : Nat) (s : XState α) (hinv : XInv op result B E cv mem c s) :
    XInv op result B E cv mem (c + 1)
      (exclusive_update_body op result tb ie alive carry s) := by
  have hact := exclusive_active_iff op result B E cv mem ie alive hie halive c s hinv
  have hil : ∀ l, l < 32 → B + 32 * c + l < E → s.i l = B + 32 * c + l := by
    intro l hl hlE
    have := hinv.hi l hl (by omega)
    omega
  -- the scratch after the first statement
  have hsd : ∀ l, l < 32 → B + 32 * c + l < E →
      scatter s.sdata (exclusive_active ie alive s) (fun l => tb + l)
        (fun l => op (carry l) (s.mem (result + s.i l)).1) 32 (tb + l)
        = op cv (mem (result + (B + 32 * c + l))).1 := by
    intro l hl hlE
    have := scatter_hit s.sdata (exclusive_active ie alive s) (fun l => tb + l)
      (fun l => op (carry l) (s.mem (result + s.i l)).1) 32 l hl ((hact l hl).2 hlE)
      (fun j _ _ hjl => by dsimp only at hjl; omega)
    dsimp only at this
    rw [this, hcarry l hl, hil l hl hlE, hinv.hframe _ (fun i _ _ h3 => by omega)]
  have hhit : ∀ l, l < 32 → B + 32 * c + l < E →
      (exclusive_update_body op result tb ie alive carry s).mem (result + (B + 32 * c + l))
        = (if B + 32 * c + l = B then cv
            else op cv (mem (result + (B + 32 * c + l - 1))).1, true) := by
    intro l hl hlE
    have := scatter_hit s.mem (exclusive_active ie alive s) (fun l => result + s.i l)
      (fun l => (if thread_lane (tb + l) = 0 then s.val l
        else scatter s.sdata (exclusive_active ie alive s) (fun l => tb + l)
          (fun l => op (carry l) (s.mem (result + s.i l)).1) 32 (tb + l - 1), true))
      32 l hl ((hact l hl).2 hlE)
      (fun j hj hen hjl => by
        have h1 := (hact j hj).1 hen
        have h2 := hil j hj h1
        have h3 := hil l hl hlE
        dsimp only at hjl
        omega)
    dsimp only at this
    rw [hil l hl hlE] at this
    simp only [exclusive_update_body, WARP_SIZE]
    rw [this, thread_lane_add tb l htb hl]
    by_cases hl0 : l = 0
    · subst hl0
      have hv := hinv.hval (by omega)
      simp only [if_true, hv]
      by_cases hc0 : c = 0
      · subst hc0; simp
      · have : ¬ (B + 32 * c + 0 = B) := by omega
        simp only [hc0, this, if_false]
        rfl
    · have e1 : tb + l - 1 = tb + (l - 1) := by omega
      have e2 : ¬ (B + 32 * c + l = B) := by omega
      have e3 : B + 32 * c + (l - 1) = B + 32 * c + l - 1 := by omega
      simp only [hl0, e2, if_false]
      rw [e1, hsd (l - 1) (by omega) (by omega), e3]
  have hmiss : ∀ a, (∀ l, l < 32 → B + 32 * c + l < E → a ≠ result + (B + 32 * c + l)) →
      (exclusive_update_body op result tb ie alive carry s).mem a = s.mem a := by
    intro a ha
    simp only [exclusive_update_body, WARP_SIZE]
    apply scatter_miss
    intro l hl hen hla
    have h1 := (hact l hl).1 hen
    have h2 := hil l hl h1
    exact ha l hl h1 (by omega)
  constructor
  · intro l hl hlE
    have h := hinv.hi l hl hlE
    show (if exclusive_active ie alive s l = true then s.i l + 32 else s.i l) = _
    by_cases ha : exclusive_active ie alive s l = true
    · have := (hact l hl).1 ha
      simp only [ha, if_true]
      omega
    · have := mt (hact l hl).2 ha
      simp only [ha, Bool.false_eq_true, if_false]
      omega
  · intro l hl hlE
    have h := hinv.hi2 l hl hlE
    show E ≤ (if exclusive_active ie alive s l = true then s.i l + 32 else s.i l)
    split <;> omega
  · intro hnext
    have ha0 := (hact 0 (by omega)).2 (by omega)
    have ht0 : thread_lane (tb + 0) = 0 := thread_lane_add tb 0 htb (by omega)
    have h31 := hsd 31 (by omega) (by omega)
    have e1 : tb + 0 + 31 = tb + 31 := by omega
    have e2 : B + 32 * (c + 1) - 1 = B + 32 * c + 31 := by omega
    simp only [exclusive_update_body, WARP_SIZE, ha0, ht0, decide_True, Bool.and_self,
      if_true, e1, h31, e2]
    simp
  · intro i hBi hiE hic
    by_cases hlt : i < B + 32 * c
    · rw [hmiss _ (fun l _ _ => by omega)]
      exact hinv.hres i hBi hiE hlt
    · have e0 : i = B + 32 * c + (i - (B + 32 * c)) := by omega
      rw [e0]
      exact hhit _ (by omega) (by omega)
  · intro a ha
    rw [hmiss a (fun l _ hlE => ha (B + 32 * c + l) (by omega) (by omega) (by omega))]
    exact hinv.hframe a (fun i h1 h2 h3 => ha i h1 h2 (by omega))

/-- The exclusive update kernel, run by the warp `g` on the interval `[B, E)`: it returns; a
warp with `B < n` stores its carry at the first position of its interval and
`op(carry, result[i-1])`, with the old `result[i-1]`, at every other position `i`; nothing
else is stored to. -/
theorem exclusive_update_spec (op : α → α → α) (BS result : Nat) (init : α)
    (n isz carry_in bid tb : Nat) (mem : Mem α) (sd : Shared α)
    (hBS : BS % 32 = 0) (htb : tb % 32 = 0)
    (g B E : Nat) (hg : g = (BS * bid + tb) / 32) (hB : B = g * isz)
    (hE : E = min (B + isz) n) :
    ∃ m' sd', exclusive_update_kernel op BS result init n isz carry_in bid tb (mem, sd)
        = some (m', sd') ∧
      (B < n → ∀ i, B ≤ i → i < E →
        m' (result + i)
          = (if i = B then (if g = 0 then init else op init (mem (carry_in + (g - 1))).1)
              else op (if g = 0 then init else op init (mem (carry_in + (g - 1))).1)
                (mem (result + (i - 1))).1, true)) ∧
      (∀ a, (B < n → ∀ i, B ≤ i → i < E → a ≠ result + i) → m' a = mem a) := by
  have hwid : ∀ l, l < 32 → warp_id BS bid (tb + l) = g := by
    intro l hl; rw [hg]; exact warp_id_add BS bid tb l hBS htb hl
  have hib : ∀ l, l < 32 → interval_begin BS bid (tb + l) isz = B := by
    intro l hl
    simp only [interval_begin, hwid l hl, hB]
  have hie : ∀ l, l < 32 → interval_end BS bid (tb + l) isz n = E := by
    intro l hl
    simp only [interval_end, hib l hl, hE]
  by_cases hon : B < n
  · have halive : ∀ l, l < 32 →
        (!decide (n ≤ interval_begin BS bid (tb + l) isz)) = true := by
      intro l hl
      rw [hib l hl]
      have h2 : ¬ (n ≤ B) := by omega
      simp [h2]
    have hcarry : ∀ l, l < 32 →
        (if warp_id BS bid (tb + l) = 0 then init
          else op init (mem (carry_in + (warp_id BS bid (tb + l) - 1))).1)
        = (if g = 0 then init else op init (mem (carry_in + (g - 1))).1) := by
      intro l hl; rw [hwid l hl]
    have hinv0 : XInv op result B E
        (if g = 0 then init else op init (mem (carry_in + (g - 1))).1) mem 0
        ⟨fun l => interval_begin BS bid (tb + l) isz + thread_lane (tb + l),
          fun l => if warp_id BS bid (tb + l) = 0 then init
            else op init (mem (carry_in + (warp_id BS bid (tb + l) - 1))).1, mem, sd⟩ := by
      constructor
      · intro l hl _
        show interval_begin BS bid (tb + l) isz + thread_lane (tb + l) = _
        rw [hib l hl, thread_lane_add tb l htb hl]; omega
      · intro l hl h
        show E ≤ interval_begin BS bid (tb + l) isz + thread_lane (tb + l)
        rw [hib l hl, thread_lane_add tb l htb hl]; exact h
      · intro _
        have := hcarry 0 (by omega)
        simpa using this
      · intro i h1 _ h3; omega
      · intro a _; rfl
    obtain ⟨d, s, hrun, hinv, hexit⟩ :=
      whileAny_inv (exclusive_active (fun l => interval_end BS bid (tb + l) isz n)
          (fun l => !decide (n ≤ interval_begin BS bid (tb + l) isz)))
        (exclusive_update_body op result tb (fun l => interval_end BS bid (tb + l) isz n)
          (fun l => !decide (n ≤ interval_begin BS bid (tb + l) isz))
          (fun l => if warp_id BS bid (tb + l) = 0 then init
            else op init (mem (carry_in + (warp_id BS bid (tb + l) - 1))).1))
        (fun c s => XInv op result B E
          (if g = 0 then init else op init (mem (carry_in + (g - 1))).1) mem c s) n
        (by
          intro c s hinv hany
          obtain ⟨l, hl, hal⟩ := (anyLane_eq_true _).1 hany
          have := (exclusive_active_iff op result B E _ mem _ _ hie halive c s hinv l hl).1 hal
          exact ⟨exclusive_update_body_inv op result tb B E _ mem _ _ _ htb hie halive hcarry
            c s hinv, by omega⟩)
        n 0 _ hinv0 (by omega)
    have hdone : E ≤ B + 32 * d := by
      have h0 := (anyLane_eq_false _).1 hexit 0 (by omega)
      have h1 := exclusive_active_iff op result B E _ mem _ _ hie halive d s hinv 0 (by omega)
      rw [h0] at h1
      have : ¬ (B + 32 * d + 0 < E) := fun h => by simpa using h1.2 h
      omega
    refine ⟨s.mem, s.sdata, by simp only [exclusive_update_kernel, hrun, Option.map_some'],
      ?_, ?_⟩
    · intro _ i hBi hiE
      exact hinv.hres i hBi hiE (by omega)
    · intro a ha
      exact hinv.hframe a (fun i h1 h2 _ => ha hon i h1 h2)
  · have hdead : anyLane (exclusive_active (fun l => interval_end BS bid (tb + l) isz n)
        (fun l => !decide (n ≤ interval_begin BS bid (tb + l) isz))
        (⟨fun l => interval_begin BS bid (tb + l) isz + thread_lane (tb + l),
          fun l => if warp_id BS bid (tb + l) = 0 then init
            else op init (mem (carry_in + (warp_id BS bid (tb + l) - 1))).1, mem, sd⟩ :
          XState α)) = false := by
      rw [anyLane_eq_false]
      intro l hl
      simp only [exclusive_active, hib l hl]
      have : n ≤ B := by omega
      simp [this]
    refine ⟨mem, sd, by simp only [exclusive_update_kernel, whileAny_done _ _ _ _ hdead,
      Option.map_some'], ?_, ?_⟩
    · intro h1
      exact absurd h1 hon
    · intro a _; rfl

/-! ## The update launches -/

/-- The launch of the inclusive update kernel: it returns; every interval but the first has
the carry of the interval before combined into each of its positions; nothing else is stored
to. -/
theorem inclusive_update_launch_spec (op : α → α → α) (result n isz carry nb : Nat)
    (m2 : Mem α) (hco : ∀ g i, g * isz < n → i < n → carry + g ≠ result + i) :
    ∃ m3, launch nb BLOCK_SIZE
        (fun bid tb (ms : Mem α × Unit) =>
          (inclusive_update_kernel op BLOCK_SIZE result n isz carry bid tb ms.1).map
            fun m => (m, ()))
        (fun _ => ()) m2 = some m3 ∧
      (∀ g, g < 8 * nb → g * isz ≠ 0 → g * isz < n →
        ∀ i, g * isz ≤ i → i < min (g * isz + isz) n →
          m3 (result + i) = (op (m2 (carry + (g - 1))).1 (m2 (result + i)).1, true)) ∧
      (∀ a, (∀ g, g < 8 * nb → g * isz ≠ 0 → g * isz < n →
          ∀ i, g * isz ≤ i → i < min (g * isz + isz) n → a ≠ result + i) → m3 a = m2 a) := by
  apply launch_inv nb 8 _ (fun _ => ())
    (fun G m =>
      (∀ g, g < G → g * isz ≠ 0 → g * isz < n →
        ∀ i, g * isz ≤ i → i < min (g * isz + isz) n →
          m (result + i) = (op (m2 (carry + (g - 1))).1 (m2 (result + i)).1, true)) ∧
      (∀ a, (∀ g, g < G → g * isz ≠ 0 → g * isz < n →
          ∀ i, g * isz ≤ i → i < min (g * isz + isz) n → a ≠ result + i) → m a = m2 a))
  · rintro b w _ hw m sc ⟨hP1, hP2⟩
    obtain ⟨m', hk, ha, hc⟩ := inclusive_update_spec op BLOCK_SIZE result n isz carry b
      (32 * w) m (by decide) (by omega) (8 * b + w) ((8 * b + w) * isz)
      (min ((8 * b + w) * isz + isz) n) (by simp only [BLOCK_SIZE]; omega) rfl rfl
    refine ⟨m', (), by simp only [hk, Option.map_some'], ?_, ?_⟩
    · intro g hg hg0 hgn i hi1 hi2
      by_cases hgG : g = 8 * b + w
      · subst hgG
        rw [ha hg0 hgn i hi1 hi2]
        have hle : (8 * b + w - 1) * isz ≤ (8 * b + w) * isz :=
          Nat.mul_le_mul_right isz (by omega)
        rw [hP2 (carry + (8 * b + w - 1)) (fun g' _ _ _ i' _ hi' =>
            hco _ i' (by omega) (by omega)),
          hP2 (result + i) (fun g' hg' _ _ i' hi1' hi2' => by
            have := interval_lt g' (8 * b + w) isz i' i hg' (by omega) hi1
            omega)]
      · have hlt : g < 8 * b + w := by omega
        rw [hc (result + i) (fun _ _ i2 h1 _ => by
          have := interval_lt g (8 * b + w) isz i i2 hlt (by omega) h1
          omega)]
        exact hP1 g hlt hg0 hgn i hi1 hi2
    · intro a ha2
      rw [hc a (fun h0 hn i hi1 hi2 => ha2 (8 * b + w) (by omega) h0 hn i hi1 hi2)]
      exact hP2 a (fun g hg => ha2 g (by omega))
  · exact ⟨fun g hg => by omega, fun a _ => rfl⟩

/-- The launch of the exclusive update kernel: it returns; every interval starts with its
carry, every other position holds the carry combined with the old value of the position
before; nothing else is stored to. -/
theorem exclusive_update_launch_spec (op : α → α → α) (result : Nat) (init : α)
    (n isz carry nb : Nat) (scratch : Nat → Shared α) (m2 : Mem α)
    (hco : ∀ g i, g * isz < n → i < n → carry + g ≠ result + i) :
    ∃ m3, launch nb BLOCK_SIZE
        (exclusive_update_kernel op BLOCK_SIZE result init n isz carry) scratch m2 = some m3 ∧
      (∀ g, g < 8 * nb → g * isz < n →
        ∀ i, g * isz ≤ i → i < min (g * isz + isz) n →
          m3 (result + i)
            = (if i = g * isz then (if g = 0 then init else op init (m2 (carry + (g - 1))).1)
                else op (if g = 0 then init else op init (m2 (carry + (g - 1))).1)
                  (m2 (result + (i - 1))).1, true)) ∧
      (∀ a, (∀ g, g < 8 * nb → g * isz < n →
          ∀ i, g * isz ≤ i → i < min (g * isz + isz) n → a ≠ result + i) → m3 a = m2 a) := by
  apply launch_inv nb 8 _ scratch
    (fun G m =>
      (∀ g, g < G → g * isz < n →
        ∀ i, g * isz ≤ i → i < min (g * isz + isz) n →
          m (result + i)
            = (if i = g * isz then (if g = 0 then init else op init (m2 (carry + (g - 1))).1)
                else op (if g = 0 then init else op init (m2 (carry + (g - 1))).1)
                  (m2 (result + (i - 1))).1, true)) ∧
      (∀ a, (∀ g, g < G → g * isz < n →
          ∀ i, g * isz ≤ i → i < min (g * isz + isz) n → a ≠ result + i) → m a = m2 a))
  · rintro b w _ hw m sc ⟨hP1, hP2⟩
    obtain ⟨m', sc', hk, ha, hc⟩ := exclusive_update_spec op BLOCK_SIZE result init n isz carry
      b (32 * w) m sc (by decide) (by omega) (8 * b + w) ((8 * b + w) * isz)
      (min ((8 * b + w) * isz + isz) n) (by simp only [BLOCK_SIZE]; omega) rfl rfl
    refine ⟨m', sc', hk, ?_, ?_⟩
    · intro g hg hgn i hi1 hi2
      by_cases hgG : g = 8 * b + w
      · subst hgG
        rw [ha hgn i hi1 hi2]
        have hle : (8 * b + w - 1) * isz ≤ (8 * b + w) * isz :=
          Nat.mul_le_mul_right isz (by omega)
        rw [hP2 (carry + (8 * b + w - 1)) (fun g' _ _ i' _ hi' =>
            hco _ i' (by omega) (by omega))]
        by_cases hiB : i = (8 * b + w) * isz
        · simp only [hiB, if_true]
        · simp only [hiB, if_false]
          rw [hP2 (result + (i - 1)) (fun g' hg' _ i' hi1' hi2' => by
            have := interval_lt g' (8 * b + w) isz i' (i - 1) hg' (by omega) (by omega)
            omega)]
      · have hlt : g < 8 * b + w := by omega
        rw [hc (result + i) (fun _ i2 h1 _ => by
          have := interval_lt g (8 * b + w) isz i i2 hlt (by omega) h1
          omega)]
        exact hP1 g hlt hgn i hi1 hi2
    · intro a ha2
      rw [hc a (fun hn i hi1 hi2 => ha2 (8 * b + w) (by omega) hn i hi1 hi2)]
      exact hP2 a (fun g hg => ha2 g (by omega))
  · exact ⟨fun g hg => by omega, fun a _ => rfl⟩

/-! ## Sizes chosen by the entry points -/

theorem num_units_cover (n : Nat) : n ≤ 32 * num_units n := by
  unfold num_units divide_into WARP_SIZE
  omega

theorem num_warps_pos (n MB : Nat) (hn : 0 < n) (hMB : 0 < MB) : 0 < num_warps n MB := by
  unfold num_warps num_units divide_into WARPS_PER_BLOCK BLOCK_SIZE WARP_SIZE
  omega

theorem num_warps_cover (n MB : Nat) (hn : 0 < n) (hMB : 0 < MB) :
    n ≤ num_warps n MB * interval_size n MB := by
  have hnw := num_warps_pos n MB hn hMB
  have h1 := Nat.div_add_mod (num_units n + num_warps n MB - 1) (num_warps n MB)
  have h2 := Nat.mod_lt (num_units n + num_warps n MB - 1) hnw
  have h3 := num_units_cover n
  have e : num_warps n MB * interval_size n MB
      = 32 * (num_warps n MB * ((num_units n + num_warps n MB - 1) / num_warps n MB)) := by
    unfold interval_size num_iters divide_into WARP_SIZE
    ring
  rw [e]
  omega

theorem interval_size_pos (n MB : Nat) (hn : 0 < n) (hMB : 0 < MB) :
    0 < interval_size n MB := by
  have h := num_warps_cover n MB hn hMB
  rcases Nat.eq_zero_or_pos (interval_size n MB) with h0 | h0
  · rw [h0] at h; omega
  · exact h0

theorem num_warps_le_launched (n MB : Nat) : num_warps n MB ≤ 8 * num_blocks n MB := by
  unfold num_blocks divide_into WARPS_PER_BLOCK BLOCK_SIZE WARP_SIZE
  omega

theorem group_bounds (isz i : Nat) (hisz : 0 < isz) :
    i / isz * isz ≤ i ∧ i < i / isz * isz + isz := by
  have h1 := Nat.div_add_mod i isz
  have h2 := Nat.mod_lt i hisz
  have e : i / isz * isz = isz * (i / isz) := Nat.mul_comm _ _
  omega

theorem group_lt (n nw isz i : Nat) (hisz : 0 < isz) (hcov : n ≤ nw * isz) (hi : i < n) :
    i / isz < nw := by
  have h := (group_bounds isz i hisz).1
  by_contra hge
  have : nw * isz ≤ i / isz * isz := Nat.mul_le_mul_right isz (by omega)
  omega

theorem group_unique (g isz i : Nat) (h1 : g * isz ≤ i) (h2 : i < g * isz + isz) :
    i / isz = g := by
  have hisz : 0 < isz := by omega
  have e : g * isz + isz = (g + 1) * isz := by ring
  rw [e] at h2
  apply Nat.le_antisymm
  · exact Nat.lt_succ_iff.1 ((Nat.div_lt_iff_lt_mul hisz).2 h2)
  · exact (Nat.le_div_iff_mul_le hisz).2 h1

/-! ## The two entry points, stage by stage -/

/-- What the first two launches leave, in terms of the input only. -/
theorem stage12_spec (op : α → α → α) (MB first n result carry : Nat)
    (scratch1 scratch2 : Nat → Shared α) (mem : Mem α) (hn : 0 < n) (hMB : 0 < MB)
    (hwp : WellPlaced first n result carry (num_warps n MB)) :
    ∃ m1 m2,
      launch (num_blocks n MB) BLOCK_SIZE
        (kernel op BLOCK_SIZE first n result (interval_size n MB) carry) scratch1 mem
        = some m1 ∧
      second_level_scan op carry (num_warps n MB) scratch2 m1 = some m2 ∧
      (∀ i, i < n → m2 (result + i)
        = (localScan op (fun j => (mem (first + j)).1) (interval_size n MB) i, true)) ∧
      (∀ g, (g + 1) * interval_size n MB < n → m2 (carry + g)
        = (carryScan op (fun j => (mem (first + j)).1) (interval_size n MB) g, true)) ∧
      (∀ a, (a < result ∨ result + n ≤ a) → (a < carry ∨ carry + num_warps n MB ≤ a) →
        m2 a = mem a) := by
  have hisz := interval_size_pos n MB hn hMB
  have hcov := num_warps_cover n MB hn hMB
  have hnw := num_warps_pos n MB hn hMB
  have hlaunched := num_warps_le_launched n MB
  obtain ⟨hw1, hw2, hw3⟩ := hwp
  have hglt : ∀ g, g * interval_size n MB < n → g < num_warps n MB := by
    intro g hg
    by_contra hge
    have : num_warps n MB * interval_size n MB ≤ g * interval_size n MB :=
      Nat.mul_le_mul_right _ (by omega)
    omega
  have hio : ∀ i j, i < j → j < n → result + i ≠ first + j := by
    intro i j h1 h2; omega
  have hci : ∀ g j, g * interval_size n MB < n → j < n → carry + g ≠ first + j := by
    intro g j h1 h2
    have := hglt g h1
    omega
  have hco : ∀ g i, g * interval_size n MB < n → i < n → carry + g ≠ result + i := by
    intro g i h1 h2
    have := hglt g h1
    omega
  obtain ⟨m1, hl1, hS⟩ := stage1_spec op first n result (interval_size n MB) carry
    (num_blocks n MB) scratch1 mem hisz hio hci hco
  obtain ⟨m2, hl2, hc2, hf2⟩ := second_level_scan_spec op carry (num_warps n MB) hnw scratch2 m1
  refine ⟨m1, m2, hl1, hl2, ?_, ?_, ?_⟩
  · intro i hi
    obtain ⟨hb1, hb2⟩ := group_bounds (interval_size n MB) i hisz
    have hg := group_lt n (num_warps n MB) (interval_size n MB) i hisz hcov hi
    rw [hf2 (result + i) (fun j hj => by omega)]
    exact hS.hres (i / interval_size n MB) (by omega) i hb1 (by omega)
  · intro g hg
    have e : (g + 1) * interval_size n MB = g * interval_size n MB + interval_size n MB := by
      ring
    have hgn : g * interval_size n MB < n := by omega
    have hgw := hglt g hgn
    rw [hc2 g hgw]
    congr 1
    apply chunkScan_congr op _ _ _ _ _ (Nat.mod_lt _ (by omega))
    intro j _ hj
    have hjg : j ≤ g := by omega
    have hle : j * interval_size n MB ≤ g * interval_size n MB :=
      Nat.mul_le_mul_right _ hjg
    have hjn : j * interval_size n MB < n := by omega
    show (m1 (carry + j)).1 = intervalTotal op _ _ j
    rw [hS.hcarry j (by have := hglt j hjn; omega) hjn]
    have hle2 : (j + 1) * interval_size n MB ≤ (g + 1) * interval_size n MB :=
      Nat.mul_le_mul_right _ (by omega)
    have e2 : (j + 1) * interval_size n MB = j * interval_size n MB + interval_size n MB := by
      ring
    have e3 : min (j * interval_size n MB + interval_size n MB) n - 1 - j * interval_size n MB
        = interval_size n MB - 1 := by omega
    rw [e3]
    rfl
  · intro a ha1 ha2
    rw [hf2 a (fun j hj => by omega)]
    apply hS.hframe
    · intro g _ i _ hi2; omega
    · intro g _ hgn
      have := hglt g hgn
      omega

/-- The inclusive scan returns the end of the output range; every output position holds
`inclusive_value` of the input and is marked as stored to; no cell outside the output range
and the carry buffer is stored to.  No assumption on `op`. -/
theorem inclusive_scan_core (op : α → α → α) (MB first n result carry : Nat)
    (scratch1 scratch2 : Nat → Shared α) (mem : Mem α) (hn : 0 < n) (hMB : 0 < MB)
    (hwp : WellPlaced first n result carry (num_warps n MB)) :
    ∃ m3, inclusive_scan op MB first (first + n) result carry scratch1 scratch2 mem
        = some (result + n, m3) ∧
      (∀ i, i < n → m3 (result + i)
        = (inclusive_value op (fun j => (mem (first + j)).1) (interval_size n MB) i, true)) ∧
      (∀ a, (a < result ∨ result + n ≤ a) → (a < carry ∨ carry + num_warps n MB ≤ a) →
        m3 a = mem a) := by
  obtain ⟨m1, m2, hl1, hl2, hloc, hcar, hfr⟩ :=
    stage12_spec op MB first n result carry scratch1 scratch2 mem hn hMB hwp
  have hisz := interval_size_pos n MB hn hMB
  have hcov := num_warps_cover n MB hn hMB
  have hlaunched := num_warps_le_launched n MB
  obtain ⟨_, _, hw3⟩ := hwp
  have hco : ∀ g i, g * interval_size n MB < n → i < n → carry + g ≠ result + i := by
    intro g i h1 h2
    have : g < num_warps n MB := by
      by_contra hge
      have : num_warps n MB * interval_size n MB ≤ g * interval_size n MB :=
        Nat.mul_le_mul_right _ (by omega)
      omega
    omega
  obtain ⟨m3, hl3, hup, hf3⟩ := inclusive_update_launch_spec op result n (interval_size n MB)
    carry (num_blocks n MB) m2 hco
  refine ⟨m3, ?_, ?_, ?_⟩
  · have e : first + n - first = n := by omega
    have hn0 : ¬ (n = 0) := by omega
    simp only [inclusive_scan, e, hn0, if_false, hl1, hl2, hl3, Option.some_bind]
  · intro i hi
    obtain ⟨hb1, hb2⟩ := group_bounds (interval_size n MB) i hisz
    have hg := group_lt n (num_warps n MB) (interval_size n MB) i hisz hcov hi
    unfold inclusive_value
    by_cases hg0 : i / interval_size n MB = 0
    · simp only [hg0, if_true]
      rw [hf3 (result + i) (fun g _ hgz _ i' hi1 _ => by
        have : 1 * interval_size n MB ≤ g * interval_size n MB :=
          Nat.mul_le_mul_right _ (Nat.pos_of_ne_zero (fun h => hgz (by rw [h]; simp)))
        rw [hg0] at hb2
        omega)]
      exact hloc i hi
    · simp only [hg0, if_false]
      have hpos : 1 * interval_size n MB ≤ i / interval_size n MB * interval_size n MB :=
        Nat.mul_le_mul_right _ (Nat.pos_of_ne_zero hg0)
      rw [hup (i / interval_size n MB) (by omega) (by omega) (by omega) i hb1 (by omega),
        hloc i hi, hcar (i / interval_size n MB - 1) (by
          have : i / interval_size n MB - 1 + 1 = i / interval_size n MB :=
            Nat.sub_add_cancel (Nat.pos_of_ne_zero hg0)
          rw [this]; omega)]
  · intro a ha1 ha2
    rw [hf3 a (fun g _ _ _ i _ hi2 => by omega)]
    exact hfr a ha1 ha2

/-- The exclusive scan returns the end of the output range; every output position holds
`exclusive_value` of the seed and the input and is marked as stored to; no cell outside the
output range and the carry buffer is stored to.  No assumption on `op`. -/
theorem exclusive_scan_core (op : α → α → α) (MB first n result : Nat) (init : α)
    (carry : Nat) (scratch1 scratch2 scratch3 : Nat → Shared α) (mem : Mem α) (hn : 0 < n)
    (hMB : 0 < MB) (hwp : WellPlaced first n result carry (num_warps n MB)) :
    ∃ m3, exclusive_scan op MB first (first + n) result init carry scratch1 scratch2 scratch3
        mem = some (result + n, m3) ∧
      (∀ i, i < n → m3 (result + i)
        = (exclusive_value op init (fun j => (mem (first + j)).1) (interval_size n MB) i,
            true)) ∧
      (∀ a, (a < result ∨ result + n ≤ a) → (a < carry ∨ carry + num_warps n MB ≤ a) →
        m3 a = mem a) := by
  obtain ⟨m1, m2, hl1, hl2, hloc, hcar, hfr⟩ :=
    stage12_spec op MB first n result carry scratch1 scratch2 mem hn hMB hwp
  have hisz := interval_size_pos n MB hn hMB
  have hcov := num_warps_cover n MB hn hMB
  have hlaunched := num_warps_le_launched n MB
  obtain ⟨_, _, hw3⟩ := hwp
  have hco : ∀ g i, g * interval_size n MB < n → i < n → carry + g ≠ result + i := by
    intro g i h1 h2
    have : g < num_warps n MB := by
      by_contra hge
      have : num_warps n MB * interval_size n MB ≤ g * interval_size n MB :=
        Nat.mul_le_mul_right _ (by omega)
      omega
    omega
  obtain ⟨m3, hl3, hup, hf3⟩ := exclusive_update_launch_spec op result init n
    (interval_size n MB) carry (num_blocks n MB) scratch3 m2 hco
  refine ⟨m3, ?_, ?_, ?_⟩
  · have e : first + n - first = n := by omega
    have hn0 : ¬ (n = 0) := by omega
    simp only [exclusive_scan, e, hn0, if_false, hl1, hl2, hl3, Option.some_bind]
  · intro i hi
    obtain ⟨hb1, hb2⟩ := group_bounds (interval_size n MB) i hisz
    have hg := group_lt n (num_warps n MB) (interval_size n MB) i hisz hcov hi
    rw [hup (i / interval_size n MB) (by omega) (by omega) i hb1 (by omega)]
    have hC : (if i / interval_size n MB = 0 then init
          else op init (m2 (carry + (i / interval_size n MB - 1))).1)
        = exclusive_carry op init (fun j => (mem (first + j)).1) (interval_size n MB) i := by
      unfold exclusive_carry
      by_cases hg0 : i / interval_size n MB = 0
      · simp only [hg0, if_true]
      · simp only [hg0, if_false]
        have hpos : 1 * interval_size n MB ≤ i / interval_size n MB * interval_size n MB :=
          Nat.mul_le_mul_right _ (Nat.pos_of_ne_zero hg0)
        rw [hcar (i / interval_size n MB - 1) (by
          have : i / interval_size n MB - 1 + 1 = i / interval_size n MB :=
            Nat.sub_add_cancel (Nat.pos_of_ne_zero hg0)
          rw [this]; omega)]
    rw [hC]
    unfold exclusive_value
    by_cases hiB : i = i / interval_size n MB * interval_size n MB
    · simp only [← hiB, if_true]
    · simp only [hiB, if_false]
      rw [hloc (i - 1) (by omega)]
  · intro a ha1 ha2
    rw [hf3 a (fun g _ _ i _ hi2 => by omega)]
    exact hfr a ha1 ha2

/-! ## The values under associativity -/

theorem localScan_eq_lfold (op : α → α → α) (hop : ∀ a b c, op (op a b) c = op a (op b c))
    (inp : Nat → α) (isz i : Nat) :
    localScan op inp isz i = lfold op inp (i / isz * isz) (i - i / isz * isz) :=
  chunkScan_pos op hop inp _ i

theorem intervalTotal_eq_lfold (op : α → α → α)
    (hop : ∀ a b c, op (op a b) c = op a (op b c)) (inp : Nat → α) (isz j : Nat) :
    intervalTotal op inp isz j = lfold op inp (j * isz) (isz - 1) := by
  unfold intervalTotal
  rw [chunkScan_eq_lfold op hop inp _ _ _ (Nat.mod_lt _ (by omega))]
  congr 1
  omega

/-- Folding the folds of consecutive blocks of length `isz` folds the whole. -/
theorem lfold_blocks (op : α → α → α) (hop : ∀ a b c, op (op a b) c = op a (op b c))
    (f : Nat → α) (isz : Nat) (hisz : 0 < isz) (k : Nat) :
    lfold op (fun j => lfold op f (j * isz) (isz - 1)) 0 k
      = lfold op f 0 ((k + 1) * isz - 1) := by
  induction k with
  | zero => simp [lfold]
  | succ k ih =>
    show op (lfold op (fun j => lfold op f (j * isz) (isz - 1)) 0 k)
      (lfold op f ((0 + k + 1) * isz) (isz - 1)) = _
    rw [ih]
    have h1 : 1 * isz ≤ (k + 1) * isz := Nat.mul_le_mul_right _ (by omega)
    have e1 : (0 + k + 1) * isz = 0 + ((k + 1) * isz - 1) + 1 := by
      have : 0 + k + 1 = k + 1 := by omega
      rw [this]; omega
    have e2 : (k + 1 + 1) * isz = (k + 1) * isz + isz := by ring
    have e3 : (k + 1 + 1) * isz - 1 = (k + 1) * isz - 1 + (isz - 1) + 1 := by omega
    rw [e1, lfold_append op hop, e3]

theorem carryScan_eq_lfold (op : α → α → α) (hop : ∀ a b c, op (op a b) c = op a (op b c))
    (inp : Nat → α) (isz : Nat) (hisz : 0 < isz) (j : Nat) :
    carryScan op inp isz j = lfold op inp 0 ((j + 1) * isz - 1) := by
  unfold carryScan
  rw [chunkScan_eq_lfold op hop _ _ _ _ (Nat.mod_lt _ (by omega))]
  have e : 32 * (j / 32) + j % 32 = j := by omega
  rw [e, ← lfold_blocks op hop inp isz hisz j]
  apply lfold_congr
  intro k _ _
  exact intervalTotal_eq_lfold op hop inp isz k

theorem inclusive_value_eq_lfold (op : α → α → α)
    (hop : ∀ a b c, op (op a b) c = op a (op b c)) (inp : Nat → α) (isz : Nat)
    (hisz : 0 < isz) (i : Nat) : inclusive_value op inp isz i = lfold op inp 0 i := by
  obtain ⟨hb1, hb2⟩ := group_bounds isz i hisz
  unfold inclusive_value
  rw [localScan_eq_lfold op hop]
  by_cases hg0 : i / isz = 0
  · simp [hg0]
  · simp only [hg0, if_false]
    have hpos : 1 * isz ≤ i / isz * isz := Nat.mul_le_mul_right _ (Nat.pos_of_ne_zero hg0)
    rw [carryScan_eq_lfold op hop inp isz hisz]
    have e1 : (i / isz - 1 + 1) * isz = i / isz * isz := by
      have : i / isz - 1 + 1 = i / isz :=
            Nat.sub_add_cancel (Nat.pos_of_ne_zero hg0)
      rw [this]
    have e2 : i / isz * isz = 0 + (i / isz * isz - 1) + 1 := by omega
    have e3 : i / isz * isz - 1 + (i - i / isz * isz) + 1 = i := by omega
    rw [e1]
    nth_rewrite 2 [e2]
    rw [lfold_append op hop, e3]

theorem exclusive_value_eq_lfold (op : α → α → α)
    (hop : ∀ a b c, op (op a b) c = op a (op b c)) (init : α) (inp : Nat → α) (isz : Nat)
    (hisz : 0 < isz) (i : Nat) :
    exclusive_value op init inp isz i
      = if i = 0 then init else op init (lfold op inp 0 (i - 1)) := by
  obtain ⟨hb1, hb2⟩ := group_bounds isz i hisz
  unfold exclusive_value exclusive_carry
  by_cases hiB : i = i / isz * isz
  · rw [if_pos hiB]
    by_cases hg0 : i / isz = 0
    · have : i = 0 := by rw [hiB, hg0]; simp
      simp [hg0, this]
    · have hpos : 1 * isz ≤ i / isz * isz := Nat.mul_le_mul_right _ (Nat.pos_of_ne_zero hg0)
      have hi0 : ¬ (i = 0) := by omega
      simp only [hg0, hi0, if_false]
      rw [carryScan_eq_lfold op hop inp isz hisz]
      have e1 : (i / isz - 1 + 1) * isz = i / isz * isz := by
        have : i / isz - 1 + 1 = i / isz :=
            Nat.sub_add_cancel (Nat.pos_of_ne_zero hg0)
        rw [this]
      rw [e1, ← hiB]
  · rw [if_neg hiB]
    have hi0 : ¬ (i = 0) := by
      intro h
      apply hiB
      rw [h]; simp
    have hgi : (i - 1) / isz = i / isz := group_unique (i / isz) isz (i - 1) (by omega) (by omega)
    simp only [hi0, if_false]
    rw [localScan_eq_lfold op hop, hgi]
    by_cases hg0 : i / isz = 0
    · simp [hg0]
    · have hpos : 1 * isz ≤ i / isz * isz := Nat.mul_le_mul_right _ (Nat.pos_of_ne_zero hg0)
      simp only [hg0, if_false]
      rw [carryScan_eq_lfold op hop inp isz hisz, hop]
      have e1 : (i / isz - 1 + 1) * isz = i / isz * isz := by
        have : i / isz - 1 + 1 = i / isz :=
            Nat.sub_add_cancel (Nat.pos_of_ne_zero hg0)
        rw [this]
      have e2 : i / isz * isz = 0 + (i / isz * isz - 1) + 1 := by omega
      have e3 : i / isz * isz - 1 + (i - 1 - i / isz * isz) + 1 = i - 1 := by omega
      rw [e1]
      nth_rewrite 2 [e2]
      rw [lfold_append op hop, e3]

/-! ## The statements about the scan -/

/-- In the unbounded-integer model, for every length `n`, every `MAX_BLOCKS ≥ 1` and every associative `op` (not assumed
commutative), `inclusive_scan` under the lock-step warp model returns and leaves in
`output[i]` the strictly left-to-right fold `op(...op(input[0], input[1])..., input[i])`, for
every `i < n`; the output range may be the input range or disjoint from it. -/
theorem inclusive_scan_fold (op : α → α → α) (hop : ∀ a b c, op (op a b) c = op a (op b c))
    (MB first n result carry : Nat) (scratch1 scratch2 : Nat → Shared α) (mem : Mem α)
    (hMB : 1 ≤ MB) (hwp : WellPlaced first n result carry (num_warps n MB)) :
    ∃ r, inclusive_scan op MB first (first + n) result carry scratch1 scratch2 mem = some r ∧
      ∀ i, i < n → (r.2 (result + i)).1 = lfold op (fun j => (mem (first + j)).1) 0 i := by
  rcases Nat.eq_zero_or_pos n with hn | hn
  · subst hn
    exact ⟨(result, mem), by simp [inclusive_scan], fun i hi => by omega⟩
  · obtain ⟨m3, h1, h2, _⟩ :=
      inclusive_scan_core op MB first n result carry scratch1 scratch2 mem hn hMB hwp
    refine ⟨_, h1, fun i hi => ?_⟩
    show (m3 (result + i)).1 = _
    rw [h2 i hi]
    exact inclusive_value_eq_lfold op hop _ _ (interval_size_pos n MB hn hMB) i

/-- In the unbounded-integer model, for every length `n ≥ 1`, every `MAX_BLOCKS ≥ 1`, every `init` and every associative
`op` (not assumed commutative), `exclusive_scan` returns and leaves `output[0] = init` and
`output[i] = op(output[i-1], input[i-1])` for every `0 < i < n`, where `input` is the input
as it was before the call. -/
theorem exclusive_scan_recurrence (op : α → α → α)
    (hop : ∀ a b c, op (op a b) c = op a (op b c)) (MB first n result : Nat) (init : α)
    (carry : Nat) (scratch1 scratch2 scratch3 : Nat → Shared α) (mem : Mem α)
    (hn : 1 ≤ n) (hMB : 1 ≤ MB) (hwp : WellPlaced first n result carry (num_warps n MB)) :
    ∃ r, exclusive_scan op MB first (first + n) result init carry scratch1 scratch2 scratch3
        mem = some r ∧
      (r.2 result).1 = init ∧
      ∀ i, 0 < i → i < n →
        (r.2 (result + i)).1 = op (r.2 (result + (i - 1))).1 (mem (first + (i - 1))).1 := by
  obtain ⟨m3, h1, h2, _⟩ := exclusive_scan_core op MB first n result init carry scratch1
    scratch2 scratch3 mem hn hMB hwp
  have hv := exclusive_value_eq_lfold op hop init (fun j => (mem (first + j)).1) _
    (interval_size_pos n MB hn hMB)
  refine ⟨_, h1, ?_, fun i hi0 hi => ?_⟩
  · show (m3 result).1 = init
    have := h2 0 hn
    rw [Nat.add_zero] at this
    rw [this, hv 0]
    simp
  · show (m3 (result + i)).1 = op (m3 (result + (i - 1))).1 _
    rw [h2 i hi, h2 (i - 1) (by omega), hv i, hv (i - 1)]
    have hi0' : ¬ (i = 0) := by omega
    simp only [hi0', if_false]
    by_cases hi1 : i - 1 = 0
    · simp only [hi1, if_true, lfold]
    · obtain ⟨k, rfl⟩ : ∃ k, i = k + 2 := ⟨i - 2, by omega⟩
      have e1 : k + 2 - 1 = k + 1 := by omega
      have e2 : k + 1 - 1 = k := by omega
      simp only [e1, e2, if_false, Nat.succ_ne_zero]
      rw [hop]
      simp [lfold]

theorem exclusive_value_zero (op : α → α → α) (init : α) (inp : Nat → α) (isz : Nat) :
    exclusive_value op init inp isz 0 = init := by
  unfold exclusive_value exclusive_carry
  simp

/-- In the unbounded-integer model, for every `n`, every `MAX_BLOCKS ≥ 1`, every `op` and `init`, the run of
`inclusive_scan` (resp. `exclusive_scan`) whose output range is its input range leaves in the
positions `[0, n)` exactly the cells that the run on the same memory with a separate output
range leaves in its output.  Associativity of `op` is not needed. -/
theorem scan_in_place_eq_out_of_place (op : α → α → α) (MB first n result : Nat) (init : α)
    (carryI carryO : Nat) (s1 s2 s3 t1 t2 t3 : Nat → Shared α) (mem : Mem α) (hMB : 1 ≤ MB)
    (hsep : result + n ≤ first ∨ first + n ≤ result)
    (hI : WellPlaced first n first carryI (num_warps n MB))
    (hO : WellPlaced first n result carryO (num_warps n MB)) :
    (∃ ri ro,
      inclusive_scan op MB first (first + n) first carryI s1 s2 mem = some ri ∧
      inclusive_scan op MB first (first + n) result carryO t1 t2 mem = some ro ∧
      ∀ i, i < n → ri.2 (first + i) = ro.2 (result + i)) ∧
    (∃ ri ro,
      exclusive_scan op MB first (first + n) first init carryI s1 s2 s3 mem = some ri ∧
      exclusive_scan op MB first (first + n) result init carryO t1 t2 t3 mem = some ro ∧
      ∀ i, i < n → ri.2 (first + i) = ro.2 (result + i)) := by
  rcases Nat.eq_zero_or_pos n with hn | hn
  · subst hn
    exact ⟨⟨(first, mem), (result, mem), by simp [inclusive_scan], by simp [inclusive_scan],
        fun i hi => by omega⟩,
      ⟨(first, mem), (result, mem), by simp [exclusive_scan], by simp [exclusive_scan],
        fun i hi => by omega⟩⟩
  · obtain ⟨a3, ha1, ha2, _⟩ :=
      inclusive_scan_core op MB first n first carryI s1 s2 mem hn hMB hI
    obtain ⟨b3, hb1, hb2, _⟩ :=
      inclusive_scan_core op MB first n result carryO t1 t2 mem hn hMB hO
    obtain ⟨c3, hc1, hc2, _⟩ :=
      exclusive_scan_core op MB first n first init carryI s1 s2 s3 mem hn hMB hI
    obtain ⟨d3, hd1, hd2, _⟩ :=
      exclusive_scan_core op MB first n result init carryO t1 t2 t3 mem hn hMB hO
    refine ⟨⟨_, _, ha1, hb1, fun i hi => ?_⟩, ⟨_, _, hc1, hd1, fun i hi => ?_⟩⟩
    · show a3 (first + i) = b3 (result + i)
      rw [ha2 i hi, hb2 i hi]
    · show c3 (first + i) = d3 (result + i)
      rw [hc2 i hi, hd2 i hi]

/-- In the unbounded-integer model, for every `n ≥ 1` and `MAX_BLOCKS ≥ 1`, `inclusive_scan` and `exclusive_scan` return
the output start advanced by `n`; every output position in `[0, n)` has been stored to; and
no cell outside the output range and the carry buffer is stored to by any stage: such a cell,
in particular an output element of index `≥ n`, keeps its value and its mark. -/
theorem scan_frame (op : α → α → α) (MB first n result : Nat) (init : α) (carry : Nat)
    (s1 s2 s3 : Nat → Shared α) (mem : Mem α) (hn : 1 ≤ n) (hMB : 1 ≤ MB)
    (hwp : WellPlaced first n result carry (num_warps n MB)) :
    (∃ m, inclusive_scan op MB first (first + n) result carry s1 s2 mem
        = some (result + n, m) ∧
      (∀ i, i < n → (m (result + i)).2 = true) ∧
      (∀ a, (a < result ∨ result + n ≤ a) → (a < carry ∨ carry + num_warps n MB ≤ a) →
        m a = mem a)) ∧
    (∃ m, exclusive_scan op MB first (first + n) result init carry s1 s2 s3 mem
        = some (result + n, m) ∧
      (∀ i, i < n → (m (result + i)).2 = true) ∧
      (∀ a, (a < result ∨ result + n ≤ a) → (a < carry ∨ carry + num_warps n MB ≤ a) →
        m a = mem a)) := by
  obtain ⟨a3, ha1, ha2, ha3⟩ :=
    inclusive_scan_core op MB first n result carry s1 s2 mem hn hMB hwp
  obtain ⟨c3, hc1, hc2, hc3⟩ :=
    exclusive_scan_core op MB first n result init carry s1 s2 s3 mem hn hMB hwp
  refine ⟨⟨a3, ha1, fun i hi => ?_, ha3⟩, ⟨c3, hc1, fun i hi => ?_, hc3⟩⟩
  · rw [ha2 i hi]
  · rw [hc2 i hi]

/-- C5: when `n == 0` (`first == last`), `inclusive_scan` and `exclusive_scan` run no stage:
they return the given output start and leave the whole memory, values and marks, as it
was. -/
theorem scan_empty (op : α → α → α) (MB first result : Nat) (init : α) (carry : Nat)
    (s1 s2 s3 : Nat → Shared α) (mem : Mem α) :
    inclusive_scan op MB first first result carry s1 s2 mem = some (result, mem) ∧
    exclusive_scan op MB first first result init carry s1 s2 s3 mem = some (result, mem) := by
  simp [inclusive_scan, exclusive_scan]

/-- In the unbounded-integer model, for every `n ≥ 1`, `MAX_BLOCKS ≥ 1`, `init` and associative `op`, the exclusive
result is the inclusive result shifted by one position and seeded with `init`:
`exclusive[0] = init` and `exclusive[i] = op(init, inclusive[i-1])` for `1 ≤ i < n`. -/
theorem exclusive_eq_shifted_inclusive (op : α → α → α)
    (hop : ∀ a b c, op (op a b) c = op a (op b c)) (MB first n result : Nat) (init : α)
    (carry : Nat) (s1 s2 s3 : Nat → Shared α) (mem : Mem α) (hn : 1 ≤ n) (hMB : 1 ≤ MB)
    (hwp : WellPlaced first n result carry (num_warps n MB)) :
    ∃ ri rx,
      inclusive_scan op MB first (first + n) result carry s1 s2 mem = some ri ∧
      exclusive_scan op MB first (first + n) result init carry s1 s2 s3 mem = some rx ∧
      (rx.2 result).1 = init ∧
      ∀ i, 1 ≤ i → i < n → (rx.2 (result + i)).1 = op init (ri.2 (result + (i - 1))).1 := by
  obtain ⟨a3, ha1, ha2, _⟩ :=
    inclusive_scan_core op MB first n result carry s1 s2 mem hn hMB hwp
  obtain ⟨c3, hc1, hc2, _⟩ :=
    exclusive_scan_core op MB first n result init carry s1 s2 s3 mem hn hMB hwp
  have hisz := interval_size_pos n MB hn hMB
  refine ⟨_, _, ha1, hc1, ?_, fun i hi1 hi => ?_⟩
  · show (c3 result).1 = init
    have := hc2 0 hn
    rw [Nat.add_zero] at this
    rw [this, exclusive_value_zero]
  · show (c3 (result + i)).1 = op init (a3 (result + (i - 1))).1
    rw [hc2 i hi, ha2 (i - 1) (by omega), exclusive_value_eq_lfold op hop _ _ _ hisz,
      inclusive_value_eq_lfold op hop _ _ hisz]
    have : ¬ (i = 0) := by omega
    simp only [this, if_false]

/-- C9: `scan_warp` run in lock-step by the lanes `0..k-1` of a warp (`1 ≤ k ≤ 32`): every
lane `l < k` ends with the value the five shifted-combine steps with offsets 1, 2, 4, 8, 16
give it; for an associative `op` this is the left-to-right fold of the initial values of the
lanes `0..l`; and the scratch slot of lane `l` holds the value returned in `val`. -/
theorem scan_warp_fold (op : α → α → α) (hop : ∀ a b c, op (op a b) c = op a (op b c))
    (tb k : Nat) (act : Nat → Bool) (val : Nat → α) (sdata : Shared α)
    (htb : tb % 32 = 0) (hk1 : 1 ≤ k) (hk : k ≤ 32)
    (hact : ∀ l, l < 32 → (act l = true ↔ l < k)) :
    ∀ l, l < k →
      (scan_warp op tb act val sdata).1 l = ks5 op val l ∧
      (scan_warp op tb act val sdata).1 l = lfold op val 0 l ∧
      (scan_warp op tb act val sdata).2 (tb + l) = (scan_warp op tb act val sdata).1 l := by
  obtain ⟨h1, h2, _⟩ := scan_warp_spec op tb k act htb hk hact val sdata
  intro l hl
  refine ⟨h1 l hl, ?_, h2 l hl⟩
  rw [h1 l hl]
  exact ks5_eq_lfold op hop val l (by omega)

theorem scan_warp_fold_witness :
    (∀ a b c : Nat, a + b + c = a + (b + c)) ∧ 64 % 32 = 0 ∧ 1 ≤ 20 ∧ 20 ≤ 32 ∧
    (∀ l, l < 32 → ((fun l => decide (l < 20)) l = true ↔ l < 20)) ∧
    ∀ l, l < 20 →
      (scan_warp (fun a b : Nat => a + b) 64 (fun l => decide (l < 20)) (fun l => l + 1)
          (fun _ => 0)).1 l = ks5 (fun a b : Nat => a + b) (fun l => l + 1) l ∧
      (scan_warp (fun a b : Nat => a + b) 64 (fun l => decide (l < 20)) (fun l => l + 1)
          (fun _ => 0)).1 l = lfold (fun a b : Nat => a + b) (fun l => l + 1) 0 l ∧
      (scan_warp (fun a b : Nat => a + b) 64 (fun l => decide (l < 20)) (fun l => l + 1)
          (fun _ => 0)).2 (64 + l)
        = (scan_warp (fun a b : Nat => a + b) 64 (fun l => decide (l < 20)) (fun l => l + 1)
          (fun _ => 0)).1 l :=
  ⟨Nat.add_assoc, by decide, by decide, by decide, fun l _ => by simp,
    scan_warp_fold (fun a b : Nat => a + b) Nat.add_assoc 64 20 (fun l => decide (l < 20))
      (fun l => l + 1) (fun _ => 0) (by decide) (by decide) (by decide) (fun l _ => by simp)⟩

/-- In the unbounded-integer model, for every `n ≥ 1` and `MAX_BLOCKS ≥ 1`, a group `g` (the warp
of any thread) with `(g+1) * intervalSize ≤ n` has an interval of length exactly
`numIters * 32`; a group
with `g * intervalSize < n < (g+1) * intervalSize` has the shorter interval
`[g * intervalSize, n)`, and there is at most one such group; a group with
`n ≤ g * intervalSize` has an empty interval. -/
theorem interval_lengths (n MB : Nat) (hn : 1 ≤ n) (hMB : 1 ≤ MB) (bid tid : Nat) :
    ((warp_id BLOCK_SIZE bid tid + 1) * interval_size n MB ≤ n →
      interval_length BLOCK_SIZE bid tid (interval_size n MB) n = num_iters n MB * 32) ∧
    (warp_id BLOCK_SIZE bid tid * interval_size n MB < n →
      n < (warp_id BLOCK_SIZE bid tid + 1) * interval_size n MB →
      interval_length BLOCK_SIZE bid tid (interval_size n MB) n
          = n - warp_id BLOCK_SIZE bid tid * interval_size n MB ∧
        interval_length BLOCK_SIZE bid tid (interval_size n MB) n < num_iters n MB * 32 ∧
        warp_id BLOCK_SIZE bid tid = (n - 1) / interval_size n MB) ∧
    (n ≤ warp_id BLOCK_SIZE bid tid * interval_size n MB →
      interval_length BLOCK_SIZE bid tid (interval_size n MB) n = 0) := by
  have hisz := interval_size_pos n MB hn hMB
  have e : (warp_id BLOCK_SIZE bid tid + 1) * interval_size n MB
      = warp_id BLOCK_SIZE bid tid * interval_size n MB + interval_size n MB := by ring
  have e2 : num_iters n MB * 32 = interval_size n MB := by
    unfold interval_size WARP_SIZE; ring
  unfold interval_length interval_end interval_begin
  rw [e, e2]
  refine ⟨fun h => by omega, fun h1 h2 => ⟨by omega, by omega, ?_⟩, fun h => by omega⟩
  exact (group_unique _ (interval_size n MB) (n - 1) (by omega) (by omega)).symm

/-- C15 fails as stated: for `n = 257` and `MAX_BLOCKS = 1` there are 8 groups with intervals
of 64 positions; the warp of thread 128 of block 0 is group 4, which is not the last group
(group 7), and its interval `[256, 257)` has length 1, not 64 (the groups 5, 6 and 7 are
empty). -/
theorem interval_lengths_counterexample :
    num_warps 257 1 = 8 ∧ num_iters 257 1 * 32 = 64 ∧ warp_id BLOCK_SIZE 0 128 = 4 ∧
    warp_id BLOCK_SIZE 0 128 < num_warps 257 1 ∧
    warp_id BLOCK_SIZE 0 128 ≠ num_warps 257 1 - 1 ∧
    interval_begin BLOCK_SIZE 0 128 (interval_size 257 1) = 256 ∧
    interval_end BLOCK_SIZE 0 128 (interval_size 257 1) 257 = 257 ∧
    interval_length BLOCK_SIZE 0 128 (interval_size 257 1) 257 ≠ num_iters 257 1 * 32 := by
  decide

/-- In the unbounded-integer model, for every `n ≥ 1` and `MAX_BLOCKS ≥ 1`, after the first two
launches a carry slot `j < numGroups` has been stored to by stage 1 when
`j * intervalSize < n` and is as the allocator left it when `n ≤ j * intervalSize`; every
slot an update kernel reads, `carry_in[g-1]` for a group `g ≥ 1` with `g * intervalSize < n`,
is of the first kind, and the value stage 2 leaves in it is determined by the input alone. -/
theorem carry_slots_written (op : α → α → α) (MB first n result carry : Nat)
    (scratch1 scratch2 : Nat → Shared α) (mem : Mem α) (hn : 1 ≤ n) (hMB : 1 ≤ MB)
    (hwp : WellPlaced first n result carry (num_warps n MB)) :
    ∃ m1 m2,
      launch (num_blocks n MB) BLOCK_SIZE
        (kernel op BLOCK_SIZE first n result (interval_size n MB) carry) scratch1 mem
        = some m1 ∧
      second_level_scan op carry (num_warps n MB) scratch2 m1 = some m2 ∧
      (∀ j, j < num_warps n MB → j * interval_size n MB < n → (m1 (carry + j)).2 = true) ∧
      (∀ j, j < num_warps n MB → n ≤ j * interval_size n MB →
        m1 (carry + j) = mem (carry + j)) ∧
      (∀ g, 1 ≤ g → g * interval_size n MB < n →
        g - 1 < num_warps n MB ∧ (g - 1) * interval_size n MB < n ∧
        m2 (carry + (g - 1))
          = (carryScan op (fun j => (mem (first + j)).1) (interval_size n MB) (g - 1),
              true)) := by
  obtain ⟨m1, m2, hl1, hl2, _, hcar, _⟩ :=
    stage12_spec op MB first n result carry scratch1 scratch2 mem hn hMB hwp
  have hisz := interval_size_pos n MB hn hMB
  have hcov := num_warps_cover n MB hn hMB
  have hlaunched := num_warps_le_launched n MB
  obtain ⟨hw1, hw2, hw3⟩ := hwp
  have hglt : ∀ g, g * interval_size n MB < n → g < num_warps n MB := by
    intro g hg
    by_contra hge
    have : num_warps n MB * interval_size n MB ≤ g * interval_size n MB :=
      Nat.mul_le_mul_right _ (by omega)
    omega
  obtain ⟨m1', hl1', hS⟩ := stage1_spec op first n result (interval_size n MB) carry
    (num_blocks n MB) scratch1 mem hisz (fun i j h1 h2 => by omega)
    (fun g j h1 h2 => by have := hglt g h1; omega)
    (fun g i h1 h2 => by have := hglt g h1; omega)
  have hm : m1' = m1 := by
    rw [hl1] at hl1'
    exact (Option.some.inj hl1').symm
  subst hm
  refine ⟨m1', m2, hl1, hl2, ?_, ?_, ?_⟩
  · intro j hj hjn
    rw [hS.hcarry j (by omega) hjn]
  · intro j hj hjn
    apply hS.hframe
    · intro g _ i _ hi2; omega
    · intro g _ hgn heq
      have : j = g := by omega
      subst this
      omega
  · intro g hg1 hgn
    have hle : (g - 1) * interval_size n MB ≤ g * interval_size n MB :=
      Nat.mul_le_mul_right _ (by omega)
    have e : g - 1 + 1 = g := by omega
    refine ⟨hglt _ (by omega), by omega, hcar (g - 1) (by rw [e]; exact hgn)⟩

/-- What the first two launches leave in the carry slots, for addition on `Nat`: stage 1
leaves the slot of a group with an empty interval as it was and stores the sum of the interval
in the slot of every other group with index below `8 * nb`; stage 2 then leaves in slot `j`
the sum of the slots `0..j`. -/
theorem unwritten_slot_scanned (first n result isz carry nb nw j : Nat)
    (scratch1 scratch2 : Nat → Shared Nat) (mem : Mem Nat) (hisz : 0 < isz)
    (hio : ∀ i j, i < j → j < n → result + i ≠ first + j)
    (hci : ∀ g j, g * isz < n → j < n → carry + g ≠ first + j)
    (hco : ∀ g i, g * isz < n → i < n → carry + g ≠ result + i)
    (hj : j < nw) (hjn : n ≤ j * isz) (hjr : ∀ i, i < n → carry + j ≠ result + i) :
    ∃ m1 m2,
      launch nb BLOCK_SIZE (kernel (fun a b : Nat => a + b) BLOCK_SIZE first n result isz
        carry) scratch1 mem = some m1 ∧
      second_level_scan (fun a b : Nat => a + b) carry nw scratch2 m1 = some m2 ∧
      m1 (carry + j) = mem (carry + j) ∧
      (∀ g, g < 8 * nb → g * isz < n →
        (m1 (carry + g)).1
          = lfold (fun a b : Nat => a + b) (fun k => (mem (first + k)).1) (g * isz)
              (min (g * isz + isz) n - 1 - g * isz)) ∧
      (m2 (carry + j)).1
        = lfold (fun a b : Nat => a + b) (fun k => (m1 (carry + k)).1) 0 j := by
  obtain ⟨m1, hl1, hS⟩ := stage1_spec (fun a b : Nat => a + b) first n result isz carry nb
    scratch1 mem hisz hio hci hco
  obtain ⟨m2, hl2, hc2, _⟩ := second_level_scan_spec (fun a b : Nat => a + b) carry nw
    (by omega) scratch2 m1
  refine ⟨m1, m2, hl1, hl2, ?_, ?_, ?_⟩
  · apply hS.hframe
    · intro g _ i _ hi2
      exact hjr i (by omega)
    · intro g _ hgn heq
      have : j = g := by omega
      subst this
      omega
  · intro g hg hgn
    rw [hS.hcarry g hg hgn]
    show chunkScan _ _ _ _ _ = _
    rw [chunkScan_eq_lfold _ Nat.add_assoc _ _ _ _ (Nat.mod_lt _ (by omega))]
    congr 1
    omega
  · rw [hc2 j hj]
    show chunkScan _ _ 0 (j / 32) (j % 32) = _
    rw [chunkScan_eq_lfold _ Nat.add_assoc _ _ _ _ (Nat.mod_lt _ (by omega))]
    congr 1
    omega

theorem lfold_add_zero (f : Nat → Nat) (a k : Nat) (h : ∀ j, a ≤ j → j ≤ a + k → f j = 0) :
    lfold (fun a b : Nat => a + b) f a k = 0 := by
  induction k with
  | zero => simpa [lfold] using h a (le_refl a) (by omega)
  | succ k ih =>
    simp only [lfold]
    rw [ih (fun j h1 h2 => h j h1 (by omega)), h (a + k + 1) (by omega) (by omega)]

/-- The first two launches for `n = 257` and `MAX_BLOCKS = 1`, on a memory that is zero
except for the value `x` in carry slot 5: stage 1 does not store to the slot and stage 2
leaves `x` in it. -/
theorem slot_five_scanned (x : Nat) (mem : Mem Nat)
    (hmem : mem = fun a => (if a = 2005 then x else 0, false)) :
    ∃ m1 m2,
      launch (num_blocks 257 1) BLOCK_SIZE
        (kernel (fun a b : Nat => a + b) BLOCK_SIZE 0 257 1000 (interval_size 257 1) 2000)
        (fun _ _ => 0) mem = some m1 ∧
      second_level_scan (fun a b : Nat => a + b) 2000 (num_warps 257 1) (fun _ _ => 0) m1
        = some m2 ∧
      m1 2005 = (x, false) ∧ (m2 2005).1 = x := by
  have h64 : interval_size 257 1 = 64 := by decide
  have hnb : num_blocks 257 1 = 1 := by decide
  have hnw : num_warps 257 1 = 8 := by decide
  rw [h64, hnb, hnw]
  obtain ⟨m1, m2, hl1, hl2, h5, hc, hs⟩ := unwritten_slot_scanned 0 257 1000 64 2000 1 8 5
    (fun _ _ => 0) (fun _ _ => 0) mem (by omega) (fun i j _ _ => by omega)
    (fun g j _ _ => by omega) (fun g i _ _ => by omega) (by omega) (by omega)
    (fun i _ => by omega)
  have hin : ∀ k, k < 2005 → (mem (0 + k)).1 = 0 := by
    intro k hk
    have : ¬ (0 + k = 2005) := by omega
    rw [hmem]
    simp only [this, if_false]
  have hz : ∀ g, g < 5 → (m1 (2000 + g)).1 = 0 := by
    intro g hg
    rw [hc g (by omega) (by omega)]
    apply lfold_add_zero
    intro k _ hk2
    exact hin k (by omega)
  have h5' : m1 2005 = (x, false) := by
    have : m1 (2000 + 5) = mem (2000 + 5) := h5
    rw [show (2005 : Nat) = 2000 + 5 from rfl, this, hmem]
    simp
  refine ⟨m1, m2, hl1, hl2, h5', ?_⟩
  have e : (m2 (2000 + 5)).1
      = (m1 (2000 + 0)).1 + (m1 (2000 + 1)).1 + (m1 (2000 + 2)).1 + (m1 (2000 + 3)).1
        + (m1 (2000 + 4)).1 + (m1 (2000 + 5)).1 := hs
  rw [show (2005 : Nat) = 2000 + 5 from rfl, e, hz 0 (by omega), hz 1 (by omega),
    hz 2 (by omega), hz 3 (by omega), hz 4 (by omega)]
  have : m1 (2000 + 5) = (x, false) := h5'
  rw [this]
  simp

/-- C13 fails as stated: for `n = 257` and `MAX_BLOCKS = 1` there are 8 carry slots and
intervals of 64 positions, so group 5 starts at 320 and has an empty interval, yet the
second-level scan reads its slot: stage 1 leaves slot 5 (address 2005) as it was, without a
store mark, and stage 2 leaves in it whatever it held, 0 in a memory of zeros and 7 when the
slot held 7. -/
theorem stage2_reads_unwritten_slot :
    5 < num_warps 257 1 ∧ ¬ (5 * interval_size 257 1 < 257) ∧
    (∃ m1 m2,
      launch (num_blocks 257 1) BLOCK_SIZE
        (kernel (fun a b : Nat => a + b) BLOCK_SIZE 0 257 1000 (interval_size 257 1) 2000)
        (fun _ _ => 0) (fun a => (if a = 2005 then 0 else 0, false)) = some m1 ∧
      second_level_scan (fun a b : Nat => a + b) 2000 (num_warps 257 1) (fun _ _ => 0) m1
        = some m2 ∧
      m1 2005 = (0, false) ∧ (m2 2005).1 = 0) ∧
    (∃ m1 m2,
      launch (num_blocks 257 1) BLOCK_SIZE
        (kernel (fun a b : Nat => a + b) BLOCK_SIZE 0 257 1000 (interval_size 257 1) 2000)
        (fun _ _ => 0) (fun a => (if a = 2005 then 7 else 0, false)) = some m1 ∧
      second_level_scan (fun a b : Nat => a + b) 2000 (num_warps 257 1) (fun _ _ => 0) m1
        = some m2 ∧
      m1 2005 = (7, false) ∧ (m2 2005).1 = 7) :=
  ⟨by decide, by decide, slot_five_scanned 0 _ rfl, slot_five_scanned 7 _ rfl⟩

/-- In the unbounded-integer model, the launch of `inclusive_update_kernel` made by `inclusive_scan` (any `n ≥ 1`,
`MAX_BLOCKS ≥ 1`, carry buffer off the output range) returns and stores to exactly the output
positions in `[intervalSize, n)`: each of them, position `i` of group `g = i / intervalSize ≥ 1`,
becomes `op(carry_in[g-1], old result[i])` with the carry as the left operand; every other
cell, in particular the interval `[0, min(intervalSize, n))` of the first group, keeps value
and mark; so on an output range without marks exactly `n - intervalSize` positions end up
marked. -/
theorem inclusive_update_writes (op : α → α → α) (MB n result carry : Nat) (m2 : Mem α)
    (hn : 1 ≤ n) (hMB : 1 ≤ MB)
    (hco : carry + num_warps n MB ≤ result ∨ result + n ≤ carry) :
    ∃ m3, launch (num_blocks n MB) BLOCK_SIZE
        (fun bid tb (ms : Mem α × Unit) =>
          (inclusive_update_kernel op BLOCK_SIZE result n (interval_size n MB) carry bid tb
            ms.1).map fun m => (m, ()))
        (fun _ => ()) m2 = some m3 ∧
      (∀ i, interval_size n MB ≤ i → i < n →
        m3 (result + i)
          = (op (m2 (carry + (i / interval_size n MB - 1))).1 (m2 (result + i)).1, true)) ∧
      (∀ a, (∀ i, interval_size n MB ≤ i → i < n → a ≠ result + i) → m3 a = m2 a) ∧
      (∀ i, i < min (interval_size n MB) n → m3 (result + i) = m2 (result + i)) ∧
      ((∀ i, i < n → (m2 (result + i)).2 = false) →
        ((Finset.range n).filter (fun i => (m3 (result + i)).2 = true)).card
          = n - interval_size n MB) := by
  have hisz := interval_size_pos n MB hn hMB
  have hcov := num_warps_cover n MB hn hMB
  have hlaunched := num_warps_le_launched n MB
  have hco' : ∀ g i, g * interval_size n MB < n → i < n → carry + g ≠ result + i := by
    intro g i h1 h2
    have : g < num_warps n MB := by
      by_contra hge
      have : num_warps n MB * interval_size n MB ≤ g * interval_size n MB :=
        Nat.mul_le_mul_right _ (by omega)
      omega
    omega
  obtain ⟨m3, hl3, hup, hf3⟩ := inclusive_update_launch_spec op result n (interval_size n MB)
    carry (num_blocks n MB) m2 hco'
  have hval : ∀ i, interval_size n MB ≤ i → i < n →
      m3 (result + i)
        = (op (m2 (carry + (i / interval_size n MB - 1))).1 (m2 (result + i)).1, true) := by
    intro i hi1 hi2
    obtain ⟨hb1, hb2⟩ := group_bounds (interval_size n MB) i hisz
    have hg := group_lt n (num_warps n MB) (interval_size n MB) i hisz hcov hi2
    have hg0 : i / interval_size n MB ≠ 0 := by
      intro h0
      rw [h0] at hb2
      omega
    have hpos : 1 * interval_size n MB ≤ i / interval_size n MB * interval_size n MB :=
      Nat.mul_le_mul_right _ (Nat.pos_of_ne_zero hg0)
    exact hup (i / interval_size n MB) (by omega) (by omega) (by omega) i hb1 (by omega)
  have hfr : ∀ a, (∀ i, interval_size n MB ≤ i → i < n → a ≠ result + i) → m3 a = m2 a := by
    intro a ha
    apply hf3
    intro g _ hgz _ i hi1 hi2
    have hpos : 1 * interval_size n MB ≤ g * interval_size n MB :=
      Nat.mul_le_mul_right _ (Nat.pos_of_ne_zero (fun h => hgz (by rw [h]; simp)))
    exact ha i (by omega) (by omega)
  refine ⟨m3, hl3, hval, hfr, ?_, ?_⟩
  · intro i hi
    exact hfr _ (fun i' h1 _ => by omega)
  · intro hmarks
    have hset : (Finset.range n).filter (fun i => (m3 (result + i)).2 = true)
        = Finset.Ico (interval_size n MB) n := by
      ext i
      simp only [Finset.mem_filter, Finset.mem_range, Finset.mem_Ico]
      constructor
      · rintro ⟨hi, hm⟩
        refine ⟨?_, hi⟩
        by_contra hlt
        rw [hfr (result + i) (fun i' h1 _ => by omega), hmarks i hi] at hm
        cases hm
      · rintro ⟨h1, h2⟩
        exact ⟨h2, by rw [hval i h1 h2]⟩
    rw [hset, Nat.card_Ico]

/-- In the unbounded-integer model, the launch of `exclusive_update_kernel`, for every `op`: for every launched group `g`
with a non-empty interval `[g * isz, min(g * isz + isz, n))` the incoming carry is
`C_g = init` when `g == 0` and `C_g = op(init, carry_in[g-1])` when `g > 0`; the first
position of the interval receives `C_g` itself and every other position `i` receives
`op(C_g, L[i-1])`, where `L` is the content of `result` before the launch, also across the
boundaries of the 32-element chunks. -/
theorem exclusive_update_shift (op : α → α → α) (result : Nat) (init : α)
    (n isz carry nb : Nat) (scratch : Nat → Shared α) (m2 : Mem α)
    (hco : ∀ g i, g * isz < n → i < n → carry + g ≠ result + i) :
    ∃ m3, launch nb BLOCK_SIZE
        (exclusive_update_kernel op BLOCK_SIZE result init n isz carry) scratch m2 = some m3 ∧
      ∀ g, g < 8 * nb → g * isz < min (g * isz + isz) n →
        m3 (result + g * isz)
          = (if g = 0 then init else op init (m2 (carry + (g - 1))).1, true) ∧
        ∀ i, g * isz < i → i < min (g * isz + isz) n →
          m3 (result + i)
            = (op (if g = 0 then init else op init (m2 (carry + (g - 1))).1)
                (m2 (result + (i - 1))).1, true) := by
  obtain ⟨m3, hl3, hup, _⟩ := exclusive_update_launch_spec op result init n isz carry nb
    scratch m2 hco
  refine ⟨m3, hl3, fun g hg hne => ⟨?_, fun i hi1 hi2 => ?_⟩⟩
  · have := hup g hg (by omega) (g * isz) (le_refl _) hne
    simpa using this
  · have := hup g hg (by omega) i (by omega) hi2
    have hne' : ¬ (i = g * isz) := by omega
    simpa [hne'] using this

/-! ## Independence of the carry buffer and the scratch -/

theorem localScan_congr (op : α → α → α) (f g : Nat → α) (isz i : Nat) (hisz : 0 < isz)
    (h : ∀ j, j ≤ i → f j = g j) : localScan op f isz i = localScan op g isz i := by
  obtain ⟨hb1, _⟩ := group_bounds isz i hisz
  unfold localScan
  apply chunkScan_congr op _ _ _ _ _ (Nat.mod_lt _ (by omega))
  intro j _ hj
  exact h j (by omega)

theorem intervalTotal_congr (op : α → α → α) (f g : Nat → α) (isz j : Nat) (hisz : 0 < isz)
    (h : ∀ k, k < j * isz + isz → f k = g k) :
    intervalTotal op f isz j = intervalTotal op g isz j := by
  unfold intervalTotal
  apply chunkScan_congr op _ _ _ _ _ (Nat.mod_lt _ (by omega))
  intro k _ hk
  exact h k (by omega)

theorem carryScan_congr (op : α → α → α) (f g : Nat → α) (isz j : Nat) (hisz : 0 < isz)
    (h : ∀ k, k < (j + 1) * isz → f k = g k) :
    carryScan op f isz j = carryScan op g isz j := by
  unfold carryScan
  apply chunkScan_congr op _ _ _ _ _ (Nat.mod_lt _ (by omega))
  intro k _ hk
  have hkj : k ≤ j := by omega
  apply intervalTotal_congr op f g isz k hisz
  intro x hx
  have h1 : (k + 1) * isz ≤ (j + 1) * isz := Nat.mul_le_mul_right _ (by omega)
  have h2 : (k + 1) * isz = k * isz + isz := by ring
  exact h x (by omega)

theorem inclusive_value_congr (op : α → α → α) (f g : Nat → α) (isz i : Nat) (hisz : 0 < isz)
    (h : ∀ j, j ≤ i → f j = g j) : inclusive_value op f isz i = inclusive_value op g isz i := by
  obtain ⟨hb1, _⟩ := group_bounds isz i hisz
  unfold inclusive_value
  rw [localScan_congr op f g isz i hisz h]
  by_cases hg0 : i / isz = 0
  · simp only [hg0, if_true]
  · simp only [hg0, if_false]
    rw [carryScan_congr op f g isz (i / isz - 1) hisz (fun k hk => by
      rw [Nat.sub_add_cancel (Nat.pos_of_ne_zero hg0)] at hk
      exact h k (by omega))]

theorem exclusive_value_congr (op : α → α → α) (init : α) (f g : Nat → α) (isz i : Nat)
    (hisz : 0 < isz) (h : ∀ j, j ≤ i → f j = g j) :
    exclusive_value op init f isz i = exclusive_value op init g isz i := by
  obtain ⟨hb1, _⟩ := group_bounds isz i hisz
  have hc : exclusive_carry op init f isz i = exclusive_carry op init g isz i := by
    unfold exclusive_carry
    by_cases hg0 : i / isz = 0
    · simp only [hg0, if_true]
    · simp only [hg0, if_false]
      rw [carryScan_congr op f g isz (i / isz - 1) hisz (fun k hk => by
        rw [Nat.sub_add_cancel (Nat.pos_of_ne_zero hg0)] at hk
        exact h k (by omega))]
  unfold exclusive_value
  rw [hc, localScan_congr op f g isz (i - 1) hisz (fun j hj => h j (by omega))]

/-- In the unbounded-integer model, the results of `inclusive_scan` and `exclusive_scan` do not depend on what the
carry buffer and the scratch arrays hold initially: for every `n`, `MAX_BLOCKS ≥ 1`, `op`
(associative or not) and `init`, two runs on memories that agree outside the carry buffer,
with any scratch contents, both return and leave the same cells in `output[0..n)`. -/
theorem scan_independent_of_carry_and_scratch (op : α → α → α) (MB first n result : Nat)
    (init : α) (carry : Nat) (s1 s2 s3 t1 t2 t3 : Nat → Shared α) (mem mem' : Mem α)
    (hMB : 1 ≤ MB) (hwp : WellPlaced first n result carry (num_warps n MB))
    (hagree : ∀ a, (a < carry ∨ carry + num_warps n MB ≤ a) → mem a = mem' a) :
    (∃ r r',
      inclusive_scan op MB first (first + n) result carry s1 s2 mem = some r ∧
      inclusive_scan op MB first (first + n) result carry t1 t2 mem' = some r' ∧
      ∀ i, i < n → r.2 (result + i) = r'.2 (result + i)) ∧
    (∃ r r',
      exclusive_scan op MB first (first + n) result init carry s1 s2 s3 mem = some r ∧
      exclusive_scan op MB first (first + n) result init carry t1 t2 t3 mem' = some r' ∧
      ∀ i, i < n → r.2 (result + i) = r'.2 (result + i)) := by
  rcases Nat.eq_zero_or_pos n with hn | hn
  · subst hn
    exact ⟨⟨(result, mem), (result, mem'), by simp [inclusive_scan], by simp [inclusive_scan],
        fun i hi => by omega⟩,
      ⟨(result, mem), (result, mem'), by simp [exclusive_scan], by simp [exclusive_scan],
        fun i hi => by omega⟩⟩
  · have hisz := interval_size_pos n MB hn hMB
    obtain ⟨a3, ha1, ha2, _⟩ :=
      inclusive_scan_core op MB first n result carry s1 s2 mem hn hMB hwp
    obtain ⟨b3, hb1, hb2, _⟩ :=
      inclusive_scan_core op MB first n result carry t1 t2 mem' hn hMB hwp
    obtain ⟨c3, hc1, hc2, _⟩ :=
      exclusive_scan_core op MB first n result init carry s1 s2 s3 mem hn hMB hwp
    obtain ⟨d3, hd1, hd2, _⟩ :=
      exclusive_scan_core op MB first n result init carry t1 t2 t3 mem' hn hMB hwp
    have hin : ∀ j, j < n → (mem (first + j)).1 = (mem' (first + j)).1 := by
      intro j hj
      obtain ⟨_, hw2, _⟩ := hwp
      rw [hagree (first + j) (by omega)]
    refine ⟨⟨_, _, ha1, hb1, fun i hi => ?_⟩, ⟨_, _, hc1, hd1, fun i hi => ?_⟩⟩
    · show a3 (result + i) = b3 (result + i)
      rw [ha2 i hi, hb2 i hi,
        inclusive_value_congr op _ (fun j => (mem' (first + j)).1) _ i hisz
          (fun j hj => hin j (by omega))]
    · show c3 (result + i) = d3 (result + i)
      rw [hc2 i hi, hd2 i hi,
        exclusive_value_congr op init _ (fun j => (mem' (first + j)).1) _ i hisz
          (fun j hj => hin j (by omega))]

/-! ## The end of the interval kernel -/

theorem kernel_eq_loop_exit (op : α → α → α) (BS first n result isz fc bid tb : Nat)
    (ms : Mem α × Shared α) :
    kernel op BS first n result isz fc bid tb ms
      = (kernel_loop_exit op BS first n result isz bid tb ms).map fun s =>
          (scatter s.mem (kernel_final_lanes BS n isz bid tb s)
              (fun l => fc + warp_id BS bid (tb + l))
              (fun l => (s.sdata (tb + l), true)) WARP_SIZE,
            s.sdata) := rfl

theorem second_level_scan_eq (op : α → α → α) (carry nw : Nat) (scratch : Nat → Shared α)
    (mem : Mem α) :
    second_level_scan op carry nw scratch mem
      = (kernel op WARP_SIZE carry nw carry nw (carry + nw - 1) 0 0 (mem, scratch 0)).map
          Prod.fst := by
  simp [second_level_scan, launch, forUpTo, runBlock, WARP_SIZE]

theorem scan_warp_step_frame (op : α → α → α) (tb : Nat) (act : Nat → Bool) (off : Nat)
    (vs : (Nat → α) × Shared α) (a : Nat) (ha : a < tb ∨ tb + 32 ≤ a) :
    (scan_warp_step op tb act off vs).2 a = vs.2 a := by
  apply scatter_miss
  intro l hl _ hla
  have hW : WARP_SIZE = 32 := rfl
  omega

theorem scan_warp_frame (op : α → α → α) (tb : Nat) (act : Nat → Bool) (val : Nat → α)
    (sdata : Shared α) (a : Nat) (ha : a < tb ∨ tb + 32 ≤ a) :
    (scan_warp op tb act val sdata).2 a = sdata a := by
  simp only [scan_warp]
  rw [scan_warp_step_frame op tb act 16 _ a ha, scan_warp_step_frame op tb act 8 _ a ha,
    scan_warp_step_frame op tb act 4 _ a ha, scan_warp_step_frame op tb act 2 _ a ha,
    scan_warp_step_frame op tb act 1 _ a ha]
  apply scatter_miss
  intro l hl _ hla
  have hW : WARP_SIZE = 32 := rfl
  omega

theorem whileAny_preserves {σ : Type} (cond : σ → Nat → Bool) (body : σ → σ) (P : σ → Prop)
    (hbody : ∀ s, P s → P (body s)) :
    ∀ fuel s s', P s → whileAny cond body fuel s = some s' → P s' := by
  intro fuel
  induction fuel with
  | zero =>
    intro s s' hP h
    cases hc : anyLane (cond s) with
    | true => simp [whileAny, hc] at h
    | false =>
      simp only [whileAny, hc, Bool.false_eq_true, if_false, Option.some.injEq] at h
      rw [← h]; exact hP
  | succ fuel ih =>
    intro s s' hP h
    cases hc : anyLane (cond s) with
    | true =>
      simp only [whileAny, hc, if_true] at h
      exact ih (body s) s' (hbody s hP) h
    | false =>
      simp only [whileAny, hc, Bool.false_eq_true, if_false, Option.some.injEq] at h
      rw [← h]; exact hP

/-- A warp of `kernel` leaves the scratch slots outside its own 32 slots as they were. -/
theorem kernel_scratch_frame (op : α → α → α) (BS first n result isz fc bid tb : Nat)
    (ms r : Mem α × Shared α) (h : kernel op BS first n result isz fc bid tb ms = some r)
    (a : Nat) (ha : a < tb ∨ tb + 32 ≤ a) : r.2 a = ms.2 a := by
  rw [kernel_eq_loop_exit] at h
  cases hx : kernel_loop_exit op BS first n result isz bid tb ms with
  | none => rw [hx] at h; cases h
  | some s =>
    rw [hx] at h
    simp only [Option.map_some', Option.some.injEq] at h
    rw [← h]
    show s.sdata a = ms.2 a
    refine whileAny_preserves _ _ (fun s : KState α => s.sdata a = ms.2 a) ?_ n _ s ?_ hx
    · intro s hs
      show (scan_warp _ _ _ _ _).2 a = _
      rw [scan_warp_frame op tb _ _ _ a ha]
      exact hs
    · show (scan_warp _ _ _ _ _).2 a = _
      rw [scan_warp_frame op tb _ _ _ a ha]

/-- A warp of `exclusive_update_kernel` leaves the scratch slots outside its own 32 slots as
they were. -/
theorem exclusive_update_scratch_frame (op : α → α → α) (BS result : Nat) (init : α)
    (n isz carry_in bid tb : Nat) (ms r : Mem α × Shared α)
    (h : exclusive_update_kernel op BS result init n isz carry_in bid tb ms = some r)
    (a : Nat) (ha : a < tb ∨ tb + 32 ≤ a) : r.2 a = ms.2 a := by
  unfold exclusive_update_kernel at h
  simp only [Option.map_eq_some'] at h
  obtain ⟨s, hs, hr⟩ := h
  rw [← hr]
  show s.sdata a = ms.2 a
  refine whileAny_preserves _ _ (fun s : XState α => s.sdata a = ms.2 a) ?_ n _ s rfl hs
  intro s hs
  simp only [exclusive_update_body, WARP_SIZE]
  rw [scatter_miss _ _ _ _ _ _ (fun l hl _ hla => by omega)]
  exact hs

/-- C19: every scratch index that the thread with block-local index `t < BLOCK_SIZE` and lane
rank `l = t mod 32` touches (`t` itself, `t - offset` for an offset in `{1,2,4,8,16}` with
`l ≥ offset`, `t - 1` when `l ≥ 1`, `t + 31` when `l == 0`) lies in the 32 slots
`[t - l, t - l + 32)` of its own warp, which start at a multiple of 32, and below
`BLOCK_SIZE` (256 in stages 1 and 3, 32 in stage 2); and a warp of `kernel` or of
`exclusive_update_kernel` leaves every scratch slot outside its own 32 slots as it was. -/
theorem scratch_indices_in_region (BS t : Nat) (hBS : BS = 256 ∨ BS = 32) (ht : t < BS) :
    (thread_lane t = t % 32 ∧ (t - thread_lane t) % 32 = 0 ∧
      ∀ x, x ∈ scratch_indices t →
        t - thread_lane t ≤ x ∧ x < t - thread_lane t + 32 ∧ x < BS) ∧
    (∀ (op : α → α → α) (first n result isz fc bid w : Nat) (ms r : Mem α × Shared α),
      kernel op BS first n result isz fc bid (32 * w) ms = some r →
      ∀ a, (a < 32 * w ∨ 32 * w + 32 ≤ a) → r.2 a = ms.2 a) ∧
    (∀ (op : α → α → α) (result : Nat) (init : α) (n isz carry_in bid w : Nat)
        (ms r : Mem α × Shared α),
      exclusive_update_kernel op BS result init n isz carry_in bid (32 * w) ms = some r →
      ∀ a, (a < 32 * w ∨ 32 * w + 32 ≤ a) → r.2 a = ms.2 a) := by
  have hl := thread_lane_eq_mod t
  refine ⟨⟨hl, by omega, ?_⟩, ?_, ?_⟩
  · intro x hx
    simp only [scratch_indices, List.mem_append, List.mem_singleton, List.mem_map,
      List.mem_filter, decide_eq_true_eq, List.mem_cons, List.mem_nil_iff, or_false,
      WARP_SIZE] at hx
    rcases hx with (rfl | ⟨off, ⟨hoff, hle⟩, rfl⟩) | hx
    · omega
    · rcases hoff with rfl | rfl | rfl | rfl | rfl <;> omega
    · split at hx
      · simp only [List.mem_singleton] at hx
        omega
      · simp only [List.mem_singleton] at hx
        omega
  · intro op first n result isz fc bid w ms r h a ha
    exact kernel_scratch_frame op BS first n result isz fc bid (32 * w) ms r h a ha
  · intro op result init n isz carry_in bid w ms r h a ha
    exact exclusive_update_scratch_frame op BS result init n isz carry_in bid (32 * w) ms r h
      a ha

theorem scratch_indices_in_region_witness :
    (256 = 256 ∨ 256 = 32) ∧ 224 < 256 ∧
    ((thread_lane 224 = 224 % 32 ∧ (224 - thread_lane 224) % 32 = 0 ∧
      ∀ x, x ∈ scratch_indices 224 →
        224 - thread_lane 224 ≤ x ∧ x < 224 - thread_lane 224 + 32 ∧ x < 256) ∧
    (∀ (op : Nat → Nat → Nat) (first n result isz fc bid w : Nat)
        (ms r : Mem Nat × Shared Nat),
      kernel op 256 first n result isz fc bid (32 * w) ms = some r →
      ∀ a, (a < 32 * w ∨ 32 * w + 32 ≤ a) → r.2 a = ms.2 a) ∧
    (∀ (op : Nat → Nat → Nat) (result : Nat) (init : Nat) (n isz carry_in bid w : Nat)
        (ms r : Mem Nat × Shared Nat),
      exclusive_update_kernel op 256 result init n isz carry_in bid (32 * w) ms = some r →
      ∀ a, (a < 32 * w ∨ 32 * w + 32 ≤ a) → r.2 a = ms.2 a)) :=
  ⟨by decide, by decide, scratch_indices_in_region 256 224 (by decide) (by decide)⟩

/-! ### The 32-bit kernels against the unbounded ones: congruence lemmas -/

theorem scatter_congr {β : Type} (m : Nat → β) (en en2 : Nat → Bool) (addr addr2 : Nat → Nat)
    (v v2 : Nat → β) (k : Nat) (hen : ∀ l, l < k → en l = en2 l)
    (hav : ∀ l, l < k → en l = true → addr l = addr2 l ∧ v l = v2 l) (a : Nat) :
    scatter m en addr v k a = scatter m en2 addr2 v2 k a := by
  induction k with
  | zero => rfl
  | succ k ih =>
    have ih2 := ih (fun l hl => hen l (by omega)) (fun l hl => hav l (by omega))
    show (if en k = true ∧ addr k = a then v k else scatter m en addr v k a)
      = (if en2 k = true ∧ addr2 k = a then v2 k else scatter m en2 addr2 v2 k a)
    rw [ih2, ← hen k (by omega)]
    by_cases h : en k = true
    · obtain ⟨h1, h2⟩ := hav k (by omega) h
      rw [h1, h2]
    · simp [h]

theorem anyLane_congr (p q : Nat → Bool) (h : ∀ l, l < WARP_SIZE → p l = q l) :
    anyLane p = anyLane q := by
  unfold anyLane
  rw [Bool.eq_iff_iff, List.any_eq_true, List.any_eq_true]
  constructor
  · rintro ⟨l, hl, hp⟩
    exact ⟨l, hl, by rw [← h l (List.mem_range.mp hl)]; exact hp⟩
  · rintro ⟨l, hl, hp⟩
    exact ⟨l, hl, by rw [h l (List.mem_range.mp hl)]; exact hp⟩

theorem scan_warp_step_congr (op : α → α → α) (tb : Nat) (act act2 : Nat → Bool) (off : Nat)
    (vs vs2 : (Nat → α) × Shared α) (hact : ∀ l, l < WARP_SIZE → act l = act2 l)
    (h1 : ∀ l, l < WARP_SIZE → vs.1 l = vs2.1 l) (h2 : vs.2 = vs2.2) :
    (∀ l, l < WARP_SIZE →
        (scan_warp_step op tb act off vs).1 l = (scan_warp_step op tb act2 off vs2).1 l) ∧
      (scan_warp_step op tb act off vs).2 = (scan_warp_step op tb act2 off vs2).2 := by
  have hv : ∀ l, l < WARP_SIZE →
      (scan_warp_step op tb act off vs).1 l = (scan_warp_step op tb act2 off vs2).1 l := by
    intro l hl
    simp only [scan_warp_step, hact l hl, h1 l hl, h2]
  refine ⟨hv, ?_⟩
  funext a
  simp only [scan_warp_step]
  rw [h2]
  apply scatter_congr
  · intro l hl
    rw [hact l hl]
  · intro l hl _
    refine ⟨rfl, ?_⟩
    have := hv l hl
    simp only [scan_warp_step] at this
    rw [h2] at this
    exact this

theorem scan_warp_congr (op : α → α → α) (tb : Nat) (act act2 : Nat → Bool)
    (val val2 : Nat → α) (sdata : Shared α) (hact : ∀ l, l < WARP_SIZE → act l = act2 l)
    (hval : ∀ l, l < WARP_SIZE → val l = val2 l) :
    (∀ l, l < WARP_SIZE →
        (scan_warp op tb act val sdata).1 l = (scan_warp op tb act2 val2 sdata).1 l) ∧
      (scan_warp op tb act val sdata).2 = (scan_warp op tb act2 val2 sdata).2 := by
  have h0 : scatter sdata act (fun l => tb + l) val WARP_SIZE
      = scatter sdata act2 (fun l => tb + l) val2 WARP_SIZE := by
    funext a
    exact scatter_congr _ _ _ _ _ _ _ _ hact (fun l hl _ => ⟨rfl, hval l hl⟩) a
  have s1 := scan_warp_step_congr op tb act act2 1
    (val, scatter sdata act (fun l => tb + l) val WARP_SIZE)
    (val2, scatter sdata act2 (fun l => tb + l) val2 WARP_SIZE) hact hval h0
  have s2 := scan_warp_step_congr op tb act act2 2 _ _ hact s1.1 s1.2
  have s4 := scan_warp_step_congr op tb act act2 4 _ _ hact s2.1 s2.2
  have s8 := scan_warp_step_congr op tb act act2 8 _ _ hact s4.1 s4.2
  exact scan_warp_step_congr op tb act act2 16 _ _ hact s8.1 s8.2

theorem whileAny_rel {σ τ : Type} (R : σ → τ → Prop) (c1 : σ → Nat → Bool) (b1 : σ → σ)
    (c2 : τ → Nat → Bool) (b2 : τ → τ)
    (hc : ∀ s t, R s t → ∀ l, l < WARP_SIZE → c1 s l = c2 t l)
    (hb : ∀ s t, R s t → R (b1 s) (b2 t)) :
    ∀ (fuel : Nat) (s : σ) (t : τ), R s t →
      (whileAny c1 b1 fuel s = none ∧ whileAny c2 b2 fuel t = none) ∨
      ∃ s2 t2, whileAny c1 b1 fuel s = some s2 ∧ whileAny c2 b2 fuel t = some t2 ∧ R s2 t2 := by
  intro fuel
  induction fuel with
  | zero =>
    intro s t hR
    have ha := anyLane_congr (c1 s) (c2 t) (hc s t hR)
    simp only [whileAny]
    rw [← ha]
    by_cases h : anyLane (c1 s) = true
    · left; simp [h]
    · right; exact ⟨s, t, by simp [h], by simp [h], hR⟩
  | succ fuel ih =>
    intro s t hR
    have ha := anyLane_congr (c1 s) (c2 t) (hc s t hR)
    simp only [whileAny]
    rw [← ha]
    by_cases h : anyLane (c1 s) = true
    · simp only [h, if_true]
      exact ih _ _ (hb s t hR)
    · right; exact ⟨s, t, by simp [h], by simp [h], hR⟩

theorem forUpTo_congr {σ : Type} (f g : Nat → σ → Option σ) (k : Nat)
    (h : ∀ j, j < k → ∀ s, f j s = g j s) (s : σ) : forUpTo f k s = forUpTo g k s := by
  induction k with
  | zero => rfl
  | succ k ih =>
    show (forUpTo f k s).bind (f k) = (forUpTo g k s).bind (g k)
    rw [ih (fun j hj => h j (by omega))]
    congr 1
    funext x
    exact h k (by omega) x

theorem launch_congr {σ : Type} (nb BS : Nat)
    (k1 k2 : Nat → Nat → Mem α × σ → Option (Mem α × σ)) (scratch : Nat → σ) (mem : Mem α)
    (h : ∀ b, b < nb → ∀ w, w < BS / WARP_SIZE → ∀ ms, k1 b (WARP_SIZE * w) ms
      = k2 b (WARP_SIZE * w) ms) :
    launch nb BS k1 scratch mem = launch nb BS k2 scratch mem := by
  unfold launch
  apply forUpTo_congr
  intro b hb m
  unfold runBlock
  congr 1
  apply forUpTo_congr
  intro w hw ms
  exact h b hb w hw ms

/-! ### The 32-bit kernels compute what the unbounded ones compute -/

theorem u32_of_lt {x : Nat} (h : x < 2 ^ 32) : u32 x = x := Nat.mod_eq_of_lt h

theorem thread_id32_eq (BS bid tid isz n : Nat) (h : NoWrap BS bid tid isz n) :
    thread_id32 BS bid tid = thread_id BS bid tid := by
  obtain ⟨h1, h2, _⟩ := h
  unfold thread_id32
  rw [u32_of_lt h1]
  exact u32_of_lt h2

theorem warp_id32_eq (BS bid tid isz n : Nat) (h : NoWrap BS bid tid isz n) :
    warp_id32 BS bid tid = warp_id BS bid tid := by
  unfold warp_id32 warp_id
  rw [thread_id32_eq BS bid tid isz n h]

theorem interval_begin32_eq (BS bid tid isz n : Nat) (h : NoWrap BS bid tid isz n) :
    interval_begin32 BS bid tid isz = interval_begin BS bid tid isz := by
  unfold interval_begin32 interval_begin
  rw [warp_id32_eq BS bid tid isz n h]
  exact u32_of_lt h.2.2.1

theorem interval_end32_eq (BS bid tid isz n : Nat) (h : NoWrap BS bid tid isz n) :
    interval_end32 BS bid tid isz n = interval_end BS bid tid isz n := by
  unfold interval_end32 interval_end
  rw [interval_begin32_eq BS bid tid isz n h, u32_of_lt h.2.2.2.1]

theorem kernel_first32_rel (op : α → α → α) (first result tb : Nat) (ie2 ie : Nat → Nat)
    (alive2 alive : Nat → Bool) (s t : KState α)
    (hie : ∀ l, l < WARP_SIZE → ie2 l = ie l)
    (hal : ∀ l, l < WARP_SIZE → alive2 l = alive l)
    (hinc : ∀ l, l < WARP_SIZE → ∀ i, i < ie l → i + WARP_SIZE < 2 ^ 32)
    (hR : s.mem = t.mem ∧ s.sdata = t.sdata ∧ ∀ l, l < WARP_SIZE → s.i l = t.i l) :
    (kernel_first32 op first result tb ie2 alive2 s).mem
        = (kernel_first op first result tb ie alive t).mem ∧
      (kernel_first32 op first result tb ie2 alive2 s).sdata
        = (kernel_first op first result tb ie alive t).sdata ∧
      ∀ l, l < WARP_SIZE → (kernel_first32 op first result tb ie2 alive2 s).i l
        = (kernel_first op first result tb ie alive t).i l := by
  obtain ⟨si, sm, ss⟩ := s
  obtain ⟨ti, tm, ts⟩ := t
  obtain ⟨hm, hs, hi⟩ := hR
  simp only at hm hs hi
  subst hm hs
  have hact : ∀ l, l < WARP_SIZE →
      kernel_active ie2 alive2 ⟨si, sm, ss⟩ l = kernel_active ie alive ⟨ti, sm, ss⟩ l := by
    intro l hl
    simp only [kernel_active, hie l hl, hal l hl, hi l hl]
  have hval : ∀ l, l < WARP_SIZE → (sm (first + si l)).1 = (sm (first + ti l)).1 := by
    intro l hl
    rw [hi l hl]
  have hsw := scan_warp_congr op tb _ _ _ _ ss hact hval
  refine ⟨?_, hsw.2, ?_⟩
  · funext a
    simp only [kernel_first32, kernel_first]
    apply scatter_congr
    · exact hact
    · intro l hl _
      exact ⟨by rw [hi l hl], by rw [hsw.1 l hl]⟩
  · intro l hl
    simp only [kernel_first32, kernel_first]
    rw [hact l hl]
    by_cases h : kernel_active ie alive ⟨ti, sm, ss⟩ l = true
    · rw [if_pos h, if_pos h, hi l hl]
      simp only [kernel_active, Bool.and_eq_true, decide_eq_true_eq] at h
      exact u32_of_lt (hinc l hl _ h.2)
    · rw [if_neg h, if_neg h, hi l hl]

theorem kernel_body32_rel (op : α → α → α) (first result tb : Nat) (ie2 ie : Nat → Nat)
    (alive2 alive : Nat → Bool) (s t : KState α)
    (hie : ∀ l, l < WARP_SIZE → ie2 l = ie l)
    (hal : ∀ l, l < WARP_SIZE → alive2 l = alive l)
    (hinc : ∀ l, l < WARP_SIZE → ∀ i, i < ie l → i + WARP_SIZE < 2 ^ 32)
    (hR : s.mem = t.mem ∧ s.sdata = t.sdata ∧ ∀ l, l < WARP_SIZE → s.i l = t.i l) :
    (kernel_body32 op first result tb ie2 alive2 s).mem
        = (kernel_body op first result tb ie alive t).mem ∧
      (kernel_body32 op first result tb ie2 alive2 s).sdata
        = (kernel_body op first result tb ie alive t).sdata ∧
      ∀ l, l < WARP_SIZE → (kernel_body32 op first result tb ie2 alive2 s).i l
        = (kernel_body op first result tb ie alive t).i l := by
  obtain ⟨si, sm, ss⟩ := s
  obtain ⟨ti, tm, ts⟩ := t
  obtain ⟨hm, hs, hi⟩ := hR
  simp only at hm hs hi
  subst hm hs
  have hact : ∀ l, l < WARP_SIZE →
      kernel_active ie2 alive2 ⟨si, sm, ss⟩ l = kernel_active ie alive ⟨ti, sm, ss⟩ l := by
    intro l hl
    simp only [kernel_active, hie l hl, hal l hl, hi l hl]
  have hval : ∀ l, l < WARP_SIZE →
      (if thread_lane (tb + l) = 0 then
          op (ss (tb + l + (WARP_SIZE - 1))) (sm (first + si l)).1
        else (sm (first + si l)).1)
      = (if thread_lane (tb + l) = 0 then
          op (ss (tb + l + (WARP_SIZE - 1))) (sm (first + ti l)).1
        else (sm (first + ti l)).1) := by
    intro l hl
    rw [hi l hl]
  have hsw := scan_warp_congr op tb _ _ _ _ ss hact hval
  refine ⟨?_, hsw.2, ?_⟩
  · funext a
    simp only [kernel_body32, kernel_body]
    apply scatter_congr
    · exact hact
    · intro l hl _
      exact ⟨by rw [hi l hl], by rw [hsw.1 l hl]⟩
  · intro l hl
    simp only [kernel_body32, kernel_body]
    rw [hact l hl]
    by_cases h : kernel_active ie alive ⟨ti, sm, ss⟩ l = true
    · rw [if_pos h, if_pos h, hi l hl]
      simp only [kernel_active, Bool.and_eq_true, decide_eq_true_eq] at h
      exact u32_of_lt (hinc l hl _ h.2)
    · rw [if_neg h, if_neg h, hi l hl]

theorem kernel32_eq (op : α → α → α) (BS first n result isz fc bid tb : Nat)
    (ms : Mem α × Shared α) (h : ∀ l, l < WARP_SIZE → NoWrap BS bid (tb + l) isz n) :
    kernel32 op BS first n result isz fc bid tb ms
      = kernel op BS first n result isz fc bid tb ms := by
  have hie : ∀ l, l < WARP_SIZE →
      interval_end32 BS bid (tb + l) isz n = interval_end BS bid (tb + l) isz n :=
    fun l hl => interval_end32_eq _ _ _ _ _ (h l hl)
  have hi0 : ∀ l, l < WARP_SIZE →
      u32 (interval_begin32 BS bid (tb + l) isz + thread_lane (tb + l))
        = interval_begin BS bid (tb + l) isz + thread_lane (tb + l) := by
    intro l hl
    rw [interval_begin32_eq _ _ _ _ _ (h l hl)]
    exact u32_of_lt (h l hl).2.2.2.2.1
  have hal : ∀ l, l < WARP_SIZE →
      (!decide (interval_end32 BS bid (tb + l) isz n
          ≤ u32 (interval_begin32 BS bid (tb + l) isz + thread_lane (tb + l))))
        = !decide (interval_end BS bid (tb + l) isz n
          ≤ interval_begin BS bid (tb + l) isz + thread_lane (tb + l)) := by
    intro l hl
    rw [hie l hl, hi0 l hl]
  have hinc : ∀ l, l < WARP_SIZE → ∀ i, i < interval_end BS bid (tb + l) isz n →
      i + WARP_SIZE < 2 ^ 32 := fun l hl => (h l hl).2.2.2.2.2.2
  unfold kernel32 kernel
  dsimp only
  have h1 := kernel_first32_rel op first result tb _ _ _ _
    ⟨fun l => u32 (interval_begin32 BS bid (tb + l) isz + thread_lane (tb + l)), ms.1, ms.2⟩
    ⟨fun l => interval_begin BS bid (tb + l) isz + thread_lane (tb + l), ms.1, ms.2⟩
    hie hal hinc ⟨rfl, rfl, hi0⟩
  have hw := whileAny_rel
    (fun (s t : KState α) => s.mem = t.mem ∧ s.sdata = t.sdata ∧
      ∀ l, l < WARP_SIZE → s.i l = t.i l)
    (kernel_active (fun l => interval_end32 BS bid (tb + l) isz n)
      (fun l => !decide (interval_end32 BS bid (tb + l) isz n
          ≤ u32 (interval_begin32 BS bid (tb + l) isz + thread_lane (tb + l)))))
    (kernel_body32 op first result tb (fun l => interval_end32 BS bid (tb + l) isz n)
      (fun l => !decide (interval_end32 BS bid (tb + l) isz n
          ≤ u32 (interval_begin32 BS bid (tb + l) isz + thread_lane (tb + l)))))
    (kernel_active (fun l => interval_end BS bid (tb + l) isz n)
      (fun l => !decide (interval_end BS bid (tb + l) isz n
          ≤ interval_begin BS bid (tb + l) isz + thread_lane (tb + l))))
    (kernel_body op first result tb (fun l => interval_end BS bid (tb + l) isz n)
      (fun l => !decide (interval_end BS bid (tb + l) isz n
          ≤ interval_begin BS bid (tb + l) isz + thread_lane (tb + l))))
    (by
      intro s t hR l hl
      simp only [kernel_active, hie l hl, hal l hl, hR.2.2 l hl, hi0 l hl])
    (fun s t hR => kernel_body32_rel op first result tb _ _ _ _ s t hie hal hinc hR)
    n _ _ h1
  rcases hw with ⟨e1, e2⟩ | ⟨s2, t2, e1, e2, hm, hs, hi⟩
  · rw [e1, e2]; rfl
  · rw [e1, e2]
    simp only [Option.map_some']
    congr 1
    refine Prod.ext ?_ hs
    funext a
    simp only
    rw [hm, hs]
    apply scatter_congr
    · intro l hl
      simp only [kernel_carry_lane32, kernel_carry_lane, hie l hl, hi0 l hl, hi l hl]
      rw [u32_of_lt (h l hl).2.2.2.2.2.1]
    · intro l hl _
      exact ⟨by rw [warp_id32_eq _ _ _ _ _ (h l hl)], rfl⟩

theorem warp_pred32_eq (BS bid tid isz n : Nat) (h : NoWrap BS bid tid isz n)
    (hw : warp_id BS bid tid ≠ 0) :
    u32 (warp_id32 BS bid tid + (2 ^ 32 - 1)) = warp_id BS bid tid - 1 := by
  rw [warp_id32_eq BS bid tid isz n h]
  have h2 : thread_id BS bid tid < 2 ^ 32 := h.2.1
  have h3 : warp_id BS bid tid ≤ thread_id BS bid tid := Nat.div_le_self _ _
  unfold u32
  omega

theorem inclusive_update_body32_rel (op : α → α → α) (result : Nat) (ie2 ie : Nat → Nat)
    (alive2 alive : Nat → Bool) (carry2 carry : Nat → α) (s t : UState α)
    (hie : ∀ l, l < WARP_SIZE → ie2 l = ie l)
    (hal : ∀ l, l < WARP_SIZE → alive2 l = alive l)
    (hinc : ∀ l, l < WARP_SIZE → ∀ i, i < ie l → i + WARP_SIZE < 2 ^ 32)
    (hcarry : ∀ l, l < WARP_SIZE → alive l = true → carry2 l = carry l)
    (hR : s.mem = t.mem ∧ ∀ l, l < WARP_SIZE → s.i l = t.i l) :
    (inclusive_update_body32 op result ie2 alive2 carry2 s).mem
        = (inclusive_update_body op result ie alive carry t).mem ∧
      ∀ l, l < WARP_SIZE → (inclusive_update_body32 op result ie2 alive2 carry2 s).i l
        = (inclusive_update_body op result ie alive carry t).i l := by
  obtain ⟨si, sm⟩ := s
  obtain ⟨ti, tm⟩ := t
  obtain ⟨hm, hi⟩ := hR
  simp only at hm hi
  subst hm
  have hact : ∀ l, l < WARP_SIZE →
      update_active ie2 alive2 ⟨si, sm⟩ l = update_active ie alive ⟨ti, sm⟩ l := by
    intro l hl
    simp only [update_active, hie l hl, hal l hl, hi l hl]
  refine ⟨?_, ?_⟩
  · funext a
    simp only [inclusive_update_body32, inclusive_update_body]
    apply scatter_congr
    · exact hact
    · intro l hl hen
      rw [hact l hl] at hen
      simp only [update_active, Bool.and_eq_true] at hen
      exact ⟨by rw [hi l hl], by rw [hi l hl, hcarry l hl hen.1]⟩
  · intro l hl
    simp only [inclusive_update_body32, inclusive_update_body]
    rw [hact l hl]
    by_cases h : update_active ie alive ⟨ti, sm⟩ l = true
    · rw [if_pos h, if_pos h, hi l hl]
      simp only [update_active, Bool.and_eq_true, decide_eq_true_eq] at h
      exact u32_of_lt (hinc l hl _ h.2)
    · rw [if_neg h, if_neg h, hi l hl]

theorem inclusive_update_kernel32_eq (op : α → α → α) (BS result n isz carry_in bid tb : Nat)
    (mem : Mem α) (h : ∀ l, l < WARP_SIZE → NoWrap BS bid (tb + l) isz n) :
    inclusive_update_kernel32 op BS result n isz carry_in bid tb mem
      = inclusive_update_kernel op BS result n isz carry_in bid tb mem := by
  have hib : ∀ l, l < WARP_SIZE →
      interval_begin32 BS bid (tb + l) isz = interval_begin BS bid (tb + l) isz :=
    fun l hl => interval_begin32_eq _ _ _ _ _ (h l hl)
  have hie : ∀ l, l < WARP_SIZE →
      interval_end32 BS bid (tb + l) isz n = interval_end BS bid (tb + l) isz n :=
    fun l hl => interval_end32_eq _ _ _ _ _ (h l hl)
  have hi0 : ∀ l, l < WARP_SIZE →
      u32 (interval_begin32 BS bid (tb + l) isz + thread_lane (tb + l))
        = interval_begin BS bid (tb + l) isz + thread_lane (tb + l) := by
    intro l hl
    rw [hib l hl]
    exact u32_of_lt (h l hl).2.2.2.2.1
  have hal : ∀ l, l < WARP_SIZE →
      (!(decide (interval_begin32 BS bid (tb + l) isz = 0)
          || decide (n ≤ interval_begin32 BS bid (tb + l) isz)))
        = !(decide (interval_begin BS bid (tb + l) isz = 0)
          || decide (n ≤ interval_begin BS bid (tb + l) isz)) := by
    intro l hl
    rw [hib l hl]
  have hinc : ∀ l, l < WARP_SIZE → ∀ i, i < interval_end BS bid (tb + l) isz n →
      i + WARP_SIZE < 2 ^ 32 := fun l hl => (h l hl).2.2.2.2.2.2
  have hcarry : ∀ l, l < WARP_SIZE →
      (!(decide (interval_begin BS bid (tb + l) isz = 0)
          || decide (n ≤ interval_begin BS bid (tb + l) isz))) = true →
      (mem (carry_in + u32 (warp_id32 BS bid (tb + l) + (2 ^ 32 - 1)))).1
        = (mem (carry_in + (warp_id BS bid (tb + l) - 1))).1 := by
    intro l hl ha
    have hw : warp_id BS bid (tb + l) ≠ 0 := by
      intro h0
      simp [interval_begin, h0] at ha
    rw [warp_pred32_eq _ _ _ _ _ (h l hl) hw]
  unfold inclusive_update_kernel32 inclusive_update_kernel
  dsimp only
  have hw := whileAny_rel
    (fun (s t : UState α) => s.mem = t.mem ∧ ∀ l, l < WARP_SIZE → s.i l = t.i l)
    (update_active (fun l => interval_end32 BS bid (tb + l) isz n)
      (fun l => !(decide (interval_begin32 BS bid (tb + l) isz = 0)
          || decide (n ≤ interval_begin32 BS bid (tb + l) isz))))
    (inclusive_update_body32 op result (fun l => interval_end32 BS bid (tb + l) isz n)
      (fun l => !(decide (interval_begin32 BS bid (tb + l) isz = 0)
          || decide (n ≤ interval_begin32 BS bid (tb + l) isz)))
      (fun l => (mem (carry_in + u32 (warp_id32 BS bid (tb + l) + (2 ^ 32 - 1)))).1))
    (update_active (fun l => interval_end BS bid (tb + l) isz n)
      (fun l => !(decide (interval_begin BS bid (tb + l) isz = 0)
          || decide (n ≤ interval_begin BS bid (tb + l) isz))))
    (inclusive_update_body op result (fun l => interval_end BS bid (tb + l) isz n)
      (fun l => !(decide (interval_begin BS bid (tb + l) isz = 0)
          || decide (n ≤ interval_begin BS bid (tb + l) isz)))
      (fun l => (mem (carry_in + (warp_id BS bid (tb + l) - 1))).1))
    (by
      intro s t hR l hl
      simp only [update_active, hie l hl, hib l hl, hR.2 l hl])
    (fun s t hR => inclusive_update_body32_rel op result _ _ _ _ _ _ s t hie hal hinc hcarry hR)
    n
    ⟨fun l => u32 (interval_begin32 BS bid (tb + l) isz + thread_lane (tb + l)), mem⟩
    ⟨fun l => interval_begin BS bid (tb + l) isz + thread_lane (tb + l), mem⟩
    ⟨rfl, hi0⟩
  rcases hw with ⟨e1, e2⟩ | ⟨s2, t2, e1, e2, hm, _⟩
  · rw [e1, e2]
  · rw [e1, e2]
    simp only [Option.map_some']
    rw [hm]

theorem exclusive_update_body32_rel (op : α → α → α) (result tb : Nat) (ie2 ie : Nat → Nat)
    (alive2 alive : Nat → Bool) (carry2 carry : Nat → α) (s t : XState α)
    (hie : ∀ l, l < WARP_SIZE → ie2 l = ie l)
    (hal : ∀ l, l < WARP_SIZE → alive2 l = alive l)
    (hinc : ∀ l, l < WARP_SIZE → ∀ i, i < ie l → i + WARP_SIZE < 2 ^ 32)
    (hcarry : ∀ l, l < WARP_SIZE → carry2 l = carry l)
    (hR : s.mem = t.mem ∧ s.sdata = t.sdata ∧ (∀ l, l < WARP_SIZE → s.i l = t.i l) ∧
      ∀ l, l < WARP_SIZE → s.val l = t.val l) :
    (exclusive_update_body32 op result tb ie2 alive2 carry2 s).mem
        = (exclusive_update_body op result tb ie alive carry t).mem ∧
      (exclusive_update_body32 op result tb ie2 alive2 carry2 s).sdata
        = (exclusive_update_body op result tb ie alive carry t).sdata ∧
      (∀ l, l < WARP_SIZE → (exclusive_update_body32 op result tb ie2 alive2 carry2 s).i l
        = (exclusive_update_body op result tb ie alive carry t).i l) ∧
      ∀ l, l < WARP_SIZE → (exclusive_update_body32 op result tb ie2 alive2 carry2 s).val l
        = (exclusive_update_body op result tb ie alive carry t).val l := by
  obtain ⟨si, sv, sm, ss⟩ := s
  obtain ⟨ti, tv, tm, ts⟩ := t
  obtain ⟨hm, hs, hi, hv⟩ := hR
  simp only at hm hs hi hv
  subst hm hs
  have hact : ∀ l, l < WARP_SIZE →
      exclusive_active ie2 alive2 ⟨si, sv, sm, ss⟩ l
        = exclusive_active ie alive ⟨ti, tv, sm, ss⟩ l := by
    intro l hl
    simp only [exclusive_active, hie l hl, hal l hl, hi l hl]
  have hsd : scatter ss (exclusive_active ie2 alive2 ⟨si, sv, sm, ss⟩) (fun l => tb + l)
        (fun l => op (carry2 l) (sm (result + si l)).1) WARP_SIZE
      = scatter ss (exclusive_active ie alive ⟨ti, tv, sm, ss⟩) (fun l => tb + l)
        (fun l => op (carry l) (sm (result + ti l)).1) WARP_SIZE := by
    funext a
    apply scatter_congr
    · exact hact
    · intro l hl _
      exact ⟨rfl, by rw [hi l hl, hcarry l hl]⟩
  refine ⟨?_, ?_, ?_, ?_⟩
  · funext a
    simp only [exclusive_update_body32, exclusive_update_body]
    rw [hsd]
    apply scatter_congr
    · exact hact
    · intro l hl _
      exact ⟨by rw [hi l hl], by rw [hv l hl]⟩
  · simp only [exclusive_update_body32, exclusive_update_body]
    exact hsd
  · intro l hl
    simp only [exclusive_update_body32, exclusive_update_body]
    rw [hact l hl]
    by_cases h : exclusive_active ie alive ⟨ti, tv, sm, ss⟩ l = true
    · rw [if_pos h, if_pos h, hi l hl]
      simp only [exclusive_active, Bool.and_eq_true, decide_eq_true_eq] at h
      exact u32_of_lt (hinc l hl _ h.2)
    · rw [if_neg h, if_neg h, hi l hl]
  · intro l hl
    simp only [exclusive_update_body32, exclusive_update_body]
    rw [hsd, hact l hl, hv l hl]

theorem exclusive_update_kernel32_eq (op : α → α → α) (BS result : Nat) (init : α)
    (n isz carry_in bid tb : Nat) (ms : Mem α × Shared α)
    (h : ∀ l, l < WARP_SIZE → NoWrap BS bid (tb + l) isz n) :
    exclusive_update_kernel32 op BS result init n isz carry_in bid tb ms
      = exclusive_update_kernel op BS result init n isz carry_in bid tb ms := by
  have hib : ∀ l, l < WARP_SIZE →
      interval_begin32 BS bid (tb + l) isz = interval_begin BS bid (tb + l) isz :=
    fun l hl => interval_begin32_eq _ _ _ _ _ (h l hl)
  have hie : ∀ l, l < WARP_SIZE →
      interval_end32 BS bid (tb + l) isz n = interval_end BS bid (tb + l) isz n :=
    fun l hl => interval_end32_eq _ _ _ _ _ (h l hl)
  have hi0 : ∀ l, l < WARP_SIZE →
      u32 (interval_begin32 BS bid (tb + l) isz + thread_lane (tb + l))
        = interval_begin BS bid (tb + l) isz + thread_lane (tb + l) := by
    intro l hl
    rw [hib l hl]
    exact u32_of_lt (h l hl).2.2.2.2.1
  have hal : ∀ l, l < WARP_SIZE →
      (!decide (n ≤ interval_begin32 BS bid (tb + l) isz))
        = !decide (n ≤ interval_begin BS bid (tb + l) isz) := by
    intro l hl
    rw [hib l hl]
  have hinc : ∀ l, l < WARP_SIZE → ∀ i, i < interval_end BS bid (tb + l) isz n →
      i + WARP_SIZE < 2 ^ 32 := fun l hl => (h l hl).2.2.2.2.2.2
  have hcarry : ∀ l, l < WARP_SIZE →
      (if warp_id32 BS bid (tb + l) = 0 then init
        else op init (ms.1 (carry_in + u32 (warp_id32 BS bid (tb + l) + (2 ^ 32 - 1)))).1)
      = (if warp_id BS bid (tb + l) = 0 then init
        else op init (ms.1 (carry_in + (warp_id BS bid (tb + l) - 1))).1) := by
    intro l hl
    by_cases hw : warp_id BS bid (tb + l) = 0
    · rw [if_pos hw, if_pos (by rw [warp_id32_eq _ _ _ _ _ (h l hl)]; exact hw)]
    · rw [if_neg hw, if_neg (by rw [warp_id32_eq _ _ _ _ _ (h l hl)]; exact hw),
        warp_pred32_eq _ _ _ _ _ (h l hl) hw]
  unfold exclusive_update_kernel32 exclusive_update_kernel
  dsimp only
  have hw := whileAny_rel
    (fun (s t : XState α) => s.mem = t.mem ∧ s.sdata = t.sdata ∧
      (∀ l, l < WARP_SIZE → s.i l = t.i l) ∧ ∀ l, l < WARP_SIZE → s.val l = t.val l)
    (exclusive_active (fun l => interval_end32 BS bid (tb + l) isz n)
      (fun l => !decide (n ≤ interval_begin32 BS bid (tb + l) isz)))
    (exclusive_update_body32 op result tb (fun l => interval_end32 BS bid (tb + l) isz n)
      (fun l => !decide (n ≤ interval_begin32 BS bid (tb + l) isz))
      (fun l => if warp_id32 BS bid (tb + l) = 0 then init
        else op init (ms.1 (carry_in + u32 (warp_id32 BS bid (tb + l) + (2 ^ 32 - 1)))).1))
    (exclusive_active (fun l => interval_end BS bid (tb + l) isz n)
      (fun l => !decide (n ≤ interval_begin BS bid (tb + l) isz)))
    (exclusive_update_body op result tb (fun l => interval_end BS bid (tb + l) isz n)
      (fun l => !decide (n ≤ interval_begin BS bid (tb + l) isz))
      (fun l => if warp_id BS bid (tb + l) = 0 then init
        else op init (ms.1 (carry_in + (warp_id BS bid (tb + l) - 1))).1))
    (by
      intro s t hR l hl
      simp only [exclusive_active, hie l hl, hib l hl, hR.2.2.1 l hl])
    (fun s t hR =>
      exclusive_update_body32_rel op result tb _ _ _ _ _ _ s t hie hal hinc hcarry hR)
    n
    ⟨fun l => u32 (interval_begin32 BS bid (tb + l) isz + thread_lane (tb + l)),
      fun l => if warp_id32 BS bid (tb + l) = 0 then init
        else op init (ms.1 (carry_in + u32 (warp_id32 BS bid (tb + l) + (2 ^ 32 - 1)))).1,
      ms.1, ms.2⟩
    ⟨fun l => interval_begin BS bid (tb + l) isz + thread_lane (tb + l),
      fun l => if warp_id BS bid (tb + l) = 0 then init
        else op init (ms.1 (carry_in + (warp_id BS bid (tb + l) - 1))).1,
      ms.1, ms.2⟩
    ⟨rfl, rfl, hi0, hcarry⟩
  rcases hw with ⟨e1, e2⟩ | ⟨s2, t2, e1, e2, hm, hs, _⟩
  · rw [e1, e2]
  · rw [e1, e2]
    simp only [Option.map_some']
    rw [hm, hs]

/-! ### No index computation wraps for `n ≤ 2 ^ 30` -/

theorem nowrap_of_bounds (BS bid tid isz n : Nat) (h1 : BS * bid + tid < 2 ^ 32)
    (h2 : (warp_id BS bid tid + 1) * isz + 32 ≤ 2 ^ 32) (h3 : n + 32 ≤ 2 ^ 32) :
    NoWrap BS bid tid isz n := by
  have e : (warp_id BS bid tid + 1) * isz = warp_id BS bid tid * isz + isz := by ring
  have hl : thread_lane tid < 32 := by rw [thread_lane_eq_mod]; omega
  have hie : interval_end BS bid tid isz n ≤ n := Nat.min_le_right _ _
  have hW : WARP_SIZE = 32 := rfl
  refine ⟨by omega, h1, by omega, ?_, ?_, by omega, fun i hi => by omega⟩
  · show warp_id BS bid tid * isz + isz < 2 ^ 32
    omega
  · show warp_id BS bid tid * isz + thread_lane tid < 2 ^ 32
    omega

theorem num_units_le (n : Nat) (hn : n ≤ 2 ^ 30) : num_units n ≤ 2 ^ 25 := by
  unfold num_units divide_into WARP_SIZE
  omega

theorem num_iters_eq_one (n MB : Nat) (hn : 1 ≤ n) (h : num_units n ≤ 8 * MB) :
    num_iters n MB = 1 := by
  have hu : 1 ≤ num_units n := by
    unfold num_units divide_into WARP_SIZE
    omega
  have hw : num_warps n MB = num_units n := by
    unfold num_warps WARPS_PER_BLOCK BLOCK_SIZE WARP_SIZE
    exact Nat.min_eq_left h
  unfold num_iters divide_into
  rw [hw]
  apply Nat.div_eq_of_lt_le <;> omega

theorem launched_warps_fit (n MB bid tid : Nat) (hn1 : 1 ≤ n) (hn : n ≤ 2 ^ 30)
    (hb : bid < num_blocks n MB) (ht : tid < BLOCK_SIZE) :
    BLOCK_SIZE * bid + tid < 2 ^ 31 ∧
      (warp_id BLOCK_SIZE bid tid + 1) * interval_size n MB ≤ 2 ^ 31 := by
  have hu := num_units_le n hn
  have hB : BLOCK_SIZE = 256 := rfl
  have hwl : num_warps n MB ≤ num_units n := Nat.min_le_left _ _
  have hnb : num_blocks n MB = (num_warps n MB + 7) / 8 := by
    unfold num_blocks divide_into WARPS_PER_BLOCK BLOCK_SIZE WARP_SIZE
    rfl
  have hW : warp_id BLOCK_SIZE bid tid = (256 * bid + tid) / 32 := rfl
  refine ⟨by rw [hB]; omega, ?_⟩
  rcases Nat.le_total (num_units n) (8 * MB) with hc | hc
  · have e : interval_size n MB = 32 := by
      unfold interval_size
      rw [num_iters_eq_one n MB hn1 hc]
      rfl
    rw [e]
    omega
  · have hw : num_warps n MB = 8 * MB := by
      unfold num_warps WARPS_PER_BLOCK BLOCK_SIZE WARP_SIZE
      exact Nat.min_eq_right hc
    have hle : warp_id BLOCK_SIZE bid tid + 1 ≤ num_warps n MB := by omega
    have h1 := Nat.mul_le_mul_right (interval_size n MB) hle
    have h2 : num_warps n MB * ((num_units n + num_warps n MB - 1) / num_warps n MB)
        ≤ num_units n + num_warps n MB - 1 := Nat.mul_div_le _ _
    have e : num_warps n MB * interval_size n MB
        = 32 * (num_warps n MB * ((num_units n + num_warps n MB - 1) / num_warps n MB)) := by
      unfold interval_size num_iters divide_into WARP_SIZE
      ring
    omega

theorem nowrap_launched (n MB bid tid : Nat) (hn1 : 1 ≤ n) (hn : n ≤ 2 ^ 30)
    (hb : bid < num_blocks n MB) (ht : tid < BLOCK_SIZE) :
    NoWrap BLOCK_SIZE bid tid (interval_size n MB) n := by
  obtain ⟨h1, h2⟩ := launched_warps_fit n MB bid tid hn1 hn hb ht
  exact nowrap_of_bounds _ _ _ _ _ (by omega) (by omega) (by omega)

theorem nowrap_second_level (nw tid : Nat) (hnw : nw ≤ 2 ^ 25) (ht : tid < WARP_SIZE) :
    NoWrap WARP_SIZE 0 tid nw nw := by
  have hW : WARP_SIZE = 32 := rfl
  have hw : warp_id WARP_SIZE 0 tid = 0 := by
    show (32 * 0 + tid) / 32 = 0
    omega
  apply nowrap_of_bounds
  · omega
  · rw [hw]; omega
  · omega

theorem sizes32_eq (n MB : Nat) (hn1 : 1 ≤ n) (hn : n ≤ 2 ^ 30)
    (hMB32 : 8 * MB < 2 ^ 32) :
    u32 n = n ∧ num_units32 n = num_units n ∧ num_warps32 n MB = num_warps n MB ∧
      num_blocks32 n MB = num_blocks n MB ∧ num_iters32 n MB = num_iters n MB ∧
      interval_size32 n MB = interval_size n MB := by
  have hu := num_units_le n hn
  have hwl : num_warps n MB ≤ num_units n := Nat.min_le_left _ _
  have e0 : u32 n = n := u32_of_lt (by omega)
  have e1 : num_units32 n = num_units n := u32_of_lt (show num_units n < 2 ^ 32 by omega)
  have e2 : num_warps32 n MB = num_warps n MB := by
    unfold num_warps32 num_warps
    rw [e1]
    have : WARPS_PER_BLOCK * MB = 8 * MB := rfl
    rw [this, u32_of_lt hMB32]
  have hnb : num_blocks n MB = (num_warps n MB + 7) / 8 := by
    unfold num_blocks divide_into WARPS_PER_BLOCK BLOCK_SIZE WARP_SIZE
    rfl
  have e3 : num_blocks32 n MB = num_blocks n MB := by
    unfold num_blocks32
    rw [e2]
    exact u32_of_lt (show num_blocks n MB < 2 ^ 32 by omega)
  have hni : num_iters n MB ≤ num_units n + num_warps n MB - 1 := Nat.div_le_self _ _
  have e4 : num_iters32 n MB = num_iters n MB := by
    unfold num_iters32
    rw [e1, e2]
    exact u32_of_lt (show num_iters n MB < 2 ^ 32 by omega)
  have e5 : interval_size32 n MB = interval_size n MB := by
    unfold interval_size32
    rw [e4]
    exact u32_of_lt (show 32 * num_iters n MB < 2 ^ 32 by omega)
  exact ⟨e0, e1, e2, e3, e4, e5⟩

theorem second_level_scan32_eq (op : α → α → α) (d nw : Nat) (scratch : Nat → Shared α)
    (mem : Mem α) (hnw : nw ≤ 2 ^ 25) :
    second_level_scan32 op d nw scratch mem = second_level_scan op d nw scratch mem := by
  unfold second_level_scan32 second_level_scan
  apply launch_congr
  intro b hb w hw ms
  have hb0 : b = 0 := by omega
  have hw0 : w = 0 := by
    have : WARP_SIZE / WARP_SIZE = 1 := rfl
    omega
  subst hb0 hw0
  apply kernel32_eq
  intro l hl
  have e : WARP_SIZE * 0 + l = l := by omega
  rw [e]
  exact nowrap_second_level nw l hnw hl

theorem launched_lanes_nowrap (n MB : Nat) (hn1 : 1 ≤ n) (hn : n ≤ 2 ^ 30)
    (b w : Nat) (hb : b < num_blocks n MB) (hw : w < BLOCK_SIZE / WARP_SIZE) (l : Nat)
    (hl : l < WARP_SIZE) :
    NoWrap BLOCK_SIZE b (WARP_SIZE * w + l) (interval_size n MB) n := by
  apply nowrap_launched n MB b _ hn1 hn hb
  have h1 : BLOCK_SIZE / WARP_SIZE = 8 := rfl
  have h2 : WARP_SIZE = 32 := rfl
  have h3 : BLOCK_SIZE = 256 := rfl
  simp only [h2, h3] at hw hl ⊢
  omega

theorem inclusive_scan32_eq (op : α → α → α) (MB first n result d : Nat)
    (s1 s2 : Nat → Shared α) (mem : Mem α) (hn1 : 1 ≤ n) (hn : n ≤ 2 ^ 30)
    (hMB32 : 8 * MB < 2 ^ 32) :
    inclusive_scan32 op MB first (first + n) result d s1 s2 mem
      = inclusive_scan op MB first (first + n) result d s1 s2 mem := by
  obtain ⟨e0, _, e2, e3, _, e5⟩ := sizes32_eq n MB hn1 hn hMB32
  have hu := num_units_le n hn
  have hwl : num_warps n MB ≤ num_units n := Nat.min_le_left _ _
  have hlw := launched_lanes_nowrap n MB hn1 hn
  have k1 : ∀ m, launch (num_blocks n MB) BLOCK_SIZE
        (kernel32 op BLOCK_SIZE first n result (interval_size n MB) d) s1 m
      = launch (num_blocks n MB) BLOCK_SIZE
        (kernel op BLOCK_SIZE first n result (interval_size n MB) d) s1 m := by
    intro m
    apply launch_congr
    intro b hb w hw ms
    exact kernel32_eq _ _ _ _ _ _ _ _ _ _ (hlw b w hb hw)
  have k2 : ∀ m, second_level_scan32 op d (num_warps n MB) s2 m
      = second_level_scan op d (num_warps n MB) s2 m :=
    fun m => second_level_scan32_eq op d _ s2 m (by omega)
  have k3 : ∀ m, launch (num_blocks n MB) BLOCK_SIZE
        (fun bid tb (ms : Mem α × Unit) =>
          (inclusive_update_kernel32 op BLOCK_SIZE result n (interval_size n MB) d bid tb
            ms.1).map fun m => (m, ()))
        (fun _ => ()) m
      = launch (num_blocks n MB) BLOCK_SIZE
        (fun bid tb (ms : Mem α × Unit) =>
          (inclusive_update_kernel op BLOCK_SIZE result n (interval_size n MB) d bid tb
            ms.1).map fun m => (m, ()))
        (fun _ => ()) m := by
    intro m
    apply launch_congr
    intro b hb w hw ms
    dsimp only
    rw [inclusive_update_kernel32_eq _ _ _ _ _ _ _ _ _ (hlw b w hb hw)]
  unfold inclusive_scan32 inclusive_scan
  simp only [Nat.add_sub_cancel_left, e0, e2, e3, e5, k1, k2, k3]

theorem exclusive_scan32_eq (op : α → α → α) (MB first n result : Nat) (init : α) (d : Nat)
    (s1 s2 s3 : Nat → Shared α) (mem : Mem α) (hn1 : 1 ≤ n) (hn : n ≤ 2 ^ 30)
    (hMB32 : 8 * MB < 2 ^ 32) :
    exclusive_scan32 op MB first (first + n) result init d s1 s2 s3 mem
      = exclusive_scan op MB first (first + n) result init d s1 s2 s3 mem := by
  obtain ⟨e0, _, e2, e3, _, e5⟩ := sizes32_eq n MB hn1 hn hMB32
  have hu := num_units_le n hn
  have hwl : num_warps n MB ≤ num_units n := Nat.min_le_left _ _
  have hlw := launched_lanes_nowrap n MB hn1 hn
  have k1 : ∀ m, launch (num_blocks n MB) BLOCK_SIZE
        (kernel32 op BLOCK_SIZE first n result (interval_size n MB) d) s1 m
      = launch (num_blocks n MB) BLOCK_SIZE
        (kernel op BLOCK_SIZE first n result (interval_size n MB) d) s1 m := by
    intro m
    apply launch_congr
    intro b hb w hw ms
    exact kernel32_eq _ _ _ _ _ _ _ _ _ _ (hlw b w hb hw)
  have k2 : ∀ m, second_level_scan32 op d (num_warps n MB) s2 m
      = second_level_scan op d (num_warps n MB) s2 m :=
    fun m => second_level_scan32_eq op d _ s2 m (by omega)
  have k3 : ∀ m, launch (num_blocks n MB) BLOCK_SIZE
        (exclusive_update_kernel32 op BLOCK_SIZE result init n (interval_size n MB) d) s3 m
      = launch (num_blocks n MB) BLOCK_SIZE
        (exclusive_update_kernel op BLOCK_SIZE result init n (interval_size n MB) d) s3 m := by
    intro m
    apply launch_congr
    intro b hb w hw ms
    exact exclusive_update_kernel32_eq _ _ _ _ _ _ _ _ _ _ (hlw b w hb hw)
  unfold exclusive_scan32 exclusive_scan
  simp only [Nat.add_sub_cancel_left, e0, e2, e3, e5, k1, k2, k3]

theorem thread_id32_wraps :
    thread_id32 BLOCK_SIZE (2 ^ 24) 5 = 5 ∧ thread_id BLOCK_SIZE (2 ^ 24) 5 = 2 ^ 32 + 5 := by
  constructor
  · norm_num [thread_id32, u32, BLOCK_SIZE]
  · norm_num [thread_id, BLOCK_SIZE]

/-- C21: for `1 ≤ n ≤ 2 ^ 30` and `1 ≤ MAX_BLOCKS` with `8 * MAX_BLOCKS < 2 ^ 32` no unsigned
32-bit index computation wraps.  The 32-bit sizes of the orchestrator are the unbounded ones
(and `num_warps`, the divisor of `num_iters`, is positive).  For every thread of every
launched block of stages 1 and 3, and for every thread of the stage-2 warp, `thread_id`,
`warp_id * interval_size`, `interval_begin + interval_size`, `interval_begin + thread_lane`,
`interval_end + 31` and `i + 32` at every position `i < interval_end` stay below `2 ^ 32`
(`NoWrap`), and the 32-bit `interval_begin` and `interval_end` are the unbounded ones.
Hence every launched warp of the three 32-bit kernels returns, from any state, what the
unbounded kernel returns (same stores at the same positions), and so do the entry points
`inclusive_scan` and `exclusive_scan`. -/
theorem no_index_wraps (op : α → α → α) (MB first n result : Nat) (init : α) (d : Nat)
    (s1 s2 s3 : Nat → Shared α) (mem : Mem α) (hn1 : 1 ≤ n) (hn : n ≤ 2 ^ 30)
    (hMB : 1 ≤ MB) (hMB32 : 8 * MB < 2 ^ 32) :
    (0 < num_warps n MB ∧ u32 n = n ∧ num_units32 n = num_units n ∧
      num_warps32 n MB = num_warps n MB ∧ num_blocks32 n MB = num_blocks n MB ∧
      num_iters32 n MB = num_iters n MB ∧ interval_size32 n MB = interval_size n MB) ∧
    (∀ bid tid, bid < num_blocks n MB → tid < BLOCK_SIZE →
      NoWrap BLOCK_SIZE bid tid (interval_size n MB) n ∧
      interval_begin32 BLOCK_SIZE bid tid (interval_size n MB)
        = interval_begin BLOCK_SIZE bid tid (interval_size n MB) ∧
      interval_end32 BLOCK_SIZE bid tid (interval_size n MB) n
        = interval_end BLOCK_SIZE bid tid (interval_size n MB) n) ∧
    (∀ tid, tid < WARP_SIZE →
      NoWrap WARP_SIZE 0 tid (num_warps n MB) (num_warps n MB) ∧
      interval_begin32 WARP_SIZE 0 tid (num_warps n MB)
        = interval_begin WARP_SIZE 0 tid (num_warps n MB) ∧
      interval_end32 WARP_SIZE 0 tid (num_warps n MB) (num_warps n MB)
        = interval_end WARP_SIZE 0 tid (num_warps n MB) (num_warps n MB)) ∧
    (∀ bid w (ms : Mem α × Shared α), bid < num_blocks n MB → w < BLOCK_SIZE / WARP_SIZE →
      kernel32 op BLOCK_SIZE first n result (interval_size n MB) d bid (WARP_SIZE * w) ms
        = kernel op BLOCK_SIZE first n result (interval_size n MB) d bid (WARP_SIZE * w) ms ∧
      inclusive_update_kernel32 op BLOCK_SIZE result n (interval_size n MB) d bid
          (WARP_SIZE * w) ms.1
        = inclusive_update_kernel op BLOCK_SIZE result n (interval_size n MB) d bid
          (WARP_SIZE * w) ms.1 ∧
      exclusive_update_kernel32 op BLOCK_SIZE result init n (interval_size n MB) d bid
          (WARP_SIZE * w) ms
        = exclusive_update_kernel op BLOCK_SIZE result init n (interval_size n MB) d bid
          (WARP_SIZE * w) ms) ∧
    (∀ m, second_level_scan32 op d (num_warps n MB) s2 m
      = second_level_scan op d (num_warps n MB) s2 m) ∧
    inclusive_scan32 op MB first (first + n) result d s1 s2 mem
      = inclusive_scan op MB first (first + n) result d s1 s2 mem ∧
    exclusive_scan32 op MB first (first + n) result init d s1 s2 s3 mem
      = exclusive_scan op MB first (first + n) result init d s1 s2 s3 mem := by
  have hu := num_units_le n hn
  have hwl : num_warps n MB ≤ num_units n := Nat.min_le_left _ _
  have hnw : num_warps n MB ≤ 2 ^ 25 := by omega
  refine ⟨⟨num_warps_pos n MB (by omega) (by omega), sizes32_eq n MB hn1 hn hMB32⟩, ?_, ?_, ?_,
    fun m => second_level_scan32_eq op d _ s2 m hnw,
    inclusive_scan32_eq op MB first n result d s1 s2 mem hn1 hn hMB32,
    exclusive_scan32_eq op MB first n result init d s1 s2 s3 mem hn1 hn hMB32⟩
  · intro bid tid hb ht
    have h := nowrap_launched n MB bid tid hn1 hn hb ht
    exact ⟨h, interval_begin32_eq _ _ _ _ _ h, interval_end32_eq _ _ _ _ _ h⟩
  · intro tid ht
    have h := nowrap_second_level (num_warps n MB) tid hnw ht
    exact ⟨h, interval_begin32_eq _ _ _ _ _ h, interval_end32_eq _ _ _ _ _ h⟩
  · intro bid w ms hb hw
    have h := launched_lanes_nowrap n MB hn1 hn bid w hb hw
    exact ⟨kernel32_eq _ _ _ _ _ _ _ _ _ _ h,
      inclusive_update_kernel32_eq _ _ _ _ _ _ _ _ _ h,
      exclusive_update_kernel32_eq _ _ _ _ _ _ _ _ _ _ h⟩

theorem no_index_wraps_witness :
    1 ≤ 257 ∧ 257 ≤ 2 ^ 30 ∧ 1 ≤ 1 ∧ 8 * 1 < 2 ^ 32 ∧
    ((0 < num_warps 257 1 ∧ u32 257 = 257 ∧ num_units32 257 = num_units 257 ∧
      num_warps32 257 1 = num_warps 257 1 ∧ num_blocks32 257 1 = num_blocks 257 1 ∧
      num_iters32 257 1 = num_iters 257 1 ∧ interval_size32 257 1 = interval_size 257 1) ∧
    (∀ bid tid, bid < num_blocks 257 1 → tid < BLOCK_SIZE →
      NoWrap BLOCK_SIZE bid tid (interval_size 257 1) 257 ∧
      interval_begin32 BLOCK_SIZE bid tid (interval_size 257 1)
        = interval_begin BLOCK_SIZE bid tid (interval_size 257 1) ∧
      interval_end32 BLOCK_SIZE bid tid (interval_size 257 1) 257
        = interval_end BLOCK_SIZE bid tid (interval_size 257 1) 257) ∧
    (∀ tid, tid < WARP_SIZE →
      NoWrap WARP_SIZE 0 tid (num_warps 257 1) (num_warps 257 1) ∧
      interval_begin32 WARP_SIZE 0 tid (num_warps 257 1)
        = interval_begin WARP_SIZE 0 tid (num_warps 257 1) ∧
      interval_end32 WARP_SIZE 0 tid (num_warps 257 1) (num_warps 257 1)
        = interval_end WARP_SIZE 0 tid (num_warps 257 1) (num_warps 257 1)) ∧
    (∀ bid w (ms : Mem Nat × Shared Nat), bid < num_blocks 257 1 →
      w < BLOCK_SIZE / WARP_SIZE →
      kernel32 (fun a b : Nat => a + b) BLOCK_SIZE 0 257 1000 (interval_size 257 1) 2000 bid
          (WARP_SIZE * w) ms
        = kernel (fun a b : Nat => a + b) BLOCK_SIZE 0 257 1000 (interval_size 257 1) 2000 bid
          (WARP_SIZE * w) ms ∧
      inclusive_update_kernel32 (fun a b : Nat => a + b) BLOCK_SIZE 1000 257
          (interval_size 257 1) 2000 bid (WARP_SIZE * w) ms.1
        = inclusive_update_kernel (fun a b : Nat => a + b) BLOCK_SIZE 1000 257
          (interval_size 257 1) 2000 bid (WARP_SIZE * w) ms.1 ∧
      exclusive_update_kernel32 (fun a b : Nat => a + b) BLOCK_SIZE 1000 5 257
          (interval_size 257 1) 2000 bid (WARP_SIZE * w) ms
        = exclusive_update_kernel (fun a b : Nat => a + b) BLOCK_SIZE 1000 5 257
          (interval_size 257 1) 2000 bid (WARP_SIZE * w) ms) ∧
    (∀ m, second_level_scan32 (fun a b : Nat => a + b) 2000 (num_warps 257 1) (fun _ _ => 0) m
      = second_level_scan (fun a b : Nat => a + b) 2000 (num_warps 257 1) (fun _ _ => 0) m) ∧
    inclusive_scan32 (fun a b : Nat => a + b) 1 0 (0 + 257) 1000 2000 (fun _ _ => 0)
        (fun _ _ => 0) (fun a => (a, false))
      = inclusive_scan (fun a b : Nat => a + b) 1 0 (0 + 257) 1000 2000 (fun _ _ => 0)
        (fun _ _ => 0) (fun a => (a, false)) ∧
    exclusive_scan32 (fun a b : Nat => a + b) 1 0 (0 + 257) 1000 5 2000 (fun _ _ => 0)
        (fun _ _ => 0) (fun _ _ => 0) (fun a => (a, false))
      = exclusive_scan (fun a b : Nat => a + b) 1 0 (0 + 257) 1000 5 2000 (fun _ _ => 0)
        (fun _ _ => 0) (fun _ _ => 0) (fun a => (a, false))) :=
  ⟨by decide, by decide, by decide, by decide,
    no_index_wraps (fun a b : Nat => a + b) 1 0 257 1000 5 2000 (fun _ _ => 0) (fun _ _ => 0)
      (fun _ _ => 0) (fun a => (a, false)) (by decide) (by decide) (by decide)
      (by decide)⟩

/-! ## The statements about the 32-bit program

The statements below are about the kernels and entry points with `unsigned int` index
arithmetic (`kernel32`, `inclusive_scan32`, ...), in the range where no index computation
wraps; outside that range they fail, as the inputs `n = 2 ^ 32 - 1` with
`MAX_BLOCKS = 120` and `MAX_BLOCKS = 8193` show. -/

theorem inclusive_scan32_agrees (op : α → α → α) (MB first n result d : Nat)
    (s1 s2 : Nat → Shared α) (mem : Mem α) (hn : n ≤ 2 ^ 30) (hMB32 : 8 * MB < 2 ^ 32) :
    inclusive_scan32 op MB first (first + n) result d s1 s2 mem
      = inclusive_scan op MB first (first + n) result d s1 s2 mem := by
  rcases Nat.eq_zero_or_pos n with h0 | h0
  · subst h0
    simp [inclusive_scan32, inclusive_scan]
  · exact inclusive_scan32_eq op MB first n result d s1 s2 mem h0 hn hMB32

theorem exclusive_scan32_agrees (op : α → α → α) (MB first n result : Nat) (init : α)
    (d : Nat) (s1 s2 s3 : Nat → Shared α) (mem : Mem α) (hn : n ≤ 2 ^ 30)
    (hMB32 : 8 * MB < 2 ^ 32) :
    exclusive_scan32 op MB first (first + n) result init d s1 s2 s3 mem
      = exclusive_scan op MB first (first + n) result init d s1 s2 s3 mem := by
  rcases Nat.eq_zero_or_pos n with h0 | h0
  · subst h0
    simp [exclusive_scan32, exclusive_scan]
  · exact exclusive_scan32_eq op MB first n result init d s1 s2 s3 mem h0 hn hMB32

theorem num_warps32_agrees (n MB : Nat) (hn : n ≤ 2 ^ 30) (hMB32 : 8 * MB < 2 ^ 32) :
    num_warps32 n MB = num_warps n MB := by
  have hu := num_units_le n hn
  have e1 : num_units32 n = num_units n := u32_of_lt (show num_units n < 2 ^ 32 by omega)
  unfold num_warps32 num_warps
  rw [e1]
  have : WARPS_PER_BLOCK * MB = 8 * MB := rfl
  rw [this, u32_of_lt hMB32]

/-- A launch of `nb ≤ 2 ^ 24` blocks whose `8 * nb` intervals of `isz` positions end below
`2 ^ 32 - 32`, on `n ≤ 2 ^ 32 - 32` elements: no index computation of any thread wraps. -/
theorem nowrap_of_launch_bounds (n isz nb bid tid : Nat) (hnb : nb ≤ 2 ^ 24)
    (hfit : 8 * nb * isz + 32 ≤ 2 ^ 32) (hn : n + 32 ≤ 2 ^ 32) (hb : bid < nb)
    (ht : tid < BLOCK_SIZE) : NoWrap BLOCK_SIZE bid tid isz n := by
  have hB : BLOCK_SIZE = 256 := rfl
  have hW : warp_id BLOCK_SIZE bid tid = (256 * bid + tid) / 32 := rfl
  apply nowrap_of_bounds
  · rw [hB]; omega
  · have hle : warp_id BLOCK_SIZE bid tid + 1 ≤ 8 * nb := by omega
    have := Nat.mul_le_mul_right isz hle
    omega
  · exact hn

theorem launch_lanes_nowrap (n isz nb : Nat) (hnb : nb ≤ 2 ^ 24)
    (hfit : 8 * nb * isz + 32 ≤ 2 ^ 32) (hn : n + 32 ≤ 2 ^ 32) (b w : Nat) (hb : b < nb)
    (hw : w < BLOCK_SIZE / WARP_SIZE) (l : Nat) (hl : l < WARP_SIZE) :
    NoWrap BLOCK_SIZE b (WARP_SIZE * w + l) isz n := by
  apply nowrap_of_launch_bounds n isz nb b _ hnb hfit hn hb
  have h1 : BLOCK_SIZE / WARP_SIZE = 8 := rfl
  have h2 : WARP_SIZE = 32 := rfl
  have h3 : BLOCK_SIZE = 256 := rfl
  simp only [h2, h3] at hw hl ⊢
  omega

theorem launch_kernel32_eq (op : α → α → α) (first n result isz d nb : Nat)
    (scratch : Nat → Shared α) (mem : Mem α) (hnb : nb ≤ 2 ^ 24)
    (hfit : 8 * nb * isz + 32 ≤ 2 ^ 32) (hn : n + 32 ≤ 2 ^ 32) :
    launch nb BLOCK_SIZE (kernel32 op BLOCK_SIZE first n result isz d) scratch mem
      = launch nb BLOCK_SIZE (kernel op BLOCK_SIZE first n result isz d) scratch mem := by
  apply launch_congr
  intro b hb w hw ms
  exact kernel32_eq _ _ _ _ _ _ _ _ _ _ (launch_lanes_nowrap n isz nb hnb hfit hn b w hb hw)

theorem launch_inclusive_update32_eq (op : α → α → α) (result n isz d nb : Nat)
    (mem : Mem α) (hnb : nb ≤ 2 ^ 24) (hfit : 8 * nb * isz + 32 ≤ 2 ^ 32)
    (hn : n + 32 ≤ 2 ^ 32) :
    launch nb BLOCK_SIZE
        (fun bid tb (ms : Mem α × Unit) =>
          (inclusive_update_kernel32 op BLOCK_SIZE result n isz d bid tb ms.1).map
            fun m => (m, ()))
        (fun _ => ()) mem
      = launch nb BLOCK_SIZE
        (fun bid tb (ms : Mem α × Unit) =>
          (inclusive_update_kernel op BLOCK_SIZE result n isz d bid tb ms.1).map
            fun m => (m, ()))
        (fun _ => ()) mem := by
  apply launch_congr
  intro b hb w hw ms
  dsimp only
  rw [inclusive_update_kernel32_eq _ _ _ _ _ _ _ _ _
    (launch_lanes_nowrap n isz nb hnb hfit hn b w hb hw)]

theorem launch_exclusive_update32_eq (op : α → α → α) (result : Nat) (init : α)
    (n isz d nb : Nat) (scratch : Nat → Shared α) (mem : Mem α) (hnb : nb ≤ 2 ^ 24)
    (hfit : 8 * nb * isz + 32 ≤ 2 ^ 32) (hn : n + 32 ≤ 2 ^ 32) :
    launch nb BLOCK_SIZE (exclusive_update_kernel32 op BLOCK_SIZE result init n isz d)
        scratch mem
      = launch nb BLOCK_SIZE (exclusive_update_kernel op BLOCK_SIZE result init n isz d)
        scratch mem := by
  apply launch_congr
  intro b hb w hw ms
  exact exclusive_update_kernel32_eq _ _ _ _ _ _ _ _ _ _
    (launch_lanes_nowrap n isz nb hnb hfit hn b w hb hw)

/-- The sizes the entry points choose for `1 ≤ n ≤ 2 ^ 30` satisfy the bounds of
`nowrap_of_launch_bounds`. -/
theorem entry_sizes_fit (n MB : Nat) (hn1 : 1 ≤ n) (hn : n ≤ 2 ^ 30) :
    num_blocks n MB ≤ 2 ^ 24 ∧
      8 * num_blocks n MB * interval_size n MB + 32 ≤ 2 ^ 32 ∧ n + 32 ≤ 2 ^ 32 := by
  have hu := num_units_le n hn
  have hwl : num_warps n MB ≤ num_units n := Nat.min_le_left _ _
  have hnb : num_blocks n MB = (num_warps n MB + 7) / 8 := by
    unfold num_blocks divide_into WARPS_PER_BLOCK BLOCK_SIZE WARP_SIZE
    rfl
  refine ⟨by omega, ?_, by omega⟩
  rcases Nat.eq_zero_or_pos (num_blocks n MB) with h0 | h0
  · rw [h0]; omega
  · have hB : BLOCK_SIZE = 256 := rfl
    have h := (launched_warps_fit n MB (num_blocks n MB - 1) 255 hn1 hn (by omega)
      (by rw [hB]; omega)).2
    have hW : warp_id BLOCK_SIZE (num_blocks n MB - 1) 255
        = (256 * (num_blocks n MB - 1) + 255) / 32 := rfl
    have e : warp_id BLOCK_SIZE (num_blocks n MB - 1) 255 + 1 = 8 * num_blocks n MB := by
      omega
    rw [e] at h
    omega

/-- C1, in the range without wrap-around: for every length `n ≤ 2 ^ 30`, every
`MAX_BLOCKS ≥ 1` with `8 * MAX_BLOCKS < 2 ^ 32` and every associative `op` (not assumed
commutative), the 32-bit `inclusive_scan` under the lock-step warp model returns and leaves
in `output[i]` the strictly left-to-right fold `op(...op(input[0], input[1])..., input[i])`,
for every `i < n`; the output range may be the input range or disjoint from it. -/
theorem inclusive_scan32_fold (op : α → α → α)
    (hop : ∀ a b c, op (op a b) c = op a (op b c))
    (MB first n result carry : Nat) (scratch1 scratch2 : Nat → Shared α) (mem : Mem α)
    (hMB : 1 ≤ MB) (hn30 : n ≤ 2 ^ 30) (hMB32 : 8 * MB < 2 ^ 32)
    (hwp : WellPlaced first n result carry (num_warps32 n MB)) :
    ∃ r, inclusive_scan32 op MB first (first + n) result carry scratch1 scratch2 mem
        = some r ∧
      ∀ i, i < n → (r.2 (result + i)).1 = lfold op (fun j => (mem (first + j)).1) 0 i := by
  rw [num_warps32_agrees n MB hn30 hMB32] at hwp
  rw [inclusive_scan32_agrees op MB first n result carry scratch1 scratch2 mem hn30 hMB32]
  exact inclusive_scan_fold op hop MB first n result carry scratch1 scratch2 mem hMB hwp

theorem inclusive_scan32_fold_witness :
    (∀ a b c : Nat, a + b + c = a + (b + c)) ∧ 1 ≤ 1 ∧ 289 ≤ 2 ^ 30 ∧ 8 * 1 < 2 ^ 32 ∧
    WellPlaced 0 289 1000 2000 (num_warps32 289 1) ∧
    ∃ r, inclusive_scan32 (fun a b : Nat => a + b) 1 0 (0 + 289) 1000 2000 (fun _ _ => 0)
        (fun _ _ => 0) (fun a => (a, false)) = some r ∧
      ∀ i, i < 289 → (r.2 (1000 + i)).1
        = lfold (fun a b : Nat => a + b)
            (fun j => ((fun a => (a, false) : Mem Nat) (0 + j)).1) 0 i :=
  ⟨Nat.add_assoc, by decide, by decide, by decide, by decide,
    inclusive_scan32_fold (fun a b : Nat => a + b) Nat.add_assoc 1 0 289 1000 2000
      (fun _ _ => 0) (fun _ _ => 0) (fun a => (a, false)) (by decide) (by decide)
      (by decide) (by decide)⟩

/-- C2, in the range without wrap-around: for every length `1 ≤ n ≤ 2 ^ 30`, every
`MAX_BLOCKS ≥ 1` with `8 * MAX_BLOCKS < 2 ^ 32`, every `init` and every associative `op` (not
assumed commutative), the 32-bit `exclusive_scan` returns and leaves `output[0] = init` and
`output[i] = op(output[i-1], input[i-1])` for every `0 < i < n`, where `input` is the input
as it was before the call. -/
theorem exclusive_scan32_recurrence (op : α → α → α)
    (hop : ∀ a b c, op (op a b) c = op a (op b c)) (MB first n result : Nat) (init : α)
    (carry : Nat) (scratch1 scratch2 scratch3 : Nat → Shared α) (mem : Mem α)
    (hn : 1 ≤ n) (hMB : 1 ≤ MB) (hn30 : n ≤ 2 ^ 30) (hMB32 : 8 * MB < 2 ^ 32)
    (hwp : WellPlaced first n result carry (num_warps32 n MB)) :
    ∃ r, exclusive_scan32 op MB first (first + n) result init carry scratch1 scratch2
        scratch3 mem = some r ∧
      (r.2 result).1 = init ∧
      ∀ i, 0 < i → i < n →
        (r.2 (result + i)).1 = op (r.2 (result + (i - 1))).1 (mem (first + (i - 1))).1 := by
  rw [num_warps32_agrees n MB hn30 hMB32] at hwp
  rw [exclusive_scan32_agrees op MB first n result init carry scratch1 scratch2 scratch3 mem
    hn30 hMB32]
  exact exclusive_scan_recurrence op hop MB first n result init carry scratch1 scratch2
    scratch3 mem hn hMB hwp

theorem exclusive_scan32_recurrence_witness :
    (∀ a b c : Nat, a + b + c = a + (b + c)) ∧ 1 ≤ 33 ∧ 1 ≤ 1 ∧ 33 ≤ 2 ^ 30 ∧
    8 * 1 < 2 ^ 32 ∧ WellPlaced 0 33 0 200 (num_warps32 33 1) ∧
    ∃ r, exclusive_scan32 (fun a b : Nat => a + b) 1 0 (0 + 33) 0 5 200 (fun _ _ => 0)
        (fun _ _ => 0) (fun _ _ => 0) (fun a => (a, false)) = some r ∧
      (r.2 0).1 = 5 ∧
      ∀ i, 0 < i → i < 33 →
        (r.2 (0 + i)).1
          = (r.2 (0 + (i - 1))).1 + ((fun a => (a, false) : Mem Nat) (0 + (i - 1))).1 :=
  ⟨Nat.add_assoc, by decide, by decide, by decide, by decide, by decide,
    exclusive_scan32_recurrence (fun a b : Nat => a + b) Nat.add_assoc 1 0 33 0 5 200
      (fun _ _ => 0) (fun _ _ => 0) (fun _ _ => 0) (fun a => (a, false)) (by decide)
      (by decide) (by decide) (by decide) (by decide)⟩

/-- C3, in the range without wrap-around: for every `n ≤ 2 ^ 30`, every `MAX_BLOCKS ≥ 1`
with `8 * MAX_BLOCKS < 2 ^ 32`, every `op` and `init`, the run of the 32-bit `inclusive_scan`
(resp. `exclusive_scan`) whose output range is its input range leaves in the positions
`[0, n)` exactly the cells that the run on the same memory with a separate output range
leaves in its output.  Associativity of `op` is not needed. -/
theorem scan32_in_place_eq_out_of_place (op : α → α → α) (MB first n result : Nat)
    (init : α) (carryI carryO : Nat) (s1 s2 s3 t1 t2 t3 : Nat → Shared α) (mem : Mem α)
    (hMB : 1 ≤ MB) (hn30 : n ≤ 2 ^ 30) (hMB32 : 8 * MB < 2 ^ 32)
    (hsep : result + n ≤ first ∨ first + n ≤ result)
    (hI : WellPlaced first n first carryI (num_warps32 n MB))
    (hO : WellPlaced first n result carryO (num_warps32 n MB)) :
    (∃ ri ro,
      inclusive_scan32 op MB first (first + n) first carryI s1 s2 mem = some ri ∧
      inclusive_scan32 op MB first (first + n) result carryO t1 t2 mem = some ro ∧
      ∀ i, i < n → ri.2 (first + i) = ro.2 (result + i)) ∧
    (∃ ri ro,
      exclusive_scan32 op MB first (first + n) first init carryI s1 s2 s3 mem = some ri ∧
      exclusive_scan32 op MB first (first + n) result init carryO t1 t2 t3 mem = some ro ∧
      ∀ i, i < n → ri.2 (first + i) = ro.2 (result + i)) := by
  rw [num_warps32_agrees n MB hn30 hMB32] at hI hO
  rw [inclusive_scan32_agrees op MB first n first carryI s1 s2 mem hn30 hMB32,
    inclusive_scan32_agrees op MB first n result carryO t1 t2 mem hn30 hMB32,
    exclusive_scan32_agrees op MB first n first init carryI s1 s2 s3 mem hn30 hMB32,
    exclusive_scan32_agrees op MB first n result init carryO t1 t2 t3 mem hn30 hMB32]
  exact scan_in_place_eq_out_of_place op MB first n result init carryI carryO s1 s2 s3 t1 t2
    t3 mem hMB hsep hI hO

theorem scan32_in_place_eq_out_of_place_witness :
    1 ≤ 1 ∧ 70 ≤ 2 ^ 30 ∧ 8 * 1 < 2 ^ 32 ∧ (100 + 70 ≤ 0 ∨ 0 + 70 ≤ 100) ∧
    WellPlaced 0 70 0 200 (num_warps32 70 1) ∧ WellPlaced 0 70 100 300 (num_warps32 70 1) ∧
    (∃ ri ro,
      inclusive_scan32 (fun a b : Nat => a + b) 1 0 (0 + 70) 0 200 (fun _ _ => 0)
        (fun _ _ => 0) (fun a => (a, false)) = some ri ∧
      inclusive_scan32 (fun a b : Nat => a + b) 1 0 (0 + 70) 100 300 (fun _ _ => 1)
        (fun _ _ => 1) (fun a => (a, false)) = some ro ∧
      ∀ i, i < 70 → ri.2 (0 + i) = ro.2 (100 + i)) ∧
    (∃ ri ro,
      exclusive_scan32 (fun a b : Nat => a + b) 1 0 (0 + 70) 0 5 200 (fun _ _ => 0)
        (fun _ _ => 0) (fun _ _ => 0) (fun a => (a, false)) = some ri ∧
      exclusive_scan32 (fun a b : Nat => a + b) 1 0 (0 + 70) 100 5 300 (fun _ _ => 1)
        (fun _ _ => 1) (fun _ _ => 1) (fun a => (a, false)) = some ro ∧
      ∀ i, i < 70 → ri.2 (0 + i) = ro.2 (100 + i)) :=
  ⟨by decide, by decide, by decide, by decide, by decide, by decide,
    scan32_in_place_eq_out_of_place (fun a b : Nat => a + b) 1 0 70 100 5 200 300
      (fun _ _ => 0) (fun _ _ => 0) (fun _ _ => 0) (fun _ _ => 1) (fun _ _ => 1)
      (fun _ _ => 1) (fun a => (a, false)) (by decide) (by decide) (by decide) (by decide)
      (by decide) (by decide)⟩

/-- C4, in the range without wrap-around: for every `1 ≤ n ≤ 2 ^ 30` and `MAX_BLOCKS ≥ 1`
with `8 * MAX_BLOCKS < 2 ^ 32`, the 32-bit `inclusive_scan` and `exclusive_scan` return the
output start advanced by `n`; every output position in `[0, n)` has been stored to; and no
cell outside the output range and the carry buffer is stored to by any stage: such a cell, in
particular an output element of index `≥ n`, keeps its value and its mark. -/
theorem scan32_frame (op : α → α → α) (MB first n result : Nat) (init : α) (carry : Nat)
    (s1 s2 s3 : Nat → Shared α) (mem : Mem α) (hn : 1 ≤ n) (hMB : 1 ≤ MB)
    (hn30 : n ≤ 2 ^ 30) (hMB32 : 8 * MB < 2 ^ 32)
    (hwp : WellPlaced first n result carry (num_warps32 n MB)) :
    (∃ m, inclusive_scan32 op MB first (first + n) result carry s1 s2 mem
        = some (result + n, m) ∧
      (∀ i, i < n → (m (result + i)).2 = true) ∧
      (∀ a, (a < result ∨ result + n ≤ a) → (a < carry ∨ carry + num_warps32 n MB ≤ a) →
        m a = mem a)) ∧
    (∃ m, exclusive_scan32 op MB first (first + n) result init carry s1 s2 s3 mem
        = some (result + n, m) ∧
      (∀ i, i < n → (m (result + i)).2 = true) ∧
      (∀ a, (a < result ∨ result + n ≤ a) → (a < carry ∨ carry + num_warps32 n MB ≤ a) →
        m a = mem a)) := by
  rw [num_warps32_agrees n MB hn30 hMB32] at hwp ⊢
  rw [inclusive_scan32_agrees op MB first n result carry s1 s2 mem hn30 hMB32,
    exclusive_scan32_agrees op MB first n result init carry s1 s2 s3 mem hn30 hMB32]
  exact scan_frame op MB first n result init carry s1 s2 s3 mem hn hMB hwp

theorem scan32_frame_witness :
    1 ≤ 70 ∧ 1 ≤ 1 ∧ 70 ≤ 2 ^ 30 ∧ 8 * 1 < 2 ^ 32 ∧
    WellPlaced 0 70 100 200 (num_warps32 70 1) ∧
    ((∃ m, inclusive_scan32 (fun a b : Nat => a + b) 1 0 (0 + 70) 100 200 (fun _ _ => 0)
        (fun _ _ => 0) (fun a => (a, false)) = some (100 + 70, m) ∧
      (∀ i, i < 70 → (m (100 + i)).2 = true) ∧
      (∀ a, (a < 100 ∨ 100 + 70 ≤ a) → (a < 200 ∨ 200 + num_warps32 70 1 ≤ a) →
        m a = (fun a => (a, false) : Mem Nat) a)) ∧
    (∃ m, exclusive_scan32 (fun a b : Nat => a + b) 1 0 (0 + 70) 100 5 200 (fun _ _ => 0)
        (fun _ _ => 0) (fun _ _ => 0) (fun a => (a, false)) = some (100 + 70, m) ∧
      (∀ i, i < 70 → (m (100 + i)).2 = true) ∧
      (∀ a, (a < 100 ∨ 100 + 70 ≤ a) → (a < 200 ∨ 200 + num_warps32 70 1 ≤ a) →
        m a = (fun a => (a, false) : Mem Nat) a))) :=
  ⟨by decide, by decide, by decide, by decide, by decide,
    scan32_frame (fun a b : Nat => a + b) 1 0 70 100 5 200 (fun _ _ => 0) (fun _ _ => 0)
      (fun _ _ => 0) (fun a => (a, false)) (by decide) (by decide) (by decide) (by decide)
      (by decide)⟩

/-- C6, in the range without wrap-around: for every `1 ≤ n ≤ 2 ^ 30`, `MAX_BLOCKS ≥ 1` with
`8 * MAX_BLOCKS < 2 ^ 32`, `init` and associative `op`, the result of the 32-bit
`exclusive_scan` is the result of the 32-bit `inclusive_scan` shifted by one position and
seeded with `init`: `exclusive[0] = init` and `exclusive[i] = op(init, inclusive[i-1])` for
`1 ≤ i < n`. -/
theorem exclusive32_eq_shifted_inclusive32 (op : α → α → α)
    (hop : ∀ a b c, op (op a b) c = op a (op b c)) (MB first n result : Nat) (init : α)
    (carry : Nat) (s1 s2 s3 : Nat → Shared α) (mem : Mem α) (hn : 1 ≤ n) (hMB : 1 ≤ MB)
    (hn30 : n ≤ 2 ^ 30) (hMB32 : 8 * MB < 2 ^ 32)
    (hwp : WellPlaced first n result carry (num_warps32 n MB)) :
    ∃ ri rx,
      inclusive_scan32 op MB first (first + n) result carry s1 s2 mem = some ri ∧
      exclusive_scan32 op MB first (first + n) result init carry s1 s2 s3 mem = some rx ∧
      (rx.2 result).1 = init ∧
      ∀ i, 1 ≤ i → i < n → (rx.2 (result + i)).1 = op init (ri.2 (result + (i - 1))).1 := by
  rw [num_warps32_agrees n MB hn30 hMB32] at hwp
  rw [inclusive_scan32_agrees op MB first n result carry s1 s2 mem hn30 hMB32,
    exclusive_scan32_agrees op MB first n result init carry s1 s2 s3 mem hn30 hMB32]
  exact exclusive_eq_shifted_inclusive op hop MB first n result init carry s1 s2 s3 mem hn
    hMB hwp

theorem exclusive32_eq_shifted_inclusive32_witness :
    (∀ a b c : Nat, a + b + c = a + (b + c)) ∧ 1 ≤ 70 ∧ 1 ≤ 1 ∧ 70 ≤ 2 ^ 30 ∧
    8 * 1 < 2 ^ 32 ∧ WellPlaced 0 70 100 200 (num_warps32 70 1) ∧
    ∃ ri rx,
      inclusive_scan32 (fun a b : Nat => a + b) 1 0 (0 + 70) 100 200 (fun _ _ => 0)
        (fun _ _ => 0) (fun a => (a, false)) = some ri ∧
      exclusive_scan32 (fun a b : Nat => a + b) 1 0 (0 + 70) 100 5 200 (fun _ _ => 0)
        (fun _ _ => 0) (fun _ _ => 0) (fun a => (a, false)) = some rx ∧
      (rx.2 100).1 = 5 ∧
      ∀ i, 1 ≤ i → i < 70 → (rx.2 (100 + i)).1 = 5 + (ri.2 (100 + (i - 1))).1 :=
  ⟨Nat.add_assoc, by decide, by decide, by decide, by decide, by decide,
    exclusive32_eq_shifted_inclusive32 (fun a b : Nat => a + b) Nat.add_assoc 1 0 70 100 5
      200 (fun _ _ => 0) (fun _ _ => 0) (fun _ _ => 0) (fun a => (a, false)) (by decide)
      (by decide) (by decide) (by decide) (by decide)⟩

/-- C20, in the range without wrap-around: the results of the 32-bit `inclusive_scan` and
`exclusive_scan` do not depend on what the carry buffer and the scratch arrays hold
initially: for every `n ≤ 2 ^ 30`, `MAX_BLOCKS ≥ 1` with `8 * MAX_BLOCKS < 2 ^ 32`, `op`
(associative or not) and `init`, two runs on memories that agree outside the carry buffer,
with any scratch contents, both return and leave the same cells in `output[0..n)`. -/
theorem scan32_independent_of_carry_and_scratch (op : α → α → α) (MB first n result : Nat)
    (init : α) (carry : Nat) (s1 s2 s3 t1 t2 t3 : Nat → Shared α) (mem mem' : Mem α)
    (hMB : 1 ≤ MB) (hn30 : n ≤ 2 ^ 30) (hMB32 : 8 * MB < 2 ^ 32)
    (hwp : WellPlaced first n result carry (num_warps32 n MB))
    (hagree : ∀ a, (a < carry ∨ carry + num_warps32 n MB ≤ a) → mem a = mem' a) :
    (∃ r r',
      inclusive_scan32 op MB first (first + n) result carry s1 s2 mem = some r ∧
      inclusive_scan32 op MB first (first + n) result carry t1 t2 mem' = some r' ∧
      ∀ i, i < n → r.2 (result + i) = r'.2 (result + i)) ∧
    (∃ r r',
      exclusive_scan32 op MB first (first + n) result init carry s1 s2 s3 mem = some r ∧
      exclusive_scan32 op MB first (first + n) result init carry t1 t2 t3 mem' = some r' ∧
      ∀ i, i < n → r.2 (result + i) = r'.2 (result + i)) := by
  rw [num_warps32_agrees n MB hn30 hMB32] at hwp hagree
  rw [inclusive_scan32_agrees op MB first n result carry s1 s2 mem hn30 hMB32,
    inclusive_scan32_agrees op MB first n result carry t1 t2 mem' hn30 hMB32,
    exclusive_scan32_agrees op MB first n result init carry s1 s2 s3 mem hn30 hMB32,
    exclusive_scan32_agrees op MB first n result init carry t1 t2 t3 mem' hn30 hMB32]
  exact scan_independent_of_carry_and_scratch op MB first n result init carry s1 s2 s3 t1 t2
    t3 mem mem' hMB hwp hagree

theorem scan32_independent_of_carry_and_scratch_witness :
    1 ≤ 1 ∧ 257 ≤ 2 ^ 30 ∧ 8 * 1 < 2 ^ 32 ∧
    WellPlaced 0 257 1000 2000 (num_warps32 257 1) ∧
    (∀ a, (a < 2000 ∨ 2000 + num_warps32 257 1 ≤ a) →
      (fun a => (a, false) : Mem Nat) a
        = (fun a => (if 2000 ≤ a ∧ a < 2008 then 0 else a, false) : Mem Nat) a) ∧
    ((∃ r r',
      inclusive_scan32 (fun a b : Nat => a - b) 1 0 (0 + 257) 1000 2000 (fun _ _ => 0)
        (fun _ _ => 0) (fun a => (a, false)) = some r ∧
      inclusive_scan32 (fun a b : Nat => a - b) 1 0 (0 + 257) 1000 2000 (fun _ _ => 1)
        (fun _ _ => 2) (fun a => (if 2000 ≤ a ∧ a < 2008 then 0 else a, false)) = some r' ∧
      ∀ i, i < 257 → r.2 (1000 + i) = r'.2 (1000 + i)) ∧
    (∃ r r',
      exclusive_scan32 (fun a b : Nat => a - b) 1 0 (0 + 257) 1000 5 2000 (fun _ _ => 0)
        (fun _ _ => 0) (fun _ _ => 0) (fun a => (a, false)) = some r ∧
      exclusive_scan32 (fun a b : Nat => a - b) 1 0 (0 + 257) 1000 5 2000 (fun _ _ => 1)
        (fun _ _ => 2) (fun _ _ => 3)
        (fun a => (if 2000 ≤ a ∧ a < 2008 then 0 else a, false)) = some r' ∧
      ∀ i, i < 257 → r.2 (1000 + i) = r'.2 (1000 + i))) :=
  have hag : ∀ a, (a < 2000 ∨ 2000 + num_warps32 257 1 ≤ a) →
      (fun a => (a, false) : Mem Nat) a
        = (fun a => (if 2000 ≤ a ∧ a < 2008 then 0 else a, false) : Mem Nat) a := by
    intro a ha
    have h8 : num_warps32 257 1 = 8 := by decide
    rw [h8] at ha
    have : ¬ (2000 ≤ a ∧ a < 2008) := by omega
    simp [this]
  ⟨by decide, by decide, by decide, by decide, hag,
    scan32_independent_of_carry_and_scratch (fun a b : Nat => a - b) 1 0 257 1000 5 2000
      (fun _ _ => 0) (fun _ _ => 0) (fun _ _ => 0) (fun _ _ => 1) (fun _ _ => 2)
      (fun _ _ => 3) (fun a => (a, false))
      (fun a => (if 2000 ≤ a ∧ a < 2008 then 0 else a, false)) (by decide) (by decide)
      (by decide) (by decide) hag⟩

/-- C17, in the range without wrap-around: the launch of the 32-bit
`exclusive_update_kernel` with `nb ≤ 2 ^ 24` blocks, `8 * nb * isz + 32 ≤ 2 ^ 32` and
`n + 32 ≤ 2 ^ 32`, for every `op`: for every launched group `g` with a non-empty interval
`[g * isz, min(g * isz + isz, n))` the incoming carry is `C_g = init` when `g == 0` and
`C_g = op(init, carry_in[g-1])` when `g > 0`; the first position of the interval receives
`C_g` itself and every other position `i` receives `op(C_g, L[i-1])`, where `L` is the
content of `result` before the launch, also across the boundaries of the 32-element
chunks. -/
theorem exclusive_update32_shift (op : α → α → α) (result : Nat) (init : α)
    (n isz carry nb : Nat) (scratch : Nat → Shared α) (m2 : Mem α)
    (hnb : nb ≤ 2 ^ 24) (hfit : 8 * nb * isz + 32 ≤ 2 ^ 32) (hn32 : n + 32 ≤ 2 ^ 32)
    (hco : ∀ g i, g * isz < n → i < n → carry + g ≠ result + i) :
    ∃ m3, launch nb BLOCK_SIZE
        (exclusive_update_kernel32 op BLOCK_SIZE result init n isz carry) scratch m2
        = some m3 ∧
      ∀ g, g < 8 * nb → g * isz < min (g * isz + isz) n →
        m3 (result + g * isz)
          = (if g = 0 then init else op init (m2 (carry + (g - 1))).1, true) ∧
        ∀ i, g * isz < i → i < min (g * isz + isz) n →
          m3 (result + i)
            = (op (if g = 0 then init else op init (m2 (carry + (g - 1))).1)
                (m2 (result + (i - 1))).1, true) := by
  rw [launch_exclusive_update32_eq op result init n isz carry nb scratch m2 hnb hfit hn32]
  exact exclusive_update_shift op result init n isz carry nb scratch m2 hco

theorem exclusive_update32_shift_witness :
    1 ≤ 2 ^ 24 ∧ 8 * 1 * 64 + 32 ≤ 2 ^ 32 ∧ 257 + 32 ≤ 2 ^ 32 ∧
    (∀ g i, g * 64 < 257 → i < 257 → 2000 + g ≠ 1000 + i) ∧
    ∃ m3, launch 1 BLOCK_SIZE
        (exclusive_update_kernel32 (fun a b : Nat => a - b) BLOCK_SIZE 1000 5 257 64 2000)
        (fun _ _ => 0) (fun a => (a, false)) = some m3 ∧
      ∀ g, g < 8 * 1 → g * 64 < min (g * 64 + 64) 257 →
        m3 (1000 + g * 64)
          = (if g = 0 then 5 else 5 - ((fun a => (a, false) : Mem Nat) (2000 + (g - 1))).1,
              true) ∧
        ∀ i, g * 64 < i → i < min (g * 64 + 64) 257 →
          m3 (1000 + i)
            = ((if g = 0 then 5 else 5 - ((fun a => (a, false) : Mem Nat) (2000 + (g - 1))).1)
                - ((fun a => (a, false) : Mem Nat) (1000 + (i - 1))).1, true) :=
  ⟨by decide, by decide, by decide, fun g i _ _ => by omega,
    exclusive_update32_shift (fun a b : Nat => a - b) 1000 5 257 64 2000 1 (fun _ _ => 0)
      (fun a => (a, false)) (by decide) (by decide) (by decide) (fun g i _ _ => by omega)⟩

/-- C13, as the 32-bit code has it in the range without wrap-around: for every
`1 ≤ n ≤ 2 ^ 30` and `MAX_BLOCKS ≥ 1` with `8 * MAX_BLOCKS < 2 ^ 32`, after the first launch
a carry slot `j < numGroups` has been stored to by stage 1 when `j * intervalSize < n` and is
as the allocator left it when `n ≤ j * intervalSize`; stage 2 scans all `numGroups` slots,
written or not: it leaves in slot `j` the lane-parallel scan of the slots `0..j` as stage 1
left them (their left fold when `op` is associative); every slot an update kernel reads,
`carry_in[g-1]` for a group `g ≥ 1` with `g * intervalSize < n`, is of the first kind, and
the value stage 2 leaves in it is determined by the input alone. -/
theorem carry_slots_written32 (op : α → α → α) (MB first n result carry : Nat)
    (scratch1 scratch2 : Nat → Shared α) (mem : Mem α) (hn : 1 ≤ n) (hMB : 1 ≤ MB)
    (hn30 : n ≤ 2 ^ 30) (hMB32 : 8 * MB < 2 ^ 32)
    (hwp : WellPlaced first n result carry (num_warps32 n MB)) :
    ∃ m1 m2,
      launch (num_blocks32 n MB) BLOCK_SIZE
        (kernel32 op BLOCK_SIZE first (u32 n) result (interval_size32 n MB) carry) scratch1
        mem = some m1 ∧
      second_level_scan32 op carry (num_warps32 n MB) scratch2 m1 = some m2 ∧
      (∀ j, j < num_warps32 n MB → j * interval_size32 n MB < n →
        (m1 (carry + j)).2 = true) ∧
      (∀ j, j < num_warps32 n MB → n ≤ j * interval_size32 n MB →
        m1 (carry + j) = mem (carry + j)) ∧
      (∀ j, j < num_warps32 n MB →
        m2 (carry + j)
          = (chunkScan op (fun k => (m1 (carry + k)).1) 0 (j / 32) (j % 32), true)) ∧
      ((∀ a b c, op (op a b) c = op a (op b c)) → ∀ j, j < num_warps32 n MB →
        m2 (carry + j) = (lfold op (fun k => (m1 (carry + k)).1) 0 j, true)) ∧
      (∀ g, 1 ≤ g → g * interval_size32 n MB < n →
        g - 1 < num_warps32 n MB ∧ (g - 1) * interval_size32 n MB < n ∧
        m2 (carry + (g - 1))
          = (carryScan op (fun j => (mem (first + j)).1) (interval_size32 n MB) (g - 1),
              true)) := by
  obtain ⟨e0, _, e2, e3, _, e5⟩ := sizes32_eq n MB hn hn30 hMB32
  obtain ⟨f1, f2, f3⟩ := entry_sizes_fit n MB hn hn30
  have hu := num_units_le n hn30
  have hwl : num_warps n MB ≤ num_units n := Nat.min_le_left _ _
  rw [e2] at hwp
  rw [e0, e2, e3, e5]
  obtain ⟨m1, m2, hl1, hl2, h1, h2, h3⟩ := carry_slots_written op MB first n result carry
    scratch1 scratch2 mem hn hMB hwp
  obtain ⟨m2', hl2', hs, _⟩ := second_level_scan_spec op carry (num_warps n MB)
    (num_warps_pos n MB (by omega) (by omega)) scratch2 m1
  have hm : m2' = m2 := by
    rw [hl2] at hl2'
    exact (Option.some.inj hl2').symm
  subst hm
  refine ⟨m1, m2', ?_, ?_, h1, h2, hs, ?_, h3⟩
  · rw [launch_kernel32_eq op first n result (interval_size n MB) carry (num_blocks n MB)
      scratch1 mem f1 f2 f3]
    exact hl1
  · rw [second_level_scan32_eq op carry (num_warps n MB) scratch2 m1 (by omega)]
    exact hl2
  · intro hop j hj
    rw [hs j hj]
    have := chunkScan_pos op hop (fun k => (m1 (carry + k)).1) 0 j
    rw [Nat.sub_zero] at this
    rw [this]

theorem carry_slots_written32_witness :
    1 ≤ 257 ∧ 1 ≤ 1 ∧ 257 ≤ 2 ^ 30 ∧ 8 * 1 < 2 ^ 32 ∧
    WellPlaced 0 257 1000 2000 (num_warps32 257 1) ∧
    ∃ m1 m2,
      launch (num_blocks32 257 1) BLOCK_SIZE
        (kernel32 (fun a b : Nat => a + b) BLOCK_SIZE 0 (u32 257) 1000
          (interval_size32 257 1) 2000)
        (fun _ _ => 0) (fun a => (a, false)) = some m1 ∧
      second_level_scan32 (fun a b : Nat => a + b) 2000 (num_warps32 257 1) (fun _ _ => 0) m1
        = some m2 ∧
      (∀ j, j < num_warps32 257 1 → j * interval_size32 257 1 < 257 →
        (m1 (2000 + j)).2 = true) ∧
      (∀ j, j < num_warps32 257 1 → 257 ≤ j * interval_size32 257 1 →
        m1 (2000 + j) = (fun a => (a, false) : Mem Nat) (2000 + j)) ∧
      (∀ j, j < num_warps32 257 1 →
        m2 (2000 + j)
          = (chunkScan (fun a b : Nat => a + b) (fun k => (m1 (2000 + k)).1) 0 (j / 32)
              (j % 32), true)) ∧
      ((∀ a b c : Nat, a + b + c = a + (b + c)) → ∀ j, j < num_warps32 257 1 →
        m2 (2000 + j)
          = (lfold (fun a b : Nat => a + b) (fun k => (m1 (2000 + k)).1) 0 j, true)) ∧
      (∀ g, 1 ≤ g → g * interval_size32 257 1 < 257 →
        g - 1 < num_warps32 257 1 ∧ (g - 1) * interval_size32 257 1 < 257 ∧
        m2 (2000 + (g - 1))
          = (carryScan (fun a b : Nat => a + b)
              (fun j => ((fun a => (a, false) : Mem Nat) (0 + j)).1) (interval_size32 257 1)
              (g - 1), true)) :=
  ⟨by decide, by decide, by decide, by decide, by decide,
    carry_slots_written32 (fun a b : Nat => a + b) 1 0 257 1000 2000 (fun _ _ => 0)
      (fun _ _ => 0) (fun a => (a, false)) (by decide) (by decide) (by decide) (by decide)
      (by decide)⟩

/-- C15, as the 32-bit code has it in the range without wrap-around: for every
`1 ≤ n ≤ 2 ^ 30` and `MAX_BLOCKS ≥ 1` with `8 * MAX_BLOCKS < 2 ^ 32`, a launched group `g`
(the warp of a thread of a launched block) with `(g+1) * intervalSize ≤ n` has an interval of
length exactly `numIters * 32`; a group with
`g * intervalSize < n < (g+1) * intervalSize` has the shorter interval
`[g * intervalSize, n)`, and there is at most one such group; a group with
`n ≤ g * intervalSize` has an empty interval. -/
theorem interval_lengths32 (n MB : Nat) (hn : 1 ≤ n) (hMB : 1 ≤ MB) (hn30 : n ≤ 2 ^ 30)
    (hMB32 : 8 * MB < 2 ^ 32) (bid tid : Nat) (hb : bid < num_blocks32 n MB)
    (ht : tid < BLOCK_SIZE) :
    ((warp_id32 BLOCK_SIZE bid tid + 1) * interval_size32 n MB ≤ n →
      interval_length32 BLOCK_SIZE bid tid (interval_size32 n MB) (u32 n)
        = num_iters32 n MB * 32) ∧
    (warp_id32 BLOCK_SIZE bid tid * interval_size32 n MB < n →
      n < (warp_id32 BLOCK_SIZE bid tid + 1) * interval_size32 n MB →
      interval_length32 BLOCK_SIZE bid tid (interval_size32 n MB) (u32 n)
          = n - warp_id32 BLOCK_SIZE bid tid * interval_size32 n MB ∧
        interval_length32 BLOCK_SIZE bid tid (interval_size32 n MB) (u32 n)
          < num_iters32 n MB * 32 ∧
        warp_id32 BLOCK_SIZE bid tid = (n - 1) / interval_size32 n MB) ∧
    (n ≤ warp_id32 BLOCK_SIZE bid tid * interval_size32 n MB →
      interval_length32 BLOCK_SIZE bid tid (interval_size32 n MB) (u32 n) = 0) := by
  obtain ⟨e0, _, _, e3, e4, e5⟩ := sizes32_eq n MB hn hn30 hMB32
  rw [e3] at hb
  have h := nowrap_launched n MB bid tid hn hn30 hb ht
  have el : interval_length32 BLOCK_SIZE bid tid (interval_size n MB) n
      = interval_length BLOCK_SIZE bid tid (interval_size n MB) n := by
    unfold interval_length32 interval_length
    rw [interval_end32_eq _ _ _ _ _ h, interval_begin32_eq _ _ _ _ _ h]
  rw [e0, e4, e5, warp_id32_eq _ _ _ _ _ h, el]
  exact interval_lengths n MB hn hMB bid tid

theorem interval_lengths32_witness :
    1 ≤ 257 ∧ 1 ≤ 1 ∧ 257 ≤ 2 ^ 30 ∧ 8 * 1 < 2 ^ 32 ∧ 0 < num_blocks32 257 1 ∧
    128 < BLOCK_SIZE ∧
    (((warp_id32 BLOCK_SIZE 0 128 + 1) * interval_size32 257 1 ≤ 257 →
      interval_length32 BLOCK_SIZE 0 128 (interval_size32 257 1) (u32 257)
        = num_iters32 257 1 * 32) ∧
    (warp_id32 BLOCK_SIZE 0 128 * interval_size32 257 1 < 257 →
      257 < (warp_id32 BLOCK_SIZE 0 128 + 1) * interval_size32 257 1 →
      interval_length32 BLOCK_SIZE 0 128 (interval_size32 257 1) (u32 257)
          = 257 - warp_id32 BLOCK_SIZE 0 128 * interval_size32 257 1 ∧
        interval_length32 BLOCK_SIZE 0 128 (interval_size32 257 1) (u32 257)
          < num_iters32 257 1 * 32 ∧
        warp_id32 BLOCK_SIZE 0 128 = (257 - 1) / interval_size32 257 1) ∧
    (257 ≤ warp_id32 BLOCK_SIZE 0 128 * interval_size32 257 1 →
      interval_length32 BLOCK_SIZE 0 128 (interval_size32 257 1) (u32 257) = 0)) :=
  ⟨by decide, by decide, by decide, by decide, by decide, by decide,
    interval_lengths32 257 1 (by decide) (by decide) (by decide) (by decide) 0 128
      (by decide) (by decide)⟩

/-- C16, in the range without wrap-around: the launch of the 32-bit
`inclusive_update_kernel` made by `inclusive_scan` (`1 ≤ n ≤ 2 ^ 30`, `MAX_BLOCKS ≥ 1` with
`8 * MAX_BLOCKS < 2 ^ 32`, carry buffer off the output range) returns and stores to exactly
the output positions in `[intervalSize, n)`: each of them, position `i` of group
`g = i / intervalSize ≥ 1`, becomes `op(carry_in[g-1], old result[i])` with the carry as the
left operand; every other cell, in particular the interval `[0, min(intervalSize, n))` of the
first group, keeps value and mark; so on an output range without marks exactly
`n - intervalSize` positions end up marked. -/
theorem inclusive_update32_writes (op : α → α → α) (MB n result carry : Nat) (m2 : Mem α)
    (hn : 1 ≤ n) (hMB : 1 ≤ MB) (hn30 : n ≤ 2 ^ 30) (hMB32 : 8 * MB < 2 ^ 32)
    (hco : carry + num_warps32 n MB ≤ result ∨ result + n ≤ carry) :
    ∃ m3, launch (num_blocks32 n MB) BLOCK_SIZE
        (fun bid tb (ms : Mem α × Unit) =>
          (inclusive_update_kernel32 op BLOCK_SIZE result (u32 n) (interval_size32 n MB)
            carry bid tb ms.1).map fun m => (m, ()))
        (fun _ => ()) m2 = some m3 ∧
      (∀ i, interval_size32 n MB ≤ i → i < n →
        m3 (result + i)
          = (op (m2 (carry + (i / interval_size32 n MB - 1))).1 (m2 (result + i)).1, true)) ∧
      (∀ a, (∀ i, interval_size32 n MB ≤ i → i < n → a ≠ result + i) → m3 a = m2 a) ∧
      (∀ i, i < min (interval_size32 n MB) n → m3 (result + i) = m2 (result + i)) ∧
      ((∀ i, i < n → (m2 (result + i)).2 = false) →
        ((Finset.range n).filter (fun i => (m3 (result + i)).2 = true)).card
          = n - interval_size32 n MB) := by
  obtain ⟨e0, _, e2, e3, _, e5⟩ := sizes32_eq n MB hn hn30 hMB32
  obtain ⟨f1, f2, f3⟩ := entry_sizes_fit n MB hn hn30
  rw [e2] at hco
  rw [e0, e3, e5, launch_inclusive_update32_eq op result n (interval_size n MB) carry
    (num_blocks n MB) m2 f1 f2 f3]
  exact inclusive_update_writes op MB n result carry m2 hn hMB hco

theorem inclusive_update32_writes_witness :
    1 ≤ 257 ∧ 1 ≤ 1 ∧ 257 ≤ 2 ^ 30 ∧ 8 * 1 < 2 ^ 32 ∧
    (2000 + num_warps32 257 1 ≤ 1000 ∨ 1000 + 257 ≤ 2000) ∧
    ∃ m3, launch (num_blocks32 257 1) BLOCK_SIZE
        (fun bid tb (ms : Mem Nat × Unit) =>
          (inclusive_update_kernel32 (fun a b : Nat => a + b) BLOCK_SIZE 1000 (u32 257)
            (interval_size32 257 1) 2000 bid tb ms.1).map fun m => (m, ()))
        (fun _ => ()) (fun a => (a, false)) = some m3 ∧
      (∀ i, interval_size32 257 1 ≤ i → i < 257 →
        m3 (1000 + i)
          = (((fun a => (a, false) : Mem Nat) (2000 + (i / interval_size32 257 1 - 1))).1
              + ((fun a => (a, false) : Mem Nat) (1000 + i)).1, true)) ∧
      (∀ a, (∀ i, interval_size32 257 1 ≤ i → i < 257 → a ≠ 1000 + i) →
        m3 a = (fun a => (a, false) : Mem Nat) a) ∧
      (∀ i, i < min (interval_size32 257 1) 257 →
        m3 (1000 + i) = (fun a => (a, false) : Mem Nat) (1000 + i)) ∧
      ((∀ i, i < 257 → ((fun a => (a, false) : Mem Nat) (1000 + i)).2 = false) →
        ((Finset.range 257).filter (fun i => (m3 (1000 + i)).2 = true)).card
          = 257 - interval_size32 257 1) :=
  ⟨by decide, by decide, by decide, by decide, by decide,
    inclusive_update32_writes (fun a b : Nat => a + b) 1 257 1000 2000 (fun a => (a, false))
      (by decide) (by decide) (by decide) (by decide) (by decide)⟩

theorem scatter_cases {β : Type} (m : Nat → β) (en : Nat → Bool) (addr : Nat → Nat)
    (v : Nat → β) (k a : Nat) :
    scatter m en addr v k a = m a ∨
      ∃ l, l < k ∧ en l = true ∧ addr l = a ∧ scatter m en addr v k a = v l := by
  induction k with
  | zero => left; rfl
  | succ k ih =>
    by_cases h : en k = true ∧ addr k = a
    · right
      exact ⟨k, by omega, h.1, h.2, by simp only [scatter, h, and_self, if_true]⟩
    · have e : scatter m en addr v (k + 1) a = scatter m en addr v k a := by
        simp only [scatter, h, if_false]
      rw [e]
      rcases ih with h1 | ⟨l, hl, h2, h3, h4⟩
      · left; exact h1
      · right; exact ⟨l, by omega, h2, h3, h4⟩

theorem forUpTo_cond_inv {σ : Type} (f : Nat → σ → Option σ) (Q : Nat → σ → Prop) (k : Nat)
    (hstep : ∀ j, j < k → ∀ s s', Q j s → f j s = some s' → Q (j + 1) s') :
    ∀ s s', Q 0 s → forUpTo f k s = some s' → Q k s' := by
  induction k with
  | zero =>
    intro s s' h0 h
    simp only [forUpTo, Option.some.injEq] at h
    rw [← h]; exact h0
  | succ k ih =>
    intro s s' h0 h
    simp only [forUpTo, Option.bind_eq_some] at h
    obtain ⟨s1, h1, h2⟩ := h
    exact hstep k (by omega) s1 s' (ih (fun j hj => hstep j (by omega)) s s1 h0 h1) h2

/-- A property indexed by the number of warps that have run, together with a property of the
scratch array, is carried through every launch that returns. -/
theorem launch_cond_inv {σ : Type} (nb W : Nat)
    (kern : Nat → Nat → Mem α × σ → Option (Mem α × σ)) (scratch : Nat → σ)
    (P : Nat → Mem α → Prop) (Q : σ → Prop) (hQ : ∀ b, b < nb → Q (scratch b))
    (hstep : ∀ b w, b < nb → w < W → ∀ ms ms', P (W * b + w) ms.1 → Q ms.2 →
      kern b (32 * w) ms = some ms' → P (W * b + w + 1) ms'.1 ∧ Q ms'.2)
    (m m' : Mem α) (h0 : P 0 m) (h : launch nb (32 * W) kern scratch m = some m') :
    P (W * nb) m' := by
  unfold launch at h
  refine forUpTo_cond_inv (fun b m => runBlock (32 * W) (kern b) m (scratch b))
    (fun b m => P (W * b) m) nb ?_ m m' h0 h
  intro b hb m1 m2 hP hr
  unfold runBlock at hr
  simp only [Option.map_eq_some'] at hr
  obtain ⟨s, hs, rfl⟩ := hr
  have hW : 32 * W / WARP_SIZE = W := by
    show 32 * W / 32 = W
    omega
  rw [hW] at hs
  have := forUpTo_cond_inv (fun w s => kern b (WARP_SIZE * w) s)
    (fun w (s : Mem α × σ) => P (W * b + w) s.1 ∧ Q s.2) W
    (fun w hw s s' hPs hk => hstep b w hb hw s s' hPs.1 hPs.2 hk)
    (m1, scratch b) s ⟨hP, hQ b hb⟩ hs
  have e : W * (b + 1) = W * b + W := by ring
  rw [e]
  exact this.1

theorem launch_preserves {σ : Type} (nb W : Nat)
    (kern : Nat → Nat → Mem α × σ → Option (Mem α × σ)) (scratch : Nat → σ)
    (P : Mem α → Prop)
    (hstep : ∀ b w, b < nb → w < W → ∀ ms ms', P ms.1 → kern b (32 * w) ms = some ms' →
      P ms'.1)
    (m m' : Mem α) (h0 : P m) (h : launch nb (32 * W) kern scratch m = some m') : P m' :=
  launch_cond_inv nb W kern scratch (fun _ m => P m) (fun _ => True) (fun _ _ => trivial)
    (fun b w hb hw ms ms' hP _ hk => ⟨hstep b w hb hw ms ms' hP hk, trivial⟩) m m' h0 h

/-- The cells a warp of the 32-bit `kernel` can store to, whatever the sizes. -/
theorem kernel32_frame (op : α → α → α) (BS first n result isz fc bid tb : Nat)
    (ms ms' : Mem α × Shared α) (a : Nat)
    (hk : kernel32 op BS first n result isz fc bid tb ms = some ms')
    (hres : ∀ l, l < WARP_SIZE →
      u32 (interval_begin32 BS bid (tb + l) isz + thread_lane (tb + l))
        < interval_end32 BS bid (tb + l) isz n →
      ∀ i, i < interval_end32 BS bid (tb + l) isz n → a ≠ result + i)
    (hcar : ∀ l, l < WARP_SIZE →
      u32 (interval_begin32 BS bid (tb + l) isz + thread_lane (tb + l))
        < interval_end32 BS bid (tb + l) isz n →
      a ≠ fc + warp_id32 BS bid (tb + l)) :
    ms'.1 a = ms.1 a := by
  unfold kernel32 at hk
  simp only [Option.map_eq_some'] at hk
  obtain ⟨s, hs, rfl⟩ := hk
  have hact : ∀ (t : KState α) l,
      kernel_active (fun l => interval_end32 BS bid (tb + l) isz n)
        (fun l => !decide (interval_end32 BS bid (tb + l) isz n
          ≤ u32 (interval_begin32 BS bid (tb + l) isz + thread_lane (tb + l)))) t l = true →
      u32 (interval_begin32 BS bid (tb + l) isz + thread_lane (tb + l))
          < interval_end32 BS bid (tb + l) isz n ∧
        t.i l < interval_end32 BS bid (tb + l) isz n := by
    intro t l h
    simp only [kernel_active, Bool.and_eq_true, Bool.not_eq_true', decide_eq_false_iff_not,
      decide_eq_true_eq] at h
    exact ⟨by omega, h.2⟩
  have hP := whileAny_preserves _ _ (fun t : KState α => t.mem a = ms.1 a)
    (by
      intro t ht
      show (kernel_body32 op first result tb _ _ t).mem a = ms.1 a
      rw [← ht]
      simp only [kernel_body32]
      apply scatter_miss
      intro l hl hen heq
      obtain ⟨h1, h2⟩ := hact t l hen
      exact hres l hl h1 _ h2 heq.symm)
    n _ s
    (by
      show (kernel_first32 op first result tb _ _ _).mem a = ms.1 a
      simp only [kernel_first32]
      apply scatter_miss
      intro l hl hen heq
      obtain ⟨h1, h2⟩ := hact _ l hen
      exact hres l hl h1 _ h2 heq.symm)
    hs
  simp only
  rw [← hP]
  apply scatter_miss
  intro l hl hen heq
  simp only [kernel_carry_lane32, Bool.and_eq_true, Bool.not_eq_true', decide_eq_false_iff_not,
    decide_eq_true_eq] at hen
  exact hcar l hl (by omega) heq.symm

/-- The cells a warp of the 32-bit `inclusive_update_kernel` can store to. -/
theorem inclusive_update_kernel32_frame (op : α → α → α)
    (BS result n isz carry_in bid tb : Nat) (mem m' : Mem α) (a : Nat)
    (hk : inclusive_update_kernel32 op BS result n isz carry_in bid tb mem = some m')
    (hres : ∀ l, l < WARP_SIZE → ∀ i, i < interval_end32 BS bid (tb + l) isz n →
      a ≠ result + i) :
    m' a = mem a := by
  unfold inclusive_update_kernel32 at hk
  simp only [Option.map_eq_some'] at hk
  obtain ⟨s, hs, rfl⟩ := hk
  exact whileAny_preserves _ _ (fun t : UState α => t.mem a = mem a)
    (by
      intro t ht
      show (inclusive_update_body32 op result _ _ _ t).mem a = mem a
      rw [← ht]
      simp only [inclusive_update_body32]
      apply scatter_miss
      intro l hl hen heq
      simp only [update_active, Bool.and_eq_true, decide_eq_true_eq] at hen
      exact hres l hl _ hen.2 heq.symm)
    n _ s rfl hs

/-- The cells a warp of the 32-bit `exclusive_update_kernel` can store to. -/
theorem exclusive_update_kernel32_frame (op : α → α → α) (BS result : Nat) (init : α)
    (n isz carry_in bid tb : Nat) (ms ms' : Mem α × Shared α) (a : Nat)
    (hk : exclusive_update_kernel32 op BS result init n isz carry_in bid tb ms = some ms')
    (hres : ∀ l, l < WARP_SIZE → ∀ i, i < interval_end32 BS bid (tb + l) isz n →
      a ≠ result + i) :
    ms'.1 a = ms.1 a := by
  unfold exclusive_update_kernel32 at hk
  simp only [Option.map_eq_some'] at hk
  obtain ⟨s, hs, rfl⟩ := hk
  exact whileAny_preserves _ _ (fun t : XState α => t.mem a = ms.1 a)
    (by
      intro t ht
      show (exclusive_update_body32 op result tb _ _ _ t).mem a = ms.1 a
      rw [← ht]
      simp only [exclusive_update_body32]
      apply scatter_miss
      intro l hl hen heq
      simp only [exclusive_active, Bool.and_eq_true, decide_eq_true_eq] at hen
      exact hres l hl _ hen.2 heq.symm)
    n _ s rfl hs

theorem interval_end32_le (BS bid tid isz n : Nat) : interval_end32 BS bid tid isz n ≤ n :=
  Nat.min_le_right _ _

/-- The 32-bit second-level scan stores only to the carry slots `0 .. nw - 1`. -/
theorem second_level_scan32_frame (op : α → α → α) (d nw : Nat) (scratch : Nat → Shared α)
    (m m' : Mem α) (a : Nat) (hnw : 0 < nw)
    (h : second_level_scan32 op d nw scratch m = some m') (ha : a < d ∨ d + nw ≤ a) :
    m' a = m a := by
  unfold second_level_scan32 at h
  refine launch_preserves 1 1 _ scratch (fun x => x a = m a) ?_ m m' rfl h
  intro b w hb hw ms ms' hP hk
  have hb0 : b = 0 := by omega
  have hw0 : w = 0 := by omega
  subst hb0 hw0
  rw [← hP]
  refine kernel32_frame op WARP_SIZE d nw d nw (d + nw - 1) 0 (32 * 0) ms ms' a hk ?_ ?_
  · intro l _ _ i hi
    have := interval_end32_le WARP_SIZE 0 (32 * 0 + l) nw nw
    omega
  · intro l hl _
    have hW : WARP_SIZE = 32 := rfl
    have e : warp_id32 WARP_SIZE 0 (32 * 0 + l) = 0 := by
      simp only [warp_id32, thread_id32, u32, hW]
      omega
    rw [e]
    omega

/-! ### The input `n = 2 ^ 32 - 1`, `MAX_BLOCKS = 120`

`numGroups = 960`, `intervalSize = 4473952`.  For group 959 the sum
`interval_begin + interval_size = 960 * 4473952` wraps to `26624`, so `interval_end = 26624`
lies below `interval_begin = 4290519968` and every lane returns at once: no stage stores to
an output position `≥ 4290519968`, nor to carry slot 959. -/

theorem wrap120_sizes :
    u32 4294967295 = 4294967295 ∧ num_warps32 4294967295 120 = 960 ∧
      num_blocks32 4294967295 120 = 120 ∧ interval_size32 4294967295 120 = 4473952 := by
  decide

theorem wrap120_intervals (bid tid : Nat) (hb : bid < 120) (ht : tid < 256) :
    interval_end32 BLOCK_SIZE bid tid 4473952 4294967295 ≤ 4290519968 ∧
      (u32 (interval_begin32 BLOCK_SIZE bid tid 4473952 + thread_lane tid)
          < interval_end32 BLOCK_SIZE bid tid 4473952 4294967295 →
        warp_id32 BLOCK_SIZE bid tid < 959) := by
  have ht32 : thread_id32 BLOCK_SIZE bid tid = 256 * bid + tid := by
    simp only [thread_id32, u32, BLOCK_SIZE]
    omega
  have hw : warp_id32 BLOCK_SIZE bid tid = (256 * bid + tid) / 32 := by
    unfold warp_id32
    rw [ht32]
    rfl
  have hw959 : (256 * bid + tid) / 32 ≤ 959 := by omega
  have hib : interval_begin32 BLOCK_SIZE bid tid 4473952
      = (256 * bid + tid) / 32 * 4473952 := by
    unfold interval_begin32
    rw [hw]
    unfold u32
    omega
  have hl : thread_lane tid < 32 := by rw [thread_lane_eq_mod]; omega
  unfold interval_end32
  rw [hib, hw]
  rcases Nat.lt_or_ge ((256 * bid + tid) / 32) 959 with h | h
  · refine ⟨?_, fun _ => h⟩
    have hlt : (256 * bid + tid) / 32 * 4473952 + 4473952 < 2 ^ 32 := by omega
    rw [u32_of_lt hlt]
    have := Nat.min_le_left ((256 * bid + tid) / 32 * 4473952 + 4473952) 4294967295
    omega
  · have e : (256 * bid + tid) / 32 = 959 := by omega
    rw [e]
    have e1 : u32 (959 * 4473952 + 4473952) = 26624 := by decide
    have e2 : u32 (959 * 4473952 + thread_lane tid) = 959 * 4473952 + thread_lane tid := by
      unfold u32
      omega
    rw [e1, e2]
    refine ⟨by omega, fun h2 => ?_⟩
    omega

theorem wrap120_stage1 (op : α → α → α) (first result d : Nat) (scratch : Nat → Shared α)
    (m m' : Mem α)
    (h : launch 120 BLOCK_SIZE (kernel32 op BLOCK_SIZE first 4294967295 result 4473952 d)
      scratch m = some m')
    (a : Nat) (hres : ∀ i, i < 4290519968 → a ≠ result + i)
    (hcar : ∀ g, g < 959 → a ≠ d + g) : m' a = m a := by
  refine launch_preserves 120 8 _ scratch (fun x => x a = m a) ?_ m m' rfl h
  intro b w hb hw ms ms' hP hk
  rw [← hP]
  have hW : WARP_SIZE = 32 := rfl
  refine kernel32_frame op BLOCK_SIZE first 4294967295 result 4473952 d b (32 * w) ms ms' a
    hk ?_ ?_
  · intro l hl _ i hi
    have := (wrap120_intervals b (32 * w + l) hb (by omega)).1
    exact hres i (by omega)
  · intro l hl hal
    have := (wrap120_intervals b (32 * w + l) hb (by omega)).2 hal
    exact hcar _ this

theorem wrap120_inclusive_update (op : α → α → α) (result d : Nat) (m m' : Mem α)
    (h : launch 120 BLOCK_SIZE
      (fun bid tb (ms : Mem α × Unit) =>
        (inclusive_update_kernel32 op BLOCK_SIZE result 4294967295 4473952 d bid tb
          ms.1).map fun m => (m, ()))
      (fun _ => ()) m = some m')
    (a : Nat) (hres : ∀ i, i < 4290519968 → a ≠ result + i) : m' a = m a := by
  refine launch_preserves 120 8 _ (fun _ => ()) (fun x => x a = m a) ?_ m m' rfl h
  intro b w hb hw ms ms' hP hk
  rw [← hP]
  have hW : WARP_SIZE = 32 := rfl
  simp only [Option.map_eq_some'] at hk
  obtain ⟨m1, hk1, rfl⟩ := hk
  refine inclusive_update_kernel32_frame op BLOCK_SIZE result 4294967295 4473952 d b (32 * w)
    ms.1 m1 a hk1 ?_
  intro l hl i hi
  have := (wrap120_intervals b (32 * w + l) hb (by omega)).1
  exact hres i (by omega)

theorem wrap120_exclusive_update (op : α → α → α) (result : Nat) (init : α) (d : Nat)
    (scratch : Nat → Shared α) (m m' : Mem α)
    (h : launch 120 BLOCK_SIZE
      (exclusive_update_kernel32 op BLOCK_SIZE result init 4294967295 4473952 d) scratch m
      = some m')
    (a : Nat) (hres : ∀ i, i < 4290519968 → a ≠ result + i) : m' a = m a := by
  refine launch_preserves 120 8 _ scratch (fun x => x a = m a) ?_ m m' rfl h
  intro b w hb hw ms ms' hP hk
  rw [← hP]
  have hW : WARP_SIZE = 32 := rfl
  refine exclusive_update_kernel32_frame op BLOCK_SIZE result init 4294967295 4473952 d b
    (32 * w) ms ms' a hk ?_
  intro l hl i hi
  have := (wrap120_intervals b (32 * w + l) hb (by omega)).1
  exact hres i (by omega)

/-- For `n = 2 ^ 32 - 1` and `MAX_BLOCKS = 120`, whatever the 32-bit `inclusive_scan`
returns, a cell that is neither an output position below `4290519968` nor a carry slot is as
it was. -/
theorem wrap120_inclusive_scan (op : α → α → α) (first result d : Nat)
    (s1 s2 : Nat → Shared α) (mem : Mem α) (r : Nat × Mem α)
    (h : inclusive_scan32 op 120 first (first + 4294967295) result d s1 s2 mem = some r)
    (a : Nat) (hres : ∀ i, i < 4290519968 → a ≠ result + i) (hcar : a < d ∨ d + 960 ≤ a) :
    r.2 a = mem a := by
  obtain ⟨e0, e2, e3, e5⟩ := wrap120_sizes
  unfold inclusive_scan32 at h
  simp only [Nat.add_sub_cancel_left, e0, e2, e3, e5] at h
  rw [if_neg (by decide)] at h
  simp only [Option.bind_eq_some] at h
  obtain ⟨m1, h1, m2, h2, m3, h3, hr⟩ := h
  rw [← Option.some.inj hr]
  show m3 a = mem a
  rw [wrap120_inclusive_update op result d m2 m3 h3 a hres,
    second_level_scan32_frame op d 960 s2 m1 m2 a (by decide) h2 hcar,
    wrap120_stage1 op first result d s1 mem m1 h1 a hres (fun g hg => by omega)]

/-- For `n = 2 ^ 32 - 1` and `MAX_BLOCKS = 120`, whatever the 32-bit `exclusive_scan`
returns, a cell that is neither an output position below `4290519968` nor a carry slot is as
it was. -/
theorem wrap120_exclusive_scan (op : α → α → α) (first result : Nat) (init : α) (d : Nat)
    (s1 s2 s3 : Nat → Shared α) (mem : Mem α) (r : Nat × Mem α)
    (h : exclusive_scan32 op 120 first (first + 4294967295) result init d s1 s2 s3 mem
      = some r)
    (a : Nat) (hres : ∀ i, i < 4290519968 → a ≠ result + i) (hcar : a < d ∨ d + 960 ≤ a) :
    r.2 a = mem a := by
  obtain ⟨e0, e2, e3, e5⟩ := wrap120_sizes
  unfold exclusive_scan32 at h
  simp only [Nat.add_sub_cancel_left, e0, e2, e3, e5] at h
  rw [if_neg (by decide)] at h
  simp only [Option.bind_eq_some] at h
  obtain ⟨m1, h1, m2, h2, m3, h3, hr⟩ := h
  rw [← Option.some.inj hr]
  show m3 a = mem a
  rw [wrap120_exclusive_update op result init d s3 m2 m3 h3 a hres,
    second_level_scan32_frame op d 960 s2 m1 m2 a (by decide) h2 hcar,
    wrap120_stage1 op first result d s1 mem m1 h1 a hres (fun g hg => by omega)]

/-! ### A wrapped warp runs as the warp whose interval it lands on -/

/-- A warp of the 32-bit `kernel` whose 32-bit interval and start positions are those of the
warp of block `bid2` in the unbounded model runs as that warp, with its own carry slot. -/
theorem kernel32_sim (op : α → α → α) (BS first n result isz fc fc2 bid bid2 tb : Nat)
    (ms : Mem α × Shared α)
    (hie : ∀ l, l < WARP_SIZE →
      interval_end32 BS bid (tb + l) isz n = interval_end BS bid2 (tb + l) isz n)
    (hi0 : ∀ l, l < WARP_SIZE →
      u32 (interval_begin32 BS bid (tb + l) isz + thread_lane (tb + l))
        = interval_begin BS bid2 (tb + l) isz + thread_lane (tb + l))
    (hinc : ∀ l, l < WARP_SIZE → ∀ i, i < interval_end BS bid2 (tb + l) isz n →
      i + WARP_SIZE < 2 ^ 32)
    (h31 : ∀ l, l < WARP_SIZE →
      interval_end BS bid2 (tb + l) isz n + (WARP_SIZE - 1) < 2 ^ 32)
    (hfc : ∀ l, l < WARP_SIZE →
      fc + warp_id32 BS bid (tb + l) = fc2 + warp_id BS bid2 (tb + l)) :
    kernel32 op BS first n result isz fc bid tb ms
      = kernel op BS first n result isz fc2 bid2 tb ms := by
  have hal : ∀ l, l < WARP_SIZE →
      (!decide (interval_end32 BS bid (tb + l) isz n
          ≤ u32 (interval_begin32 BS bid (tb + l) isz + thread_lane (tb + l))))
        = !decide (interval_end BS bid2 (tb + l) isz n
          ≤ interval_begin BS bid2 (tb + l) isz + thread_lane (tb + l)) := by
    intro l hl
    rw [hie l hl, hi0 l hl]
  unfold kernel32 kernel
  dsimp only
  have h1 := kernel_first32_rel op first result tb _ _ _ _
    ⟨fun l => u32 (interval_begin32 BS bid (tb + l) isz + thread_lane (tb + l)), ms.1, ms.2⟩
    ⟨fun l => interval_begin BS bid2 (tb + l) isz + thread_lane (tb + l), ms.1, ms.2⟩
    hie hal hinc ⟨rfl, rfl, hi0⟩
  have hw := whileAny_rel
    (fun (s t : KState α) => s.mem = t.mem ∧ s.sdata = t.sdata ∧
      ∀ l, l < WARP_SIZE → s.i l = t.i l)
    (kernel_active (fun l => interval_end32 BS bid (tb + l) isz n)
      (fun l => !decide (interval_end32 BS bid (tb + l) isz n
          ≤ u32 (interval_begin32 BS bid (tb + l) isz + thread_lane (tb + l)))))
    (kernel_body32 op first result tb (fun l => interval_end32 BS bid (tb + l) isz n)
      (fun l => !decide (interval_end32 BS bid (tb + l) isz n
          ≤ u32 (interval_begin32 BS bid (tb + l) isz + thread_lane (tb + l)))))
    (kernel_active (fun l => interval_end BS bid2 (tb + l) isz n)
      (fun l => !decide (interval_end BS bid2 (tb + l) isz n
          ≤ interval_begin BS bid2 (tb + l) isz + thread_lane (tb + l))))
    (kernel_body op first result tb (fun l => interval_end BS bid2 (tb + l) isz n)
      (fun l => !decide (interval_end BS bid2 (tb + l) isz n
          ≤ interval_begin BS bid2 (tb + l) isz + thread_lane (tb + l))))
    (by
      intro s t hR l hl
      simp only [kernel_active, hie l hl, hal l hl, hR.2.2 l hl, hi0 l hl])
    (fun s t hR => kernel_body32_rel op first result tb _ _ _ _ s t hie hal hinc hR)
    n _ _ h1
  rcases hw with ⟨e1, e2⟩ | ⟨s2, t2, e1, e2, hm, hs, hi⟩
  · rw [e1, e2]; rfl
  · rw [e1, e2]
    simp only [Option.map_some']
    congr 1
    refine Prod.ext ?_ hs
    funext a
    simp only
    rw [hm, hs]
    apply scatter_congr
    · intro l hl
      simp only [kernel_carry_lane32, kernel_carry_lane, hie l hl, hi0 l hl, hi l hl]
      rw [u32_of_lt (h31 l hl)]
    · intro l hl _
      exact ⟨hfc l hl, rfl⟩

/-- A warp of the 32-bit `inclusive_update_kernel` whose 32-bit interval, start positions and
carry are those of the warp of block `bid2` in the unbounded model runs as that warp. -/
theorem inclusive_update_kernel32_sim (op : α → α → α)
    (BS result n isz carry_in carry_in2 bid bid2 tb : Nat) (mem : Mem α)
    (hib : ∀ l, l < WARP_SIZE →
      interval_begin32 BS bid (tb + l) isz = interval_begin BS bid2 (tb + l) isz)
    (hie : ∀ l, l < WARP_SIZE →
      interval_end32 BS bid (tb + l) isz n = interval_end BS bid2 (tb + l) isz n)
    (hi0 : ∀ l, l < WARP_SIZE →
      interval_begin BS bid2 (tb + l) isz + thread_lane (tb + l) < 2 ^ 32)
    (hinc : ∀ l, l < WARP_SIZE → ∀ i, i < interval_end BS bid2 (tb + l) isz n →
      i + WARP_SIZE < 2 ^ 32)
    (hc : ∀ l, l < WARP_SIZE →
      carry_in + u32 (warp_id32 BS bid (tb + l) + (2 ^ 32 - 1))
        = carry_in2 + (warp_id BS bid2 (tb + l) - 1)) :
    inclusive_update_kernel32 op BS result n isz carry_in bid tb mem
      = inclusive_update_kernel op BS result n isz carry_in2 bid2 tb mem := by
  have hi0' : ∀ l, l < WARP_SIZE →
      u32 (interval_begin32 BS bid (tb + l) isz + thread_lane (tb + l))
        = interval_begin BS bid2 (tb + l) isz + thread_lane (tb + l) := by
    intro l hl
    rw [hib l hl]
    exact u32_of_lt (hi0 l hl)
  have hal : ∀ l, l < WARP_SIZE →
      (!(decide (interval_begin32 BS bid (tb + l) isz = 0)
          || decide (n ≤ interval_begin32 BS bid (tb + l) isz)))
        = !(decide (interval_begin BS bid2 (tb + l) isz = 0)
          || decide (n ≤ interval_begin BS bid2 (tb + l) isz)) := by
    intro l hl
    rw [hib l hl]
  have hcarry : ∀ l, l < WARP_SIZE →
      (!(decide (interval_begin BS bid2 (tb + l) isz = 0)
          || decide (n ≤ interval_begin BS bid2 (tb + l) isz))) = true →
      (mem (carry_in + u32 (warp_id32 BS bid (tb + l) + (2 ^ 32 - 1)))).1
        = (mem (carry_in2 + (warp_id BS bid2 (tb + l) - 1))).1 := by
    intro l hl _
    rw [hc l hl]
  unfold inclusive_update_kernel32 inclusive_update_kernel
  dsimp only
  have hw := whileAny_rel
    (fun (s t : UState α) => s.mem = t.mem ∧ ∀ l, l < WARP_SIZE → s.i l = t.i l)
    (update_active (fun l => interval_end32 BS bid (tb + l) isz n)
      (fun l => !(decide (interval_begin32 BS bid (tb + l) isz = 0)
          || decide (n ≤ interval_begin32 BS bid (tb + l) isz))))
    (inclusive_update_body32 op result (fun l => interval_end32 BS bid (tb + l) isz n)
      (fun l => !(decide (interval_begin32 BS bid (tb + l) isz = 0)
          || decide (n ≤ interval_begin32 BS bid (tb + l) isz)))
      (fun l => (mem (carry_in + u32 (warp_id32 BS bid (tb + l) + (2 ^ 32 - 1)))).1))
    (update_active (fun l => interval_end BS bid2 (tb + l) isz n)
      (fun l => !(decide (interval_begin BS bid2 (tb + l) isz = 0)
          || decide (n ≤ interval_begin BS bid2 (tb + l) isz))))
    (inclusive_update_body op result (fun l => interval_end BS bid2 (tb + l) isz n)
      (fun l => !(decide (interval_begin BS bid2 (tb + l) isz = 0)
          || decide (n ≤ interval_begin BS bid2 (tb + l) isz)))
      (fun l => (mem (carry_in2 + (warp_id BS bid2 (tb + l) - 1))).1))
    (by
      intro s t hR l hl
      simp only [update_active, hie l hl, hib l hl, hR.2 l hl])
    (fun s t hR => inclusive_update_body32_rel op result _ _ _ _ _ _ s t hie hal hinc hcarry hR)
    n
    ⟨fun l => u32 (interval_begin32 BS bid (tb + l) isz + thread_lane (tb + l)), mem⟩
    ⟨fun l => interval_begin BS bid2 (tb + l) isz + thread_lane (tb + l), mem⟩
    ⟨rfl, hi0'⟩
  rcases hw with ⟨e1, e2⟩ | ⟨s2, t2, e1, e2, hm, _⟩
  · rw [e1, e2]
  · rw [e1, e2]
    simp only [Option.map_some']
    rw [hm]

/-! ### Values closed under `op`, and sums that only grow -/

theorem scan_warp_step_closed (op : α → α → α) (S : α → Prop)
    (hS : ∀ x y, S x → S y → S (op x y)) (tb : Nat) (act : Nat → Bool) (off : Nat)
    (vs : (Nat → α) × Shared α) (h1 : ∀ l, S (vs.1 l)) (h2 : ∀ x, S (vs.2 x)) :
    (∀ l, S ((scan_warp_step op tb act off vs).1 l)) ∧
      ∀ x, S ((scan_warp_step op tb act off vs).2 x) := by
  have hv : ∀ l, S ((scan_warp_step op tb act off vs).1 l) := by
    intro l
    simp only [scan_warp_step]
    split
    · exact hS _ _ (h2 _) (h1 l)
    · exact h1 l
  refine ⟨hv, fun x => ?_⟩
  have key : (scan_warp_step op tb act off vs).2 x
      = scatter vs.2 (fun l => act l && decide (off ≤ thread_lane (tb + l)))
          (fun l => tb + l) (scan_warp_step op tb act off vs).1 WARP_SIZE x := rfl
  rw [key]
  rcases scatter_cases vs.2 (fun l => act l && decide (off ≤ thread_lane (tb + l)))
    (fun l => tb + l) (scan_warp_step op tb act off vs).1 WARP_SIZE x with h | ⟨l, _, _, _, h⟩
  · rw [h]; exact h2 x
  · rw [h]; exact hv l

theorem scan_warp_closed (op : α → α → α) (S : α → Prop)
    (hS : ∀ x y, S x → S y → S (op x y)) (tb : Nat) (act : Nat → Bool) (val : Nat → α)
    (sdata : Shared α) (h1 : ∀ l, S (val l)) (h2 : ∀ x, S (sdata x)) :
    (∀ l, S ((scan_warp op tb act val sdata).1 l)) ∧
      ∀ x, S ((scan_warp op tb act val sdata).2 x) := by
  have h0 : ∀ x, S (scatter sdata act (fun l => tb + l) val WARP_SIZE x) := by
    intro x
    rcases scatter_cases sdata act (fun l => tb + l) val WARP_SIZE x with h | ⟨l, _, _, _, h⟩
    · rw [h]; exact h2 x
    · rw [h]; exact h1 l
  have s1 := scan_warp_step_closed op S hS tb act 1
    (val, scatter sdata act (fun l => tb + l) val WARP_SIZE) h1 h0
  have s2 := scan_warp_step_closed op S hS tb act 2 _ s1.1 s1.2
  have s4 := scan_warp_step_closed op S hS tb act 4 _ s2.1 s2.2
  have s8 := scan_warp_step_closed op S hS tb act 8 _ s4.1 s4.2
  exact scan_warp_step_closed op S hS tb act 16 _ s8.1 s8.2

/-- When the values in memory and scratch lie in a set closed under `op`, so do they after a
warp of the 32-bit `kernel`. -/
theorem kernel32_closed (op : α → α → α) (S : α → Prop)
    (hS : ∀ x y, S x → S y → S (op x y)) (BS first n result isz fc bid tb : Nat)
    (ms ms' : Mem α × Shared α)
    (hk : kernel32 op BS first n result isz fc bid tb ms = some ms')
    (h1 : ∀ a, S (ms.1 a).1) (h2 : ∀ x, S (ms.2 x)) :
    (∀ a, S (ms'.1 a).1) ∧ ∀ x, S (ms'.2 x) := by
  unfold kernel32 at hk
  simp only [Option.map_eq_some'] at hk
  obtain ⟨s, hs, rfl⟩ := hk
  have hP := whileAny_preserves _ _
    (fun t : KState α => (∀ a, S (t.mem a).1) ∧ ∀ x, S (t.sdata x))
    (by
      intro t ht
      have hsw := scan_warp_closed op S hS tb
        (kernel_active (fun l => interval_end32 BS bid (tb + l) isz n)
          (fun l => !decide (interval_end32 BS bid (tb + l) isz n
            ≤ u32 (interval_begin32 BS bid (tb + l) isz + thread_lane (tb + l)))) t)
        (fun l => if thread_lane (tb + l) = 0 then
            op (t.sdata (tb + l + (WARP_SIZE - 1))) (t.mem (first + t.i l)).1
          else (t.mem (first + t.i l)).1) t.sdata
        (by
          intro l
          dsimp only
          split
          · exact hS _ _ (ht.2 _) (ht.1 _)
          · exact ht.1 _)
        ht.2
      refine ⟨fun a => ?_, hsw.2⟩
      show S (scatter t.mem _ _ _ WARP_SIZE a).1
      rcases scatter_cases t.mem _ _ _ WARP_SIZE a with h | ⟨l, _, _, _, h⟩
      · rw [h]; exact ht.1 a
      · rw [h]; exact hsw.1 l)
    n _ s
    (by
      have hsw := scan_warp_closed op S hS tb
        (kernel_active (fun l => interval_end32 BS bid (tb + l) isz n)
          (fun l => !decide (interval_end32 BS bid (tb + l) isz n
            ≤ u32 (interval_begin32 BS bid (tb + l) isz + thread_lane (tb + l))))
          ⟨fun l => u32 (interval_begin32 BS bid (tb + l) isz + thread_lane (tb + l)),
            ms.1, ms.2⟩)
        (fun l => (ms.1 (first
          + u32 (interval_begin32 BS bid (tb + l) isz + thread_lane (tb + l)))).1) ms.2
        (fun l => h1 _) h2
      refine ⟨fun a => ?_, hsw.2⟩
      show S (scatter ms.1 _ _ _ WARP_SIZE a).1
      rcases scatter_cases ms.1 _ _ _ WARP_SIZE a with h | ⟨l, _, _, _, h⟩
      · rw [h]; exact h1 a
      · rw [h]; exact hsw.1 l)
    hs
  refine ⟨fun a => ?_, hP.2⟩
  show S (scatter s.mem _ _ _ WARP_SIZE a).1
  rcases scatter_cases s.mem _ _ _ WARP_SIZE a with h | ⟨l, _, _, _, h⟩
  · rw [h]; exact hP.1 a
  · rw [h]; exact hP.2 _

/-- When the values in memory lie in a set closed under `op`, so do they after a warp of the
32-bit `inclusive_update_kernel`. -/
theorem inclusive_update_kernel32_closed (op : α → α → α) (S : α → Prop)
    (hS : ∀ x y, S x → S y → S (op x y)) (BS result n isz carry_in bid tb : Nat)
    (mem m' : Mem α)
    (hk : inclusive_update_kernel32 op BS result n isz carry_in bid tb mem = some m')
    (h1 : ∀ a, S (mem a).1) : ∀ a, S (m' a).1 := by
  unfold inclusive_update_kernel32 at hk
  simp only [Option.map_eq_some'] at hk
  obtain ⟨s, hs, rfl⟩ := hk
  exact whileAny_preserves _ _ (fun t : UState α => ∀ a, S (t.mem a).1)
    (by
      intro t ht a
      show S (scatter t.mem _ _ _ WARP_SIZE a).1
      rcases scatter_cases t.mem _ _ _ WARP_SIZE a with h | ⟨l, _, _, _, h⟩
      · rw [h]; exact ht a
      · rw [h]; exact hS _ _ (h1 _) (ht _))
    n _ s h1 hs

/-- With addition on `Nat`, a warp of the 32-bit `inclusive_update_kernel` lowers the value of
no cell. -/
theorem inclusive_update_kernel32_mono (BS result n isz carry_in bid tb : Nat)
    (mem m' : Mem Nat)
    (hk : inclusive_update_kernel32 (fun a b : Nat => a + b) BS result n isz carry_in bid tb
      mem = some m') (a : Nat) :
    (mem a).1 ≤ (m' a).1 := by
  unfold inclusive_update_kernel32 at hk
  simp only [Option.map_eq_some'] at hk
  obtain ⟨s, hs, rfl⟩ := hk
  exact whileAny_preserves _ _ (fun t : UState Nat => ∀ a, (mem a).1 ≤ (t.mem a).1)
    (by
      intro t ht a
      show (mem a).1 ≤ (scatter t.mem _ _ _ WARP_SIZE a).1
      rcases scatter_cases t.mem
        (update_active _ _ t) (fun l => result + t.i l)
        (fun l => ((mem (carry_in + u32 (warp_id32 BS bid (tb + l) + (2 ^ 32 - 1)))).1
          + (t.mem (result + t.i l)).1, true)) WARP_SIZE a with h | ⟨l, _, _, h3, h⟩
      · rw [h]; exact ht a
      · rw [h]
        dsimp only at h3 ⊢
        rw [h3]
        have := ht a
        omega)
    n _ s (fun _ => le_refl _) hs a

theorem lfold_add_ge (f : Nat → Nat) (a k j : Nat) (h1 : a ≤ j) (h2 : j ≤ a + k) :
    f j ≤ lfold (fun a b : Nat => a + b) f a k := by
  induction k with
  | zero =>
    have : j = a := by omega
    subst this
    simp [lfold]
  | succ k ih =>
    simp only [lfold]
    rcases Nat.lt_or_ge j (a + k + 1) with h | h
    · have := ih (by omega)
      omega
    · have : j = a + k + 1 := by omega
      subst this
      omega

/-! ### The 32-bit program returns on the input `n = 2 ^ 32 - 1`, `MAX_BLOCKS = 120` -/

/-- A warp of the 32-bit `kernel` none of whose lanes passes the early-return test
returns. -/
theorem kernel32_idle (op : α → α → α) (BS first n result isz fc bid tb : Nat)
    (ms : Mem α × Shared α)
    (h : ∀ l, l < WARP_SIZE → interval_end32 BS bid (tb + l) isz n
      ≤ u32 (interval_begin32 BS bid (tb + l) isz + thread_lane (tb + l))) :
    ∃ ms', kernel32 op BS first n result isz fc bid tb ms = some ms' := by
  unfold kernel32
  dsimp only
  rw [whileAny_done _ _ _ _ ((anyLane_eq_false _).2 (fun l hl => by
    simp only [kernel_active, Bool.and_eq_false_imp, Bool.not_eq_true', decide_eq_false_iff_not]
    intro hc
    exact absurd (h l hl) hc))]
  exact ⟨_, rfl⟩

/-- A warp of the 32-bit `inclusive_update_kernel` whose lanes return early or start at or
past `interval_end` returns. -/
theorem inclusive_update_kernel32_idle (op : α → α → α)
    (BS result n isz carry_in bid tb : Nat) (mem : Mem α)
    (h : ∀ l, l < WARP_SIZE →
      interval_begin32 BS bid (tb + l) isz = 0 ∨ n ≤ interval_begin32 BS bid (tb + l) isz ∨
      interval_end32 BS bid (tb + l) isz n
        ≤ u32 (interval_begin32 BS bid (tb + l) isz + thread_lane (tb + l))) :
    ∃ m', inclusive_update_kernel32 op BS result n isz carry_in bid tb mem = some m' := by
  unfold inclusive_update_kernel32
  dsimp only
  rw [whileAny_done _ _ _ _ ((anyLane_eq_false _).2 (fun l hl => by
    simp only [update_active, Bool.and_eq_false_imp, Bool.not_eq_true', Bool.or_eq_false_iff,
      decide_eq_false_iff_not, decide_eq_true_eq]
    intro hc
    rcases h l hl with h1 | h1 | h1
    · exact absurd h1 hc.1
    · exact absurd h1 hc.2
    · omega))]
  exact ⟨_, rfl⟩

/-- A warp of the 32-bit `exclusive_update_kernel` whose lanes return early or start at or
past `interval_end` returns. -/
theorem exclusive_update_kernel32_idle (op : α → α → α) (BS result : Nat) (init : α)
    (n isz carry_in bid tb : Nat) (ms : Mem α × Shared α)
    (h : ∀ l, l < WARP_SIZE →
      n ≤ interval_begin32 BS bid (tb + l) isz ∨
      interval_end32 BS bid (tb + l) isz n
        ≤ u32 (interval_begin32 BS bid (tb + l) isz + thread_lane (tb + l))) :
    ∃ ms', exclusive_update_kernel32 op BS result init n isz carry_in bid tb ms
      = some ms' := by
  unfold exclusive_update_kernel32
  dsimp only
  rw [whileAny_done _ _ _ _ ((anyLane_eq_false _).2 (fun l hl => by
    simp only [exclusive_active, Bool.and_eq_false_imp, Bool.not_eq_true',
      decide_eq_false_iff_not, decide_eq_true_eq]
    intro hc
    rcases h l hl with h1 | h1
    · exact absurd h1 hc
    · omega))]
  exact ⟨_, rfl⟩

theorem wrap120_warp_id (bid tid : Nat) (hb : bid < 120) (ht : tid < 256) :
    warp_id32 BLOCK_SIZE bid tid = (256 * bid + tid) / 32 := by
  have ht32 : thread_id32 BLOCK_SIZE bid tid = 256 * bid + tid := by
    simp only [thread_id32, u32, BLOCK_SIZE]
    omega
  unfold warp_id32
  rw [ht32]
  rfl

/-- For the groups `0 .. 958` no index computation wraps. -/
theorem wrap120_nowrap (bid tid : Nat) (hb : bid < 120) (ht : tid < 256)
    (hw : (256 * bid + tid) / 32 < 959) :
    NoWrap BLOCK_SIZE bid tid 4473952 4294967295 := by
  have hW : warp_id BLOCK_SIZE bid tid = (256 * bid + tid) / 32 := rfl
  have hT : thread_id BLOCK_SIZE bid tid = 256 * bid + tid := rfl
  have hB : BLOCK_SIZE = 256 := rfl
  have hS : WARP_SIZE = 32 := rfl
  have hl : thread_lane tid < 32 := by rw [thread_lane_eq_mod]; omega
  have hib : interval_begin BLOCK_SIZE bid tid 4473952 = (256 * bid + tid) / 32 * 4473952 :=
    rfl
  have hie : interval_end BLOCK_SIZE bid tid 4473952 4294967295 ≤ 4290519968 := by
    unfold interval_end
    rw [hib]
    have := Nat.min_le_left ((256 * bid + tid) / 32 * 4473952 + 4473952) 4294967295
    omega
  refine ⟨by rw [hB]; omega, by rw [hT]; omega, by rw [hW]; omega, by rw [hib]; omega,
    by rw [hib]; omega, by rw [hS]; omega, fun i hi => by rw [hS]; omega⟩

theorem wrap120_kernel_returns (op : α → α → α) (first result d b w : Nat) (hb : b < 120)
    (hw : w < 8) (hio : ∀ i j, i < j → j < 4294967295 → result + i ≠ first + j)
    (ms : Mem α × Shared α) :
    ∃ ms', kernel32 op BLOCK_SIZE first 4294967295 result 4473952 d b (32 * w) ms
      = some ms' := by
  have hS : WARP_SIZE = 32 := rfl
  rcases Nat.lt_or_ge (8 * b + w) 959 with h | h
  · rw [kernel32_eq op BLOCK_SIZE first 4294967295 result 4473952 d b (32 * w) ms
      (fun l hl => wrap120_nowrap b (32 * w + l) hb (by omega) (by omega))]
    obtain ⟨m, sd⟩ := ms
    obtain ⟨m', sd', hk, _⟩ := kernel_spec op BLOCK_SIZE first 4294967295 result 4473952 d b
      (32 * w) m sd (by decide) (by omega) _ _ _ rfl rfl rfl
      (fun i j _ h2 h3 => hio i j h2 (by
        have := Nat.min_le_right ((BLOCK_SIZE * b + 32 * w) / 32 * 4473952 + 4473952)
          4294967295
        omega))
    exact ⟨_, hk⟩
  · apply kernel32_idle
    intro l hl
    by_contra hc
    have h1 := (wrap120_intervals b (32 * w + l) hb (by omega)).2 (by omega)
    rw [wrap120_warp_id b (32 * w + l) hb (by omega)] at h1
    omega

theorem wrap120_inclusive_update_returns (op : α → α → α) (result d b w : Nat)
    (hb : b < 120) (hw : w < 8) (mem : Mem α) :
    ∃ m', inclusive_update_kernel32 op BLOCK_SIZE result 4294967295 4473952 d b (32 * w) mem
      = some m' := by
  have hS : WARP_SIZE = 32 := rfl
  rcases Nat.lt_or_ge (8 * b + w) 959 with h | h
  · rw [inclusive_update_kernel32_eq op BLOCK_SIZE result 4294967295 4473952 d b (32 * w) mem
      (fun l hl => wrap120_nowrap b (32 * w + l) hb (by omega) (by omega))]
    obtain ⟨m', hk, _⟩ := inclusive_update_spec op BLOCK_SIZE result 4294967295 4473952 d b
      (32 * w) mem (by decide) (by omega) _ _ _ rfl rfl rfl
    exact ⟨_, hk⟩
  · apply inclusive_update_kernel32_idle
    intro l hl
    right; right
    by_contra hc
    have h1 := (wrap120_intervals b (32 * w + l) hb (by omega)).2 (by omega)
    rw [wrap120_warp_id b (32 * w + l) hb (by omega)] at h1
    omega

theorem wrap120_exclusive_update_returns (op : α → α → α) (result : Nat) (init : α)
    (d b w : Nat) (hb : b < 120) (hw : w < 8) (ms : Mem α × Shared α) :
    ∃ ms', exclusive_update_kernel32 op BLOCK_SIZE result init 4294967295 4473952 d b
      (32 * w) ms = some ms' := by
  have hS : WARP_SIZE = 32 := rfl
  rcases Nat.lt_or_ge (8 * b + w) 959 with h | h
  · rw [exclusive_update_kernel32_eq op BLOCK_SIZE result init 4294967295 4473952 d b
      (32 * w) ms (fun l hl => wrap120_nowrap b (32 * w + l) hb (by omega) (by omega))]
    obtain ⟨m, sd⟩ := ms
    obtain ⟨m', sd', hk, _⟩ := exclusive_update_spec op BLOCK_SIZE result init 4294967295
      4473952 d b (32 * w) m sd (by decide) (by omega) _ _ _ rfl rfl rfl
    exact ⟨_, hk⟩
  · apply exclusive_update_kernel32_idle
    intro l hl
    right
    by_contra hc
    have h1 := (wrap120_intervals b (32 * w + l) hb (by omega)).2 (by omega)
    rw [wrap120_warp_id b (32 * w + l) hb (by omega)] at h1
    omega

theorem wrap120_stage1_returns (op : α → α → α) (first result d : Nat)
    (scratch : Nat → Shared α) (m : Mem α)
    (hio : ∀ i j, i < j → j < 4294967295 → result + i ≠ first + j) :
    ∃ m', launch 120 BLOCK_SIZE (kernel32 op BLOCK_SIZE first 4294967295 result 4473952 d)
      scratch m = some m' := by
  obtain ⟨m', h, _⟩ := launch_inv 120 8
    (kernel32 op BLOCK_SIZE first 4294967295 result 4473952 d) scratch (fun _ _ => True)
    (fun b w hb hw m sc _ => by
      obtain ⟨ms', hk⟩ := wrap120_kernel_returns op first result d b w hb hw hio (m, sc)
      exact ⟨ms'.1, ms'.2, hk, trivial⟩)
    m trivial
  exact ⟨m', h⟩

theorem wrap120_inclusive_update_launch_returns (op : α → α → α) (result d : Nat)
    (m : Mem α) :
    ∃ m', launch 120 BLOCK_SIZE
      (fun bid tb (ms : Mem α × Unit) =>
        (inclusive_update_kernel32 op BLOCK_SIZE result 4294967295 4473952 d bid tb
          ms.1).map fun m => (m, ()))
      (fun _ => ()) m = some m' := by
  obtain ⟨m', h, _⟩ := launch_inv 120 8
    (fun bid tb (ms : Mem α × Unit) =>
      (inclusive_update_kernel32 op BLOCK_SIZE result 4294967295 4473952 d bid tb
        ms.1).map fun m => (m, ()))
    (fun _ => ()) (fun _ _ => True)
    (fun b w hb hw m sc _ => by
      obtain ⟨m1, hk⟩ := wrap120_inclusive_update_returns op result d b w hb hw m
      exact ⟨m1, (), by simp only [hk, Option.map_some'], trivial⟩)
    m trivial
  exact ⟨m', h⟩

theorem wrap120_exclusive_update_launch_returns (op : α → α → α) (result : Nat) (init : α)
    (d : Nat) (scratch : Nat → Shared α) (m : Mem α) :
    ∃ m', launch 120 BLOCK_SIZE
      (exclusive_update_kernel32 op BLOCK_SIZE result init 4294967295 4473952 d) scratch m
      = some m' := by
  obtain ⟨m', h, _⟩ := launch_inv 120 8
    (exclusive_update_kernel32 op BLOCK_SIZE result init 4294967295 4473952 d) scratch
    (fun _ _ => True)
    (fun b w hb hw m sc _ => by
      obtain ⟨ms', hk⟩ := wrap120_exclusive_update_returns op result init d b w hb hw (m, sc)
      exact ⟨ms'.1, ms'.2, hk, trivial⟩)
    m trivial
  exact ⟨m', h⟩

theorem second_level_scan32_returns (op : α → α → α) (d nw : Nat) (hnw : 0 < nw)
    (hle : nw ≤ 2 ^ 25) (scratch : Nat → Shared α) (m : Mem α) :
    ∃ m', second_level_scan32 op d nw scratch m = some m' := by
  rw [second_level_scan32_eq op d nw scratch m hle]
  obtain ⟨m2, h, _⟩ := second_level_scan_spec op d nw hnw scratch m
  exact ⟨m2, h⟩

/-- For `n = 2 ^ 32 - 1` and `MAX_BLOCKS = 120` the 32-bit `inclusive_scan` returns. -/
theorem wrap120_inclusive_scan_returns (op : α → α → α) (first result d : Nat)
    (s1 s2 : Nat → Shared α) (mem : Mem α)
    (hio : ∀ i j, i < j → j < 4294967295 → result + i ≠ first + j) :
    ∃ r, inclusive_scan32 op 120 first (first + 4294967295) result d s1 s2 mem = some r := by
  obtain ⟨e0, e2, e3, e5⟩ := wrap120_sizes
  obtain ⟨m1, h1⟩ := wrap120_stage1_returns op first result d s1 mem hio
  obtain ⟨m2, h2⟩ := second_level_scan32_returns op d 960 (by decide) (by decide) s2 m1
  obtain ⟨m3, h3⟩ := wrap120_inclusive_update_launch_returns op result d m2
  refine ⟨(result + 4294967295, m3), ?_⟩
  unfold inclusive_scan32
  simp only [Nat.add_sub_cancel_left, e0, e2, e3, e5]
  have hne : ¬ (4294967295 = 0) := by decide
  simp only [hne, if_false]
  exact Option.bind_eq_some.2 ⟨m1, h1, Option.bind_eq_some.2 ⟨m2, h2,
    Option.bind_eq_some.2 ⟨m3, h3, rfl⟩⟩⟩

/-- For `n = 2 ^ 32 - 1` and `MAX_BLOCKS = 120` the 32-bit `exclusive_scan` returns. -/
theorem wrap120_exclusive_scan_returns (op : α → α → α) (first result : Nat) (init : α)
    (d : Nat) (s1 s2 s3 : Nat → Shared α) (mem : Mem α)
    (hio : ∀ i j, i < j → j < 4294967295 → result + i ≠ first + j) :
    ∃ r, exclusive_scan32 op 120 first (first + 4294967295) result init d s1 s2 s3 mem
      = some r := by
  obtain ⟨e0, e2, e3, e5⟩ := wrap120_sizes
  obtain ⟨m1, h1⟩ := wrap120_stage1_returns op first result d s1 mem hio
  obtain ⟨m2, h2⟩ := second_level_scan32_returns op d 960 (by decide) (by decide) s2 m1
  obtain ⟨m3, h3⟩ := wrap120_exclusive_update_launch_returns op result init d s3 m2
  refine ⟨(result + 4294967295, m3), ?_⟩
  unfold exclusive_scan32
  simp only [Nat.add_sub_cancel_left, e0, e2, e3, e5]
  have hne : ¬ (4294967295 = 0) := by decide
  simp only [hne, if_false]
  exact Option.bind_eq_some.2 ⟨m1, h1, Option.bind_eq_some.2 ⟨m2, h2,
    Option.bind_eq_some.2 ⟨m3, h3, rfl⟩⟩⟩

/-- C1 fails outside the range: for `n = 2 ^ 32 - 1` and `MAX_BLOCKS = 120` (addition, input
`0 .. 0` at `[0, n)`, output at `2 ^ 33` holding ones, carry buffer at `2 ^ 35`) group 959
has `interval_begin = 4290519968` and the wrapped `interval_end = 26624`; the 32-bit
`inclusive_scan` returns, and `output[4290519968]` still holds `1`, while the fold of the
input up to that position is `0`. -/
theorem inclusive_scan32_fold_fails_on_wrap :
    (∀ a b c : Nat, a + b + c = a + (b + c)) ∧ 1 ≤ 120 ∧
    WellPlaced 0 4294967295 8589934592 34359738368 (num_warps32 4294967295 120) ∧
    interval_begin32 BLOCK_SIZE 119 224 (interval_size32 4294967295 120) = 4290519968 ∧
    interval_end32 BLOCK_SIZE 119 224 (interval_size32 4294967295 120) (u32 4294967295)
      = 26624 ∧
    4290519968 < 4294967295 ∧
    ∃ r, inclusive_scan32 (fun a b : Nat => a + b) 120 0 (0 + 4294967295) 8589934592
          34359738368 (fun _ _ => 0) (fun _ _ => 0)
          (fun a => (if a < 4294967296 then 0 else 1, false)) = some r ∧
        (r.2 (8589934592 + 4290519968)).1 = 1 ∧
        lfold (fun a b : Nat => a + b)
          (fun j => ((fun a => (if a < 4294967296 then 0 else 1, false) : Mem Nat)
            (0 + j)).1) 0 4290519968 = 0 := by
  refine ⟨Nat.add_assoc, by decide, by decide, by decide, by decide, by decide, ?_⟩
  obtain ⟨r, hr⟩ := wrap120_inclusive_scan_returns (fun a b : Nat => a + b) 0 8589934592
    34359738368 (fun _ _ => 0) (fun _ _ => 0)
    (fun a => (if a < 4294967296 then 0 else 1, false)) (fun i j _ _ => by omega)
  have h1 := wrap120_inclusive_scan _ 0 8589934592 34359738368 _ _ _ r hr
    (8589934592 + 4290519968) (fun i hi => by omega) (by omega)
  refine ⟨r, hr, ?_, ?_⟩
  · rw [h1]
    simp
  · exact lfold_add_zero _ 0 4290519968 (fun j _ hj => by
      have : j < 4294967296 := by omega
      simp [this])

/-- C2 fails outside the range: for `n = 2 ^ 32 - 1` and `MAX_BLOCKS = 120` (addition,
`init = 5`, a memory of ones) the 32-bit `exclusive_scan` returns, and
`output[4290519969] = 1` while `op(output[4290519968], input[4290519968]) = 1 + 1 = 2`:
neither position is stored to. -/
theorem exclusive_scan32_recurrence_fails_on_wrap :
    (∀ a b c : Nat, a + b + c = a + (b + c)) ∧ 1 ≤ 4294967295 ∧ 1 ≤ 120 ∧
    WellPlaced 0 4294967295 8589934592 34359738368 (num_warps32 4294967295 120) ∧
    0 < 4290519969 ∧ 4290519969 < 4294967295 ∧
    ∃ r, exclusive_scan32 (fun a b : Nat => a + b) 120 0 (0 + 4294967295) 8589934592 5
          34359738368 (fun _ _ => 0) (fun _ _ => 0) (fun _ _ => 0) (fun _ => (1, false))
          = some r ∧
        (r.2 (8589934592 + 4290519969)).1 = 1 ∧
        (r.2 (8589934592 + (4290519969 - 1))).1
          + ((fun _ => (1, false) : Mem Nat) (0 + (4290519969 - 1))).1 = 2 := by
  refine ⟨Nat.add_assoc, by decide, by decide, by decide, by decide, by decide, ?_⟩
  obtain ⟨r, hr⟩ := wrap120_exclusive_scan_returns (fun a b : Nat => a + b) 0 8589934592 5
    34359738368 (fun _ _ => 0) (fun _ _ => 0) (fun _ _ => 0) (fun _ => (1, false))
    (fun i j _ _ => by omega)
  have h1 := wrap120_exclusive_scan _ 0 8589934592 5 34359738368 _ _ _ _ r hr
    (8589934592 + 4290519969) (fun i hi => by omega) (by omega)
  have h0 := wrap120_exclusive_scan _ 0 8589934592 5 34359738368 _ _ _ _ r hr
    (8589934592 + (4290519969 - 1)) (fun i hi => by omega) (by omega)
  exact ⟨r, hr, by rw [h1], by rw [h0]; rfl⟩

/-- C3 fails outside the range: for `n = 2 ^ 32 - 1` and `MAX_BLOCKS = 120` (addition, input
zeros at `[0, n)`, ones elsewhere) the in-place and the out-of-place run of the 32-bit
`inclusive_scan` both return, and position `4290519968` holds the input value `0` after the
in-place run and the old output content `1` after the out-of-place run. -/
theorem scan32_in_place_differs_on_wrap :
    1 ≤ 120 ∧ (8589934592 + 4294967295 ≤ 0 ∨ 0 + 4294967295 ≤ 8589934592) ∧
    WellPlaced 0 4294967295 0 34359738368 (num_warps32 4294967295 120) ∧
    WellPlaced 0 4294967295 8589934592 34359738368 (num_warps32 4294967295 120) ∧
    4290519968 < 4294967295 ∧
    ∃ ri ro,
        inclusive_scan32 (fun a b : Nat => a + b) 120 0 (0 + 4294967295) 0 34359738368
          (fun _ _ => 0) (fun _ _ => 0) (fun a => (if a < 4294967296 then 0 else 1, false))
          = some ri ∧
        inclusive_scan32 (fun a b : Nat => a + b) 120 0 (0 + 4294967295) 8589934592
          34359738368 (fun _ _ => 0) (fun _ _ => 0)
          (fun a => (if a < 4294967296 then 0 else 1, false)) = some ro ∧
        ri.2 (0 + 4290519968) = (0, false) ∧
        ro.2 (8589934592 + 4290519968) = (1, false) ∧
        ri.2 (0 + 4290519968) ≠ ro.2 (8589934592 + 4290519968) := by
  refine ⟨by decide, by decide, by decide, by decide, by decide, ?_⟩
  obtain ⟨ri, hi⟩ := wrap120_inclusive_scan_returns (fun a b : Nat => a + b) 0 0
    34359738368 (fun _ _ => 0) (fun _ _ => 0)
    (fun a => (if a < 4294967296 then 0 else 1, false)) (fun i j _ _ => by omega)
  obtain ⟨ro, ho⟩ := wrap120_inclusive_scan_returns (fun a b : Nat => a + b) 0 8589934592
    34359738368 (fun _ _ => 0) (fun _ _ => 0)
    (fun a => (if a < 4294967296 then 0 else 1, false)) (fun i j _ _ => by omega)
  have h1 := wrap120_inclusive_scan _ 0 0 34359738368 _ _ _ ri hi
    (0 + 4290519968) (fun i hi => by omega) (by omega)
  have h2 := wrap120_inclusive_scan _ 0 8589934592 34359738368 _ _ _ ro ho
    (8589934592 + 4290519968) (fun i hi => by omega) (by omega)
  have e1 : ri.2 (0 + 4290519968) = (0, false) := by rw [h1]; simp
  have e2 : ro.2 (8589934592 + 4290519968) = (1, false) := by rw [h2]; simp
  exact ⟨ri, ro, hi, ho, e1, e2, by rw [e1, e2]; simp⟩

/-- C4 fails outside the range: for `n = 2 ^ 32 - 1` and `MAX_BLOCKS = 120` the 32-bit
`inclusive_scan` returns without having stored to every output position:
`output[4290519968]` carries no store mark. -/
theorem scan32_tail_unwritten_on_wrap :
    1 ≤ 4294967295 ∧ 1 ≤ 120 ∧
    WellPlaced 0 4294967295 8589934592 34359738368 (num_warps32 4294967295 120) ∧
    4290519968 < 4294967295 ∧
    ∃ r, inclusive_scan32 (fun a b : Nat => a + b) 120 0 (0 + 4294967295) 8589934592
          34359738368 (fun _ _ => 0) (fun _ _ => 0) (fun a => (a, false)) = some r ∧
        (r.2 (8589934592 + 4290519968)).2 = false := by
  refine ⟨by decide, by decide, by decide, by decide, ?_⟩
  obtain ⟨r, hr⟩ := wrap120_inclusive_scan_returns (fun a b : Nat => a + b) 0 8589934592
    34359738368 (fun _ _ => 0) (fun _ _ => 0) (fun a => (a, false))
    (fun i j _ _ => by omega)
  have h1 := wrap120_inclusive_scan _ 0 8589934592 34359738368 _ _ _ r hr
    (8589934592 + 4290519968) (fun i hi => by omega) (by omega)
  exact ⟨r, hr, by rw [h1]⟩

/-- C6 fails outside the range: for `n = 2 ^ 32 - 1` and `MAX_BLOCKS = 120` (addition,
`init = 5`, a memory of ones) the 32-bit `inclusive_scan` and `exclusive_scan` both return,
and `exclusive[4290519969] = 1` while `op(init, inclusive[4290519968]) = 5 + 1 = 6`. -/
theorem exclusive32_shift_fails_on_wrap :
    (∀ a b c : Nat, a + b + c = a + (b + c)) ∧ 1 ≤ 4294967295 ∧ 1 ≤ 120 ∧
    WellPlaced 0 4294967295 8589934592 34359738368 (num_warps32 4294967295 120) ∧
    1 ≤ 4290519969 ∧ 4290519969 < 4294967295 ∧
    ∃ ri rx,
        inclusive_scan32 (fun a b : Nat => a + b) 120 0 (0 + 4294967295) 8589934592
          34359738368 (fun _ _ => 0) (fun _ _ => 0) (fun _ => (1, false)) = some ri ∧
        exclusive_scan32 (fun a b : Nat => a + b) 120 0 (0 + 4294967295) 8589934592 5
          34359738368 (fun _ _ => 0) (fun _ _ => 0) (fun _ _ => 0) (fun _ => (1, false))
          = some rx ∧
        (rx.2 (8589934592 + 4290519969)).1 = 1 ∧
        5 + (ri.2 (8589934592 + (4290519969 - 1))).1 = 6 := by
  refine ⟨Nat.add_assoc, by decide, by decide, by decide, by decide, by decide, ?_⟩
  obtain ⟨ri, hi⟩ := wrap120_inclusive_scan_returns (fun a b : Nat => a + b) 0 8589934592
    34359738368 (fun _ _ => 0) (fun _ _ => 0) (fun _ => (1, false)) (fun i j _ _ => by omega)
  obtain ⟨rx, hx⟩ := wrap120_exclusive_scan_returns (fun a b : Nat => a + b) 0 8589934592 5
    34359738368 (fun _ _ => 0) (fun _ _ => 0) (fun _ _ => 0) (fun _ => (1, false))
    (fun i j _ _ => by omega)
  have h1 := wrap120_exclusive_scan _ 0 8589934592 5 34359738368 _ _ _ _ rx hx
    (8589934592 + 4290519969) (fun i hi => by omega) (by omega)
  have h0 := wrap120_inclusive_scan _ 0 8589934592 34359738368 _ _ _ ri hi
    (8589934592 + (4290519969 - 1)) (fun i hi => by omega) (by omega)
  exact ⟨ri, rx, hi, hx, by rw [h1], by rw [h0]; rfl⟩

/-- C16 fails outside the range: for `n = 2 ^ 32 - 1` and `MAX_BLOCKS = 120` the launch of
the 32-bit `inclusive_update_kernel` made by `inclusive_scan` returns without having stored
to every output position in `[intervalSize, n)`: `result[4290519968]` carries no store
mark. -/
theorem inclusive_update32_skips_on_wrap :
    1 ≤ 4294967295 ∧ 1 ≤ 120 ∧
    (34359738368 + num_warps32 4294967295 120 ≤ 8589934592
      ∨ 8589934592 + 4294967295 ≤ 34359738368) ∧
    interval_size32 4294967295 120 ≤ 4290519968 ∧ 4290519968 < 4294967295 ∧
    ∃ m3, launch (num_blocks32 4294967295 120) BLOCK_SIZE
          (fun bid tb (ms : Mem Nat × Unit) =>
            (inclusive_update_kernel32 (fun a b : Nat => a + b) BLOCK_SIZE 8589934592
              (u32 4294967295) (interval_size32 4294967295 120) 34359738368 bid tb
              ms.1).map fun m => (m, ()))
          (fun _ => ()) (fun a => (a, false)) = some m3 ∧
        (m3 (8589934592 + 4290519968)).2 = false := by
  refine ⟨by decide, by decide, by decide, by decide, by decide, ?_⟩
  obtain ⟨e0, _, e3, e5⟩ := wrap120_sizes
  rw [e0, e3, e5]
  obtain ⟨m3, hl⟩ := wrap120_inclusive_update_launch_returns (fun a b : Nat => a + b)
    8589934592 34359738368 (fun a => (a, false))
  have h1 := wrap120_inclusive_update _ 8589934592 34359738368 _ m3 hl
    (8589934592 + 4290519968) (fun i hi => by omega)
  exact ⟨m3, hl, by rw [h1]⟩

/-- C17 fails outside the range: with the sizes `exclusive_scan` passes for
`n = 2 ^ 32 - 1` and `MAX_BLOCKS = 120` the launch of the 32-bit `exclusive_update_kernel`
returns without having stored the carry to the first position of the non-empty interval
`[959 * 4473952, n)` of the launched group 959: `result[959 * 4473952]` carries no store
mark. -/
theorem exclusive_update32_skips_on_wrap :
    num_blocks32 4294967295 120 = 120 ∧ interval_size32 4294967295 120 = 4473952 ∧
    (∀ g i, g * 4473952 < 4294967295 → i < 4294967295 →
      34359738368 + g ≠ 8589934592 + i) ∧
    959 < 8 * 120 ∧ 959 * 4473952 < min (959 * 4473952 + 4473952) 4294967295 ∧
    ∃ m3, launch 120 BLOCK_SIZE
          (exclusive_update_kernel32 (fun a b : Nat => a + b) BLOCK_SIZE 8589934592 5
            4294967295 4473952 34359738368)
          (fun _ _ => 0) (fun a => (a, false)) = some m3 ∧
        (m3 (8589934592 + 959 * 4473952)).2 = false := by
  refine ⟨by decide, by decide, fun g i _ _ => by omega, by decide, by decide, ?_⟩
  obtain ⟨m3, hl⟩ := wrap120_exclusive_update_launch_returns (fun a b : Nat => a + b)
    8589934592 5 34359738368 (fun _ _ => 0) (fun a => (a, false))
  have h1 := wrap120_exclusive_update _ 8589934592 5 34359738368 _ _ m3 hl
    (8589934592 + 959 * 4473952) (fun i hi => by omega)
  exact ⟨m3, hl, by rw [h1]⟩

/-! ### The input `n = 2 ^ 32 - 1`, `MAX_BLOCKS = 8193`

`numGroups = 65544`, `intervalSize = 65536`, 8193 blocks.  For group 65535 the sum
`interval_begin + interval_size` wraps to `0`, so the group returns at once and stores no
carry; for the groups `65536 + w` of block 8192 the product `warp_id * interval_size` wraps
to `w * 65536`, so they run on the intervals of the groups `w` once more. -/

theorem wrap8193_sizes :
    u32 4294967295 = 4294967295 ∧ num_warps32 4294967295 8193 = 65544 ∧
      num_blocks32 4294967295 8193 = 8193 ∧ interval_size32 4294967295 8193 = 65536 := by
  decide

theorem wrap8193_thread (bid tid : Nat) (hb : bid < 8193) (ht : tid < 256) :
    warp_id32 BLOCK_SIZE bid tid = (256 * bid + tid) / 32 := by
  have ht32 : thread_id32 BLOCK_SIZE bid tid = 256 * bid + tid := by
    simp only [thread_id32, u32, BLOCK_SIZE]
    omega
  unfold warp_id32
  rw [ht32]
  rfl

/-- Group 65535 has no lane that passes the early-return test. -/
theorem wrap8193_dead (bid tid : Nat)
    (hal : u32 (interval_begin32 BLOCK_SIZE bid tid 65536 + thread_lane tid)
      < interval_end32 BLOCK_SIZE bid tid 65536 4294967295) :
    warp_id32 BLOCK_SIZE bid tid ≠ 65535 := by
  intro h
  have hl : thread_lane tid < 32 := by rw [thread_lane_eq_mod]; omega
  have hib : interval_begin32 BLOCK_SIZE bid tid 65536 = 4294901760 := by
    unfold interval_begin32
    rw [h]
    decide
  unfold interval_end32 at hal
  rw [hib] at hal
  have e1 : u32 (4294901760 + 65536) = 0 := by decide
  rw [e1] at hal
  simp at hal

/-- The lanes of warp `w` of block 8192 (group `65536 + w`) compute the interval of group
`w`. -/
theorem wrap8193_alias (w l : Nat) (hw : w < 8) (hl : l < 32) :
    warp_id32 BLOCK_SIZE 8192 (32 * w + l) = 65536 + w ∧
      interval_begin32 BLOCK_SIZE 8192 (32 * w + l) 65536 = w * 65536 ∧
      interval_end32 BLOCK_SIZE 8192 (32 * w + l) 65536 4294967295 = w * 65536 + 65536 ∧
      warp_id BLOCK_SIZE 0 (32 * w + l) = w ∧
      interval_begin BLOCK_SIZE 0 (32 * w + l) 65536 = w * 65536 ∧
      interval_end BLOCK_SIZE 0 (32 * w + l) 65536 4294967295 = w * 65536 + 65536 ∧
      thread_lane (32 * w + l) = l := by
  have h1 : warp_id32 BLOCK_SIZE 8192 (32 * w + l) = 65536 + w := by
    rw [wrap8193_thread 8192 (32 * w + l) (by omega) (by omega)]
    omega
  have h2 : interval_begin32 BLOCK_SIZE 8192 (32 * w + l) 65536 = w * 65536 := by
    unfold interval_begin32
    rw [h1]
    unfold u32
    omega
  have h3 : interval_end32 BLOCK_SIZE 8192 (32 * w + l) 65536 4294967295
      = w * 65536 + 65536 := by
    unfold interval_end32
    rw [h2]
    unfold u32
    omega
  have h4 : warp_id BLOCK_SIZE 0 (32 * w + l) = w := by
    show (256 * 0 + (32 * w + l)) / 32 = w
    omega
  have h5 : interval_begin BLOCK_SIZE 0 (32 * w + l) 65536 = w * 65536 := by
    unfold interval_begin
    rw [h4]
  have h6 : interval_end BLOCK_SIZE 0 (32 * w + l) 65536 4294967295 = w * 65536 + 65536 := by
    unfold interval_end
    rw [h5]
    omega
  refine ⟨h1, h2, h3, h4, h5, h6, ?_⟩
  rw [thread_lane_eq_mod]
  omega

theorem wrap8193_kernel (op : α → α → α) (first result d w : Nat) (hw : w < 8)
    (ms : Mem α × Shared α) :
    kernel32 op BLOCK_SIZE first 4294967295 result 65536 d 8192 (32 * w) ms
      = kernel op BLOCK_SIZE first 4294967295 result 65536 (d + 65536) 0 (32 * w) ms := by
  have hW : WARP_SIZE = 32 := rfl
  apply kernel32_sim
  · intro l hl
    obtain ⟨_, _, h3, _, _, h6, _⟩ := wrap8193_alias w l hw (by omega)
    rw [h3, h6]
  · intro l hl
    obtain ⟨_, h2, _, _, h5, _, h7⟩ := wrap8193_alias w l hw (by omega)
    rw [h2, h5, h7]
    unfold u32
    omega
  · intro l hl i hi
    obtain ⟨_, _, _, _, _, h6, _⟩ := wrap8193_alias w l hw (by omega)
    rw [h6] at hi
    omega
  · intro l hl
    obtain ⟨_, _, _, _, _, h6, _⟩ := wrap8193_alias w l hw (by omega)
    rw [h6]
    omega
  · intro l hl
    obtain ⟨h1, _, _, h4, _, _, _⟩ := wrap8193_alias w l hw (by omega)
    rw [h1, h4]
    omega

theorem wrap8193_inclusive_update (op : α → α → α) (result d w : Nat) (hw1 : 1 ≤ w)
    (hw : w < 8) (mem : Mem α) :
    inclusive_update_kernel32 op BLOCK_SIZE result 4294967295 65536 d 8192 (32 * w) mem
      = inclusive_update_kernel op BLOCK_SIZE result 4294967295 65536 (d + 65536) 0
          (32 * w) mem := by
  have hW : WARP_SIZE = 32 := rfl
  apply inclusive_update_kernel32_sim
  · intro l hl
    obtain ⟨_, h2, _, _, h5, _, _⟩ := wrap8193_alias w l hw (by omega)
    rw [h2, h5]
  · intro l hl
    obtain ⟨_, _, h3, _, _, h6, _⟩ := wrap8193_alias w l hw (by omega)
    rw [h3, h6]
  · intro l hl
    obtain ⟨_, _, _, _, h5, _, h7⟩ := wrap8193_alias w l hw (by omega)
    rw [h5, h7]
    omega
  · intro l hl i hi
    obtain ⟨_, _, _, _, _, h6, _⟩ := wrap8193_alias w l hw (by omega)
    rw [h6] at hi
    omega
  · intro l hl
    obtain ⟨h1, _, _, h4, _, _, _⟩ := wrap8193_alias w l hw (by omega)
    rw [h1, h4]
    unfold u32
    omega

/-- Stage 1 leaves carry slot 65535 as it was. -/
theorem wrap8193_stage1 (op : α → α → α) (first result d : Nat) (scratch : Nat → Shared α)
    (m m' : Mem α)
    (h : launch 8193 BLOCK_SIZE (kernel32 op BLOCK_SIZE first 4294967295 result 65536 d)
      scratch m = some m')
    (hres : ∀ i, i < 4294967295 → d + 65535 ≠ result + i) :
    m' (d + 65535) = m (d + 65535) := by
  refine launch_preserves 8193 8 _ scratch (fun x => x (d + 65535) = m (d + 65535)) ?_ m m'
    rfl h
  intro b w hb hw ms ms' hP hk
  rw [← hP]
  have hW : WARP_SIZE = 32 := rfl
  refine kernel32_frame op BLOCK_SIZE first 4294967295 result 65536 d b (32 * w) ms ms' _
    hk ?_ ?_
  · intro l hl _ i hi
    have := interval_end32_le BLOCK_SIZE b (32 * w + l) 65536 4294967295
    exact hres i (by omega)
  · intro l hl hal heq
    have := wrap8193_dead b (32 * w + l) hal
    omega

/-- Stage 2 folds the value of slot 65535 into slot 65536. -/
theorem wrap8193_stage2 (d : Nat) (scratch : Nat → Shared Nat) (m1 m2 : Mem Nat)
    (h : second_level_scan32 (fun a b : Nat => a + b) d 65544 scratch m1 = some m2) :
    (m1 (d + 65535)).1 ≤ (m2 (d + 65536)).1 := by
  rw [second_level_scan32_eq _ d 65544 scratch m1 (by decide)] at h
  obtain ⟨m2', h2, hs, _⟩ := second_level_scan_spec (fun a b : Nat => a + b) d 65544
    (by decide) scratch m1
  rw [h] at h2
  have hm : m2' = m2 := (Option.some.inj h2).symm
  subst hm
  rw [hs 65536 (by decide)]
  have e := chunkScan_pos (fun a b : Nat => a + b) Nat.add_assoc
    (fun j => (m1 (d + j)).1) 0 65536
  rw [Nat.sub_zero] at e
  show _ ≤ chunkScan (fun a b : Nat => a + b) (fun j => (m1 (d + j)).1) 0 (65536 / 32)
    (65536 % 32)
  rw [e]
  exact lfold_add_ge (fun j => (m1 (d + j)).1) 0 65536 65535 (by omega) (by omega)

/-- Stage 3: group 65537 adds `carry_in[65536]` to `result[65536]`. -/
theorem wrap8193_stage3 (result d : Nat) (m2 m3 : Mem Nat) (x : Nat)
    (h : launch 8193 BLOCK_SIZE
      (fun bid tb (ms : Mem Nat × Unit) =>
        (inclusive_update_kernel32 (fun a b : Nat => a + b) BLOCK_SIZE result 4294967295
          65536 d bid tb ms.1).map fun m => (m, ()))
      (fun _ => ()) m2 = some m3)
    (hx : x ≤ (m2 (d + 65536)).1) : x ≤ (m3 (result + 65536)).1 := by
  have key := launch_cond_inv 8193 8 _ (fun _ => ())
    (fun G (m : Mem Nat) =>
      x ≤ (m (d + 65536)).1 ∧ (65538 ≤ G → x ≤ (m (result + 65536)).1))
    (fun _ => True) (fun _ _ => trivial)
    (by
      intro b w hb hw ms ms' hP _ hk
      simp only [Option.map_eq_some'] at hk
      obtain ⟨m1, hk1, rfl⟩ := hk
      have hmono := inclusive_update_kernel32_mono BLOCK_SIZE result 4294967295 65536 d b
        (32 * w) ms.1 m1 hk1
      refine ⟨⟨le_trans hP.1 (hmono _), fun hG => ?_⟩, trivial⟩
      rcases Nat.lt_or_ge (8 * b + w) 65538 with hlt | hge
      · have hb8 : b = 8192 := by omega
        have hw1 : w = 1 := by omega
        subst hb8 hw1
        rw [wrap8193_inclusive_update _ result d 1 (by omega) (by omega)] at hk1
        obtain ⟨m', hk', hup, _⟩ := inclusive_update_spec (fun a b : Nat => a + b)
          BLOCK_SIZE result 4294967295 65536 (d + 65536) 0 (32 * 1) ms.1 (by decide)
          (by decide) 1 65536 131072 (by decide) (by decide) (by decide)
        rw [hk1] at hk'
        have hm : m' = m1 := (Option.some.inj hk').symm
        subst hm
        have hv := hup (by decide) (by decide) 65536 (by omega) (by omega)
        have := hP.1
        show x ≤ (m' (result + 65536)).1
        rw [hv]
        show x ≤ (ms.1 (d + 65536 + (1 - 1))).1 + (ms.1 (result + 65536)).1
        simp only [Nat.sub_self, Nat.add_zero]
        omega
      · exact le_trans (hP.2 hge) (hmono _))
    m2 m3 ⟨hx, fun h => by omega⟩ h
  exact key.2 (by decide)

/-- When the values in memory and in the scratch arrays lie in a set closed under `op`, so
do the values in the memory the 32-bit `inclusive_scan` returns. -/
theorem inclusive_scan32_closed (op : α → α → α) (S : α → Prop)
    (hS : ∀ x y, S x → S y → S (op x y)) (MB first last result d : Nat)
    (s1 s2 : Nat → Shared α) (mem : Mem α) (r : Nat × Mem α)
    (h : inclusive_scan32 op MB first last result d s1 s2 mem = some r)
    (hm : ∀ a, S (mem a).1) (h1 : ∀ b x, S (s1 b x)) (h2 : ∀ b x, S (s2 b x)) :
    ∀ a, S (r.2 a).1 := by
  unfold inclusive_scan32 at h
  dsimp only at h
  by_cases hn : last - first = 0
  · rw [if_pos hn] at h
    rw [← Option.some.inj h]
    exact hm
  · rw [if_neg hn] at h
    simp only [Option.bind_eq_some] at h
    obtain ⟨m1, hl1, m2, hl2, m3, hl3, hr⟩ := h
    rw [← Option.some.inj hr]
    show ∀ a, S (m3 a).1
    have c1 : ∀ a, S (m1 a).1 :=
      launch_cond_inv _ 8 _ s1 (fun _ (m : Mem α) => ∀ a, S (m a).1)
        (fun sd => ∀ x, S (sd x)) (fun b _ => h1 b)
        (fun b w _ _ ms ms' hP hQ hk => kernel32_closed op S hS _ _ _ _ _ _ _ _ ms ms' hk hP hQ)
        mem m1 hm hl1
    have c2 : ∀ a, S (m2 a).1 := by
      unfold second_level_scan32 at hl2
      exact launch_cond_inv 1 1 _ s2 (fun _ (m : Mem α) => ∀ a, S (m a).1)
        (fun sd => ∀ x, S (sd x)) (fun b _ => h2 b)
        (fun b w _ _ ms ms' hP hQ hk => kernel32_closed op S hS _ _ _ _ _ _ _ _ ms ms' hk hP hQ)
        m1 m2 c1 hl2
    exact launch_cond_inv _ 8 _ (fun _ => ()) (fun _ (m : Mem α) => ∀ a, S (m a).1)
      (fun _ => True) (fun _ _ => trivial)
      (by
        intro b w _ _ ms ms' hP _ hk
        simp only [Option.map_eq_some'] at hk
        obtain ⟨mm, hk1, rfl⟩ := hk
        exact ⟨inclusive_update_kernel32_closed op S hS _ _ _ _ _ _ _ ms.1 mm hk1 hP, trivial⟩)
      m2 m3 c2 hl3

/-! ### The 32-bit `inclusive_scan` returns on the input `n = 2 ^ 32 - 1`, `MAX_BLOCKS = 8193` -/

/-- For the groups `0 .. 65534` no index computation wraps. -/
theorem wrap8193_nowrap (bid tid : Nat) (hw : (256 * bid + tid) / 32 < 65535) :
    NoWrap BLOCK_SIZE bid tid 65536 4294967295 := by
  have hW : warp_id BLOCK_SIZE bid tid = (256 * bid + tid) / 32 := rfl
  have hT : thread_id BLOCK_SIZE bid tid = 256 * bid + tid := rfl
  have hB : BLOCK_SIZE = 256 := rfl
  have hS : WARP_SIZE = 32 := rfl
  have hl : thread_lane tid < 32 := by rw [thread_lane_eq_mod]; omega
  have hib : interval_begin BLOCK_SIZE bid tid 65536 = (256 * bid + tid) / 32 * 65536 := rfl
  have hie : interval_end BLOCK_SIZE bid tid 65536 4294967295 ≤ 4294901760 := by
    unfold interval_end
    rw [hib]
    have := Nat.min_le_left ((256 * bid + tid) / 32 * 65536 + 65536) 4294967295
    omega
  refine ⟨by rw [hB]; omega, by rw [hT]; omega, by rw [hW]; omega, by rw [hib]; omega,
    by rw [hib]; omega, by rw [hS]; omega, fun i hi => by rw [hS]; omega⟩

theorem wrap8193_kernel_returns (op : α → α → α) (first result d b w : Nat) (hb : b < 8193)
    (hw : w < 8) (hio : ∀ i j, i < j → j < 4294967295 → result + i ≠ first + j)
    (ms : Mem α × Shared α) :
    ∃ ms', kernel32 op BLOCK_SIZE first 4294967295 result 65536 d b (32 * w) ms
      = some ms' := by
  have hS : WARP_SIZE = 32 := rfl
  rcases Nat.lt_or_ge (8 * b + w) 65535 with h | h
  · rw [kernel32_eq op BLOCK_SIZE first 4294967295 result 65536 d b (32 * w) ms
      (fun l hl => wrap8193_nowrap b (32 * w + l) (by omega))]
    obtain ⟨m, sd⟩ := ms
    obtain ⟨m', sd', hk, _⟩ := kernel_spec op BLOCK_SIZE first 4294967295 result 65536 d b
      (32 * w) m sd (by decide) (by omega) _ _ _ rfl rfl rfl
      (fun i j _ h2 h3 => hio i j h2 (by
        have := Nat.min_le_right ((BLOCK_SIZE * b + 32 * w) / 32 * 65536 + 65536) 4294967295
        omega))
    exact ⟨_, hk⟩
  · rcases Nat.lt_or_ge (8 * b + w) 65536 with h' | h'
    · apply kernel32_idle
      intro l hl
      by_contra hc
      have h1 := wrap8193_dead b (32 * w + l) (by omega)
      rw [wrap8193_thread b (32 * w + l) hb (by omega)] at h1
      omega
    · have hb8 : b = 8192 := by omega
      subst hb8
      rw [wrap8193_kernel op first result d w hw ms]
      obtain ⟨m, sd⟩ := ms
      obtain ⟨m', sd', hk, _⟩ := kernel_spec op BLOCK_SIZE first 4294967295 result 65536
        (d + 65536) 0 (32 * w) m sd (by decide) (by omega) _ _ _ rfl rfl rfl
        (fun i j _ h2 h3 => hio i j h2 (by
          have := Nat.min_le_right ((BLOCK_SIZE * 0 + 32 * w) / 32 * 65536 + 65536) 4294967295
          omega))
      exact ⟨_, hk⟩

theorem wrap8193_inclusive_update_returns (op : α → α → α) (result d b w : Nat)
    (hb : b < 8193) (hw : w < 8) (mem : Mem α) :
    ∃ m', inclusive_update_kernel32 op BLOCK_SIZE result 4294967295 65536 d b (32 * w) mem
      = some m' := by
  have hS : WARP_SIZE = 32 := rfl
  rcases Nat.lt_or_ge (8 * b + w) 65535 with h | h
  · rw [inclusive_update_kernel32_eq op BLOCK_SIZE result 4294967295 65536 d b (32 * w) mem
      (fun l hl => wrap8193_nowrap b (32 * w + l) (by omega))]
    obtain ⟨m', hk, _⟩ := inclusive_update_spec op BLOCK_SIZE result 4294967295 65536 d b
      (32 * w) mem (by decide) (by omega) _ _ _ rfl rfl rfl
    exact ⟨_, hk⟩
  · rcases Nat.lt_or_ge (8 * b + w) 65536 with h' | h'
    · apply inclusive_update_kernel32_idle
      intro l hl
      right; right
      by_contra hc
      have h1 := wrap8193_dead b (32 * w + l) (by omega)
      rw [wrap8193_thread b (32 * w + l) hb (by omega)] at h1
      omega
    · have hb8 : b = 8192 := by omega
      subst hb8
      rcases Nat.eq_zero_or_pos w with h0 | h0
      · subst h0
        apply inclusive_update_kernel32_idle
        intro l hl
        left
        have h2 := (wrap8193_alias 0 l (by omega) (by omega)).2.1
        rw [h2]
      · rw [wrap8193_inclusive_update op result d w h0 hw mem]
        obtain ⟨m', hk, _⟩ := inclusive_update_spec op BLOCK_SIZE result 4294967295 65536
          (d + 65536) 0 (32 * w) mem (by decide) (by omega) _ _ _ rfl rfl rfl
        exact ⟨_, hk⟩

/-- For `n = 2 ^ 32 - 1` and `MAX_BLOCKS = 8193` the 32-bit `inclusive_scan` returns. -/
theorem wrap8193_inclusive_scan_returns (op : α → α → α) (first result d : Nat)
    (s1 s2 : Nat → Shared α) (mem : Mem α)
    (hio : ∀ i j, i < j → j < 4294967295 → result + i ≠ first + j) :
    ∃ r, inclusive_scan32 op 8193 first (first + 4294967295) result d s1 s2 mem = some r := by
  obtain ⟨e0, e2, e3, e5⟩ := wrap8193_sizes
  obtain ⟨m1, h1, _⟩ := launch_inv 8193 8
    (kernel32 op BLOCK_SIZE first 4294967295 result 65536 d) s1 (fun _ _ => True)
    (fun b w hb hw m sc _ => by
      obtain ⟨ms', hk⟩ := wrap8193_kernel_returns op first result d b w hb hw hio (m, sc)
      exact ⟨ms'.1, ms'.2, hk, trivial⟩)
    mem trivial
  obtain ⟨m2, h2⟩ := second_level_scan32_returns op d 65544 (by decide) (by decide) s2 m1
  obtain ⟨m3, h3, _⟩ := launch_inv 8193 8
    (fun bid tb (ms : Mem α × Unit) =>
      (inclusive_update_kernel32 op BLOCK_SIZE result 4294967295 65536 d bid tb
        ms.1).map fun m => (m, ()))
    (fun _ => ()) (fun _ _ => True)
    (fun b w hb hw m sc _ => by
      obtain ⟨mm, hk⟩ := wrap8193_inclusive_update_returns op result d b w hb hw m
      exact ⟨mm, (), by simp only [hk, Option.map_some'], trivial⟩)
    m2 trivial
  refine ⟨(result + 4294967295, m3), ?_⟩
  unfold inclusive_scan32
  simp only [Nat.add_sub_cancel_left, e0, e2, e3, e5]
  have hne : ¬ (4294967295 = 0) := by decide
  simp only [hne, if_false]
  exact Option.bind_eq_some.2 ⟨m1, h1, Option.bind_eq_some.2 ⟨m2, h2,
    Option.bind_eq_some.2 ⟨m3, h3, rfl⟩⟩⟩

/-- C20 fails outside the range: for `n = 2 ^ 32 - 1` and `MAX_BLOCKS = 8193` (addition, an
input of zeros, output at `2 ^ 33`, carry buffer at `2 ^ 35`) two runs of the 32-bit
`inclusive_scan` on memories that differ only in carry slot 65535 (`0` and `7`) both return,
with different outputs: group 65535 returns at once and never stores its carry, stage 2
folds the slot into slot 65536, and group 65537, whose interval wraps onto `[65536, 131072)`,
adds `carry_in[65536]` to `output[65536]`, which ends as `0` in the first run and as at
least `7` in the second. -/
theorem scan32_depends_on_carry_on_wrap :
    1 ≤ 8193 ∧
    WellPlaced 0 4294967295 8589934592 34359738368 (num_warps32 4294967295 8193) ∧
    (∀ a, (a < 34359738368 ∨ 34359738368 + num_warps32 4294967295 8193 ≤ a) →
      (fun _ => (0, false) : Mem Nat) a
        = (fun a => (if a = 34359738368 + 65535 then 7 else 0, false) : Mem Nat) a) ∧
    65536 < 4294967295 ∧
    ∃ r r',
        inclusive_scan32 (fun a b : Nat => a + b) 8193 0 (0 + 4294967295) 8589934592
          34359738368 (fun _ _ => 0) (fun _ _ => 0) (fun _ => (0, false)) = some r ∧
        inclusive_scan32 (fun a b : Nat => a + b) 8193 0 (0 + 4294967295) 8589934592
          34359738368 (fun _ _ => 0) (fun _ _ => 0)
          (fun a => (if a = 34359738368 + 65535 then 7 else 0, false)) = some r' ∧
        (r.2 (8589934592 + 65536)).1 = 0 ∧ 7 ≤ (r'.2 (8589934592 + 65536)).1 ∧
        r.2 (8589934592 + 65536) ≠ r'.2 (8589934592 + 65536) := by
  obtain ⟨e0, e2, e3, e5⟩ := wrap8193_sizes
  refine ⟨by decide, by decide, ?_, by decide, ?_⟩
  · intro a ha
    rw [e2] at ha
    have : ¬ (a = 34359738368 + 65535) := by omega
    simp [this]
  · obtain ⟨r, hr⟩ := wrap8193_inclusive_scan_returns (fun a b : Nat => a + b) 0 8589934592
      34359738368 (fun _ _ => 0) (fun _ _ => 0) (fun _ => (0, false))
      (fun i j _ _ => by omega)
    obtain ⟨r', hr'⟩ := wrap8193_inclusive_scan_returns (fun a b : Nat => a + b) 0
      8589934592 34359738368 (fun _ _ => 0) (fun _ _ => 0)
      (fun a => (if a = 34359738368 + 65535 then 7 else 0, false)) (fun i j _ _ => by omega)
    have h0 : (r.2 (8589934592 + 65536)).1 = 0 :=
      inclusive_scan32_closed (fun a b : Nat => a + b) (fun v => v = 0)
        (fun x y hx hy => by rw [hx, hy]) 8193 0 (0 + 4294967295) 8589934592 34359738368 _ _
        _ r hr (fun _ => rfl) (fun _ _ => rfl) (fun _ _ => rfl) _
    have h7 : 7 ≤ (r'.2 (8589934592 + 65536)).1 := by
      have hq := hr'
      unfold inclusive_scan32 at hq
      simp only [Nat.add_sub_cancel_left, e0, e2, e3, e5] at hq
      rw [if_neg (by decide)] at hq
      simp only [Option.bind_eq_some] at hq
      obtain ⟨m1, h1, m2, h2, m3, h3, hr3⟩ := hq
      have a1 := wrap8193_stage1 _ 0 8589934592 34359738368 _ _ m1 h1 (fun i hi => by omega)
      have a2 := wrap8193_stage2 34359738368 _ m1 m2 h2
      have a3 := wrap8193_stage3 8589934592 34359738368 m2 m3 7 h3 (by
        rw [a1] at a2
        simpa using a2)
      rw [← Option.some.inj hr3]
      exact a3
    refine ⟨r, r', hr, hr', h0, h7, fun heq => ?_⟩
    rw [heq] at h0
    omega

end Scan
